import Mathlib

/-!
Verification development for the telemetry and artifact-persistence core of
`ansible-runner` (file `src/ansible_runner/utils/__init__.py`).

The Python source is shallowly embedded: Python `str` values are Lean
`String`s (the streaming decoder works on `List Char`, the underlying
character list); Python dicts that hold JSON-like data are association
lists preserving insertion order; the filesystem is an explicit state
record threaded through the functions that touch it; Python exceptions are
`Except` values.  Randomness (`uuid.uuid4`) is modelled by a deterministic
counter threaded through the decoder state, and `json` numbers that are
not integers are kept as their raw lexeme.  Console echo (`sys.stdout`)
and transcript-handle writes are not modelled: no claim observes them;
the event callback deliveries are recorded in an explicit list.
-/

/-- Characters of a Python string; the streaming decoder recurses over these. -/
abbrev Str := List Char

/-- JSON values as produced by Python's `json` module: objects keep insertion
order; integer literals become Python `int`s; any other number keeps its raw
lexeme (float semantics are never compared by this development). -/
inductive JVal where
  | null
  | bool (b : Bool)
  | int (n : Int)
  | numRaw (s : String)
  | str (s : String)
  | arr (elems : List JVal)
  | obj (entries : List (String × JVal))
  deriving Repr

mutual

def decEqJVal : (a b : JVal) → Decidable (a = b)
  | .null, .null => isTrue rfl
  | .bool x, .bool y =>
      match decEq x y with
      | isTrue h => isTrue (by rw [h])
      | isFalse h => isFalse (by intro he; injection he; contradiction)
  | .int x, .int y =>
      match decEq x y with
      | isTrue h => isTrue (by rw [h])
      | isFalse h => isFalse (by intro he; injection he; contradiction)
  | .numRaw x, .numRaw y =>
      match decEq x y with
      | isTrue h => isTrue (by rw [h])
      | isFalse h => isFalse (by intro he; injection he; contradiction)
  | .str x, .str y =>
      match decEq x y with
      | isTrue h => isTrue (by rw [h])
      | isFalse h => isFalse (by intro he; injection he; contradiction)
  | .arr x, .arr y =>
      match decEqJList x y with
      | isTrue h => isTrue (by rw [h])
      | isFalse h => isFalse (by intro he; injection he; contradiction)
  | .obj x, .obj y =>
      match decEqJEntries x y with
      | isTrue h => isTrue (by rw [h])
      | isFalse h => isFalse (by intro he; injection he; contradiction)
  | .null, .bool _ => isFalse nofun
  | .null, .int _ => isFalse nofun
  | .null, .numRaw _ => isFalse nofun
  | .null, .str _ => isFalse nofun
  | .null, .arr _ => isFalse nofun
  | .null, .obj _ => isFalse nofun
  | .bool _, .null => isFalse nofun
  | .bool _, .int _ => isFalse nofun
  | .bool _, .numRaw _ => isFalse nofun
  | .bool _, .str _ => isFalse nofun
  | .bool _, .arr _ => isFalse nofun
  | .bool _, .obj _ => isFalse nofun
  | .int _, .null => isFalse nofun
  | .int _, .bool _ => isFalse nofun
  | .int _, .numRaw _ => isFalse nofun
  | .int _, .str _ => isFalse nofun
  | .int _, .arr _ => isFalse nofun
  | .int _, .obj _ => isFalse nofun
  | .numRaw _, .null => isFalse nofun
  | .numRaw _, .bool _ => isFalse nofun
  | .numRaw _, .int _ => isFalse nofun
  | .numRaw _, .str _ => isFalse nofun
  | .numRaw _, .arr _ => isFalse nofun
  | .numRaw _, .obj _ => isFalse nofun
  | .str _, .null => isFalse nofun
  | .str _, .bool _ => isFalse nofun
  | .str _, .int _ => isFalse nofun
  | .str _, .numRaw _ => isFalse nofun
  | .str _, .arr _ => isFalse nofun
  | .str _, .obj _ => isFalse nofun
  | .arr _, .null => isFalse nofun
  | .arr _, .bool _ => isFalse nofun
  | .arr _, .int _ => isFalse nofun
  | .arr _, .numRaw _ => isFalse nofun
  | .arr _, .str _ => isFalse nofun
  | .arr _, .obj _ => isFalse nofun
  | .obj _, .null => isFalse nofun
  | .obj _, .bool _ => isFalse nofun
  | .obj _, .int _ => isFalse nofun
  | .obj _, .numRaw _ => isFalse nofun
  | .obj _, .str _ => isFalse nofun
  | .obj _, .arr _ => isFalse nofun

def decEqJList : (a b : List JVal) → Decidable (a = b)
  | [], [] => isTrue rfl
  | [], _ :: _ => isFalse nofun
  | _ :: _, [] => isFalse nofun
  | x :: xs, y :: ys =>
      match decEqJVal x y with
      | isFalse h => isFalse (by intro he; injection he; contradiction)
      | isTrue h1 =>
        match decEqJList xs ys with
        | isTrue h2 => isTrue (by rw [h1, h2])
        | isFalse h => isFalse (by intro he; injection he; contradiction)

def decEqJEntries : (a b : List (String × JVal)) → Decidable (a = b)
  | [], [] => isTrue rfl
  | [], _ :: _ => isFalse nofun
  | _ :: _, [] => isFalse nofun
  | (k1, v1) :: xs, (k2, v2) :: ys =>
      match decEq k1 k2 with
      | isFalse h => isFalse (by intro he; injection he with h1 h2; cases h1; contradiction)
      | isTrue hk =>
        match decEqJVal v1 v2 with
        | isFalse h => isFalse (by intro he; injection he with h1 h2; cases h1; contradiction)
        | isTrue hv =>
          match decEqJEntries xs ys with
          | isTrue h2 => isTrue (by rw [hk, hv, h2])
          | isFalse h => isFalse (by intro he; injection he; contradiction)

end

instance : DecidableEq JVal := decEqJVal

/-- A Python dict holding JSON-like values, in insertion order. -/
abbrev Dict := List (String × JVal)

/-- `d[k]` lookup (leftmost entry, though keys are kept unique by `dset`). -/
def dget (d : Dict) (k : String) : Option JVal :=
  (d.find? (fun p => p.1 == k)).map (fun p => p.2)

/-- `d[k] = v`: overwrite in place preserving position, else append. -/
def dset (d : Dict) (k : String) (v : JVal) : Dict :=
  match d with
  | [] => [(k, v)]
  | (k', v') :: rest => if k' == k then (k, v) :: rest else (k', v') :: dset rest k v

/-- `k in d`. -/
def dhas (d : Dict) (k : String) : Bool :=
  d.any (fun p => p.1 == k)

/-- Python truthiness of a JSON-like value (`if obj:`).  A non-integer numeric
lexeme is modelled as truthy; no claim exercises a float zero. -/
def truthy : JVal → Bool
  | .null => false
  | .bool b => b
  | .int n => n != 0
  | .numRaw _ => true
  | .str s => s != ""
  | .arr l => !l.isEmpty
  | .obj l => !l.isEmpty

/-- Truthiness of `d.get(k)` where a missing key gives `None`. -/
def truthyOpt : Option JVal → Bool
  | none => false
  | some v => truthy v

/-! ### JSON parsing (`json.load` / `json.loads`)

Fuel-indexed recursive-descent parser for the JSON accepted by Python's
`json` module, restricted to the constructs this repository's data can
contain: objects, arrays, strings with the standard escapes, integers and
raw non-integer number lexemes, `true`/`false`/`null`.  `\u` escapes decode
a single BMP scalar (surrogate pairing and `NaN`/`Infinity` extensions are
outside every claim).  Failure is `none`; Python raises `ValueError`
(`json.JSONDecodeError`) in exactly the situations modelled as `none`. -/

def isJsonWs (c : Char) : Bool :=
  c == ' ' || c == '\t' || c == '\n' || c == '\r'

def skipWs (s : Str) : Str := s.dropWhile isJsonWs

def isHexDigit (c : Char) : Bool :=
  c.isDigit || ('a' ≤ c && c ≤ 'f') || ('A' ≤ c && c ≤ 'F')

def hexVal (c : Char) : Nat :=
  if c.isDigit then c.toNat - '0'.toNat
  else if 'a' ≤ c && c ≤ 'f' then c.toNat - 'a'.toNat + 10
  else c.toNat - 'A'.toNat + 10

/-- Parse the body of a JSON string (after the opening quote), returning the
decoded characters and the rest after the closing quote. -/
def parseJStr : Nat → Str → Option (List Char × Str)
  | 0, _ => none
  | _, [] => none
  | fuel + 1, c :: rest =>
    if c == '"' then some ([], rest)
    else if c == '\\' then
      match rest with
      | [] => none
      | e :: rest' =>
        let cont (ch : Char) (r : Str) : Option (List Char × Str) :=
          match parseJStr fuel r with
          | some (cs, r') => some (ch :: cs, r')
          | none => none
        if e == '"' then cont '"' rest'
        else if e == '\\' then cont '\\' rest'
        else if e == '/' then cont '/' rest'
        else if e == 'b' then cont (Char.ofNat 8) rest'
        else if e == 'f' then cont (Char.ofNat 12) rest'
        else if e == 'n' then cont '\n' rest'
        else if e == 'r' then cont '\r' rest'
        else if e == 't' then cont '\t' rest'
        else if e == 'u' then
          match rest' with
          | h1 :: h2 :: h3 :: h4 :: rest2 =>
            if isHexDigit h1 && isHexDigit h2 && isHexDigit h3 && isHexDigit h4 then
              cont (Char.ofNat (((hexVal h1 * 16 + hexVal h2) * 16 + hexVal h3) * 16 + hexVal h4)) rest2
            else none
          | _ => none
        else none
    else if c.toNat < 0x20 then none    -- raw control characters are rejected (strict mode)
    else
      match parseJStr fuel rest with
      | some (cs, r') => some (c :: cs, r')
      | none => none

/-- Digits to a natural number (the list is already known to be all digits). -/
def digitsToNat (l : List Char) : Nat :=
  l.foldl (fun acc c => acc * 10 + (c.toNat - '0'.toNat)) 0

/-- Parse a JSON number starting at `s`; integer literals become `.int`,
anything with a fraction or exponent keeps its lexeme. -/
def parseJNum (s : Str) : Option (JVal × Str) :=
  let (neg, s1) := match s with
                   | '-' :: r => (true, r)
                   | _ => (false, s)
  let intPart := s1.takeWhile Char.isDigit
  if intPart.isEmpty then none
  else if intPart.length > 1 && intPart.headD '0' == '0' then none
  else
    let s2 := s1.drop intPart.length
    let fracPart : Option (List Char × Str) :=
      match s2 with
      | '.' :: r =>
          let ds := r.takeWhile Char.isDigit
          if ds.isEmpty then none else some ('.' :: ds, r.drop ds.length)
      | _ => some ([], s2)
    match fracPart with
    | none => none
    | some (frac, s3) =>
      let expPart : Option (List Char × Str) :=
        match s3 with
        | e :: r =>
          if e == 'e' || e == 'E' then
            let (sgn, r1) := match r with
                             | '+' :: r' => (['+'], r')
                             | '-' :: r' => (['-'], r')
                             | _ => (([] : List Char), r)
            let ds := r1.takeWhile Char.isDigit
            if ds.isEmpty then none else some (e :: (sgn ++ ds), r1.drop ds.length)
          else some ([], s3)
        | [] => some ([], s3)
      match expPart with
      | none => none
      | some (ex, s4) =>
        if frac.isEmpty && ex.isEmpty then
          let n : Int := Int.ofNat (digitsToNat intPart)
          some (.int (if neg then -n else n), s4)
        else
          let lexeme := (if neg then ['-'] else []) ++ intPart ++ frac ++ ex
          some (.numRaw ⟨lexeme⟩, s4)

mutual

/-- Parse one JSON value; the input begins at a significant character. -/
def parseJVal : Nat → Str → Option (JVal × Str)
  | 0, _ => none
  | fuel + 1, s =>
    match s with
    | [] => none
    | 'n' :: 'u' :: 'l' :: 'l' :: r => some (.null, r)
    | 't' :: 'r' :: 'u' :: 'e' :: r => some (.bool true, r)
    | 'f' :: 'a' :: 'l' :: 's' :: 'e' :: r => some (.bool false, r)
    | '"' :: r =>
        match parseJStr (fuel + 1) r with
        | some (cs, r') => some (.str ⟨cs⟩, r')
        | none => none
    | '[' :: r =>
        (match skipWs r with
         | ']' :: r' => some (.arr [], r')
         | r1 =>
           match parseJArr fuel r1 with
           | some (elems, r') => some (.arr elems, r')
           | none => none)
    | '{' :: r =>
        (match skipWs r with
         | '}' :: r' => some (.obj [], r')
         | r1 =>
           match parseJObj fuel r1 with
           | some (entries, r') => some (.obj entries, r')
           | none => none)
    | _ => parseJNum s

/-- Parse the elements of a non-empty array, up to and including `]`. -/
def parseJArr : Nat → Str → Option (List JVal × Str)
  | 0, _ => none
  | fuel + 1, s =>
    match parseJVal fuel s with
    | none => none
    | some (v, r) =>
      match skipWs r with
      | ',' :: r' =>
        (match parseJArr fuel (skipWs r') with
         | some (vs, r2) => some (v :: vs, r2)
         | none => none)
      | ']' :: r' => some ([v], r')
      | _ => none

/-- Parse the entries of a non-empty object, up to and including `}`. -/
def parseJObj : Nat → Str → Option (List (String × JVal) × Str)
  | 0, _ => none
  | fuel + 1, s =>
    match s with
    | '"' :: r =>
      (match parseJStr (fuel + 1) r with
       | none => none
       | some (k, r1) =>
         match skipWs r1 with
         | ':' :: r2 =>
           (match parseJVal fuel (skipWs r2) with
            | none => none
            | some (v, r3) =>
              match skipWs r3 with
              | ',' :: r4 =>
                (match parseJObj fuel (skipWs r4) with
                 | some (entries, r5) => some ((⟨k⟩, v) :: entries, r5)
                 | none => none)
              | '}' :: r4 => some ([(⟨k⟩, v)], r4)
              | _ => none)
         | _ => none)
    | _ => none

end

/-- `json.loads(s)`: the whole input must be one value plus whitespace. -/
def jsonLoads (s : Str) : Option JVal :=
  match parseJVal (2 * s.length + 4) (skipWs s) with
  | some (v, rest) => if (skipWs rest).isEmpty then some v else none
  | none => none

example : jsonLoads "{}".data = some (.obj []) := by decide
example : jsonLoads "A".data = none := by decide
example : jsonLoads " [1, 2] ".data = some (.arr [.int 1, .int 2]) := by decide
example : jsonLoads "\x7b\"event\": \"x\"\x7d".data = some (.obj [("event", .str "x")]) := by decide

/-! ### `json.dumps` (default separators, `ensure_ascii=True`) -/

def hexDigitChar (n : Nat) : Char :=
  if n < 10 then Char.ofNat ('0'.toNat + n) else Char.ofNat ('a'.toNat + (n - 10))

def hex4 (n : Nat) : List Char :=
  [hexDigitChar (n / 4096 % 16), hexDigitChar (n / 256 % 16),
   hexDigitChar (n / 16 % 16), hexDigitChar (n % 16)]

/-- Escape one character of a JSON string the way `json.dumps` does with
`ensure_ascii=True` (astral characters would use surrogate pairs; no claim
serializes one). -/
def jsonEscapeChar (c : Char) : List Char :=
  if c == '"' then ['\\', '"']
  else if c == '\\' then ['\\', '\\']
  else if c == '\n' then ['\\', 'n']
  else if c == '\r' then ['\\', 'r']
  else if c == '\t' then ['\\', 't']
  else if c.toNat == 8 then ['\\', 'b']
  else if c.toNat == 12 then ['\\', 'f']
  else if c.toNat < 0x20 || c.toNat > 0x7e then '\\' :: 'u' :: hex4 c.toNat
  else [c]

def jsonQuote (s : String) : String :=
  ⟨'"' :: (s.data.foldr (fun c acc => jsonEscapeChar c ++ acc) ['"'])⟩

def commaJoin (l : List String) : String :=
  match l with
  | [] => ""
  | [x] => x
  | x :: rest => x ++ ", " ++ commaJoin rest

mutual

/-- `json.dumps(v)` with the default separators `(', ', ': ')`. -/
def jsonDumps : JVal → String
  | .null => "null"
  | .bool true => "true"
  | .bool false => "false"
  | .int n => toString n
  | .numRaw s => s
  | .str s => jsonQuote s
  | .arr elems => "[" ++ commaJoin (jsonDumpsList elems) ++ "]"
  | .obj entries => "\x7b" ++ commaJoin (jsonDumpsEntries entries) ++ "\x7d"

def jsonDumpsList : List JVal → List String
  | [] => []
  | v :: rest => jsonDumps v :: jsonDumpsList rest

def jsonDumpsEntries : List (String × JVal) → List String
  | [] => []
  | (k, v) :: rest => (jsonQuote k ++ ": " ++ jsonDumps v) :: jsonDumpsEntries rest

end

example : jsonDumps (.arr [.obj [("hosts", .str "all")]]) = "[\x7b\"hosts\": \"all\"\x7d]" := by decide

/-! ### Bytes, UTF-8, base64 (`.encode()`, `.decode('utf-8')`, `base64.b64decode`) -/

/-- A Python `bytes` value. -/
abbrev Bytes := List Nat

/-- UTF-8 encoding of one scalar value. -/
def utf8EncodeChar (n : Nat) : Bytes :=
  if n < 0x80 then [n]
  else if n < 0x800 then [0xc0 + n / 64, 0x80 + n % 64]
  else if n < 0x10000 then [0xe0 + n / 4096, 0x80 + n / 64 % 64, 0x80 + n % 64]
  else [0xf0 + n / 262144, 0x80 + n / 4096 % 64, 0x80 + n / 64 % 64, 0x80 + n % 64]

/-- `s.encode('utf-8')`. -/
def utf8Encode (s : Str) : Bytes :=
  s.foldr (fun c acc => utf8EncodeChar c.toNat ++ acc) []

/-- `b.decode('utf-8')`: strict decoding, `none` models `UnicodeDecodeError`
(a `ValueError`).  Continuation bytes are validated; the overlong/surrogate
checks follow the standard ranges. -/
def utf8Decode : Bytes → Option Str
  | [] => some []
  | b :: rest =>
    if b < 0x80 then
      match utf8Decode rest with
      | some cs => some (Char.ofNat b :: cs)
      | none => none
    else if 0xc2 ≤ b && b ≤ 0xdf then
      match rest with
      | b2 :: rest2 =>
        if 0x80 ≤ b2 && b2 ≤ 0xbf then
          match utf8Decode rest2 with
          | some cs => some (Char.ofNat ((b - 0xc0) * 64 + (b2 - 0x80)) :: cs)
          | none => none
        else none
      | _ => none
    else if 0xe0 ≤ b && b ≤ 0xef then
      match rest with
      | b2 :: b3 :: rest2 =>
        if 0x80 ≤ b2 && b2 ≤ 0xbf && 0x80 ≤ b3 && b3 ≤ 0xbf then
          let n := (b - 0xe0) * 4096 + (b2 - 0x80) * 64 + (b3 - 0x80)
          if n < 0x800 || (0xd800 ≤ n && n ≤ 0xdfff) then none
          else
            match utf8Decode rest2 with
            | some cs => some (Char.ofNat n :: cs)
            | none => none
        else none
      | _ => none
    else if 0xf0 ≤ b && b ≤ 0xf4 then
      match rest with
      | b2 :: b3 :: b4 :: rest2 =>
        if 0x80 ≤ b2 && b2 ≤ 0xbf && 0x80 ≤ b3 && b3 ≤ 0xbf && 0x80 ≤ b4 && b4 ≤ 0xbf then
          let n := (b - 0xf0) * 262144 + (b2 - 0x80) * 4096 + (b3 - 0x80) * 64 + (b4 - 0x80)
          if n < 0x10000 || n > 0x10ffff then none
          else
            match utf8Decode rest2 with
            | some cs => some (Char.ofNat n :: cs)
            | none => none
        else none
      | _ => none
    else none

/-- Index of a character in the standard base64 alphabet. -/
def b64Index (c : Char) : Option Nat :=
  if 'A' ≤ c && c ≤ 'Z' then some (c.toNat - 'A'.toNat)
  else if 'a' ≤ c && c ≤ 'z' then some (c.toNat - 'a'.toNat + 26)
  else if c.isDigit then some (c.toNat - '0'.toNat + 52)
  else if c == '+' then some 62
  else if c == '/' then some 63
  else none

def isB64OrPad (c : Char) : Bool :=
  (b64Index c).isSome || c == '='

/-- Decode the quads of an already-filtered base64 text; `'='` is accepted
only as the final one or two characters. -/
def b64Quads : Str → Option Bytes
  | [] => some []
  | c1 :: c2 :: c3 :: c4 :: rest =>
    (match b64Index c1, b64Index c2 with
     | some i1, some i2 =>
       if c3 == '=' then
         if c4 == '=' && rest.isEmpty then some [i1 * 4 + i2 / 16] else none
       else
         match b64Index c3 with
         | some i3 =>
           if c4 == '=' then
             if rest.isEmpty then some [i1 * 4 + i2 / 16, i2 % 16 * 16 + i3 / 4] else none
           else
             match b64Index c4 with
             | some i4 =>
               (match b64Quads rest with
                | some bs => some ([i1 * 4 + i2 / 16, i2 % 16 * 16 + i3 / 4, i3 % 4 * 64 + i4] ++ bs)
                | none => none)
             | none => none
         | none => none
     | _, _ => none)
  | _ => none

/-- `base64.b64decode(s)` with the default `validate=False`: characters
outside the alphabet and `'='` are discarded first; a total length not a
multiple of four is `binascii.Error` (a `ValueError`), modelled as `none`. -/
def b64Decode (s : Str) : Option Bytes :=
  let filtered := s.filter isB64OrPad
  if filtered.length % 4 == 0 then b64Quads filtered else none

example : b64Decode "QQ==".data = some [0x41] := by decide
example : b64Decode "eyJhIjogMX0=".data = some (utf8Encode "\x7b\"a\": 1\x7d".data) := by decide

/-! ### SHA-1 (`hashlib.sha1(...).hexdigest()`)

A direct implementation of FIPS 180 SHA-1 over the UTF-8 encoding of the
content, used by the artifact writer to compare an existing file's content
against the content to be written. -/

def w32 (n : Nat) : Nat := n % 4294967296

def rotl32 (k n : Nat) : Nat := w32 (n * 2 ^ k + n / 2 ^ (32 - k))

def shaF (t b c d : Nat) : Nat :=
  if t < 20 then Nat.lor (Nat.land b c) (Nat.land (4294967295 - b) d)
  else if t < 40 then Nat.xor b (Nat.xor c d)
  else if t < 60 then Nat.lor (Nat.lor (Nat.land b c) (Nat.land b d)) (Nat.land c d)
  else Nat.xor b (Nat.xor c d)

def shaK (t : Nat) : Nat :=
  if t < 20 then 0x5a827999
  else if t < 40 then 0x6ed9eba1
  else if t < 60 then 0x8f1bbcdc
  else 0xca62c1d6

/-- Message schedule: extend sixteen 32-bit words to eighty (the word index
being extended is the current array size; the fuel argument counts the 64
remaining extensions). -/
def shaSchedule : Nat → Array Nat → Array Nat
  | 0, ws => ws
  | fuel + 1, ws =>
    let t := ws.size
    let w := rotl32 1 (Nat.xor (ws.getD (t - 3) 0)
      (Nat.xor (ws.getD (t - 8) 0) (Nat.xor (ws.getD (t - 14) 0) (ws.getD (t - 16) 0))))
    shaSchedule fuel (ws.push w)

/-- The eighty compression rounds; `t` is the round index, the fuel counts
the remaining rounds. -/
def shaRounds (ws : Array Nat) : Nat → Nat → Nat → Nat → Nat → Nat → Nat → Nat × Nat × Nat × Nat × Nat
  | 0, _, a, b, c, d, e => (a, b, c, d, e)
  | fuel + 1, t, a, b, c, d, e =>
    let tmp := w32 (rotl32 5 a + shaF t b c d + e + shaK t + ws.getD t 0)
    shaRounds ws fuel (t + 1) tmp a (rotl32 30 b) c d

def bytesToWords : Bytes → List Nat
  | b1 :: b2 :: b3 :: b4 :: rest => (((b1 * 256 + b2) * 256 + b3) * 256 + b4) :: bytesToWords rest
  | _ => []

/-- Process the padded message 64-byte block at a time (the fuel bounds the
number of blocks; callers pass the message length, which is ample). -/
def shaBlocks : Nat → Bytes → Nat → Nat → Nat → Nat → Nat → Nat × Nat × Nat × Nat × Nat
  | _, [], h0, h1, h2, h3, h4 => (h0, h1, h2, h3, h4)
  | 0, _, h0, h1, h2, h3, h4 => (h0, h1, h2, h3, h4)
  | fuel + 1, msg@(_ :: _), h0, h1, h2, h3, h4 =>
    let block := msg.take 64
    let ws := shaSchedule 64 (Array.mk (bytesToWords block))
    let (a, b, c, d, e) := shaRounds ws 80 0 h0 h1 h2 h3 h4
    shaBlocks fuel (msg.drop 64) (w32 (h0 + a)) (w32 (h1 + b)) (w32 (h2 + c)) (w32 (h3 + d)) (w32 (h4 + e))

/-- SHA-1 padding: `0x80`, zeros, 64-bit big-endian bit length. -/
def shaPad (msg : Bytes) : Bytes :=
  let len := msg.length
  let bitLen := len * 8
  let zeros := (64 - (len + 9) % 64) % 64
  msg ++ [0x80] ++ List.replicate zeros 0 ++
    [bitLen / 2 ^ 56 % 256, bitLen / 2 ^ 48 % 256, bitLen / 2 ^ 40 % 256, bitLen / 2 ^ 32 % 256,
     bitLen / 2 ^ 24 % 256, bitLen / 2 ^ 16 % 256, bitLen / 2 ^ 8 % 256, bitLen % 256]

def word8Hex (n : Nat) : List Char :=
  [hexDigitChar (n / 2 ^ 28 % 16), hexDigitChar (n / 2 ^ 24 % 16),
   hexDigitChar (n / 2 ^ 20 % 16), hexDigitChar (n / 2 ^ 16 % 16),
   hexDigitChar (n / 2 ^ 12 % 16), hexDigitChar (n / 2 ^ 8 % 16),
   hexDigitChar (n / 2 ^ 4 % 16), hexDigitChar (n % 16)]

/-- `hashlib.sha1(s.encode('UTF-8')).hexdigest()`. -/
def sha1Hex (s : String) : String :=
  let padded := shaPad (utf8Encode s.data)
  let (h0, h1, h2, h3, h4) :=
    shaBlocks padded.length padded 0x67452301 0xefcdab89 0x98badcfe 0x10325476 0xc3d2e1f0
  ⟨word8Hex h0 ++ word8Hex h1 ++ word8Hex h2 ++ word8Hex h3 ++ word8Hex h4⟩

set_option maxRecDepth 10000 in
example : sha1Hex "abc" = "a9993e364706816aba3e25717850c26c9cd0d89d" := by decide

/-! ### Filesystem model

Files and directories are path-addressed entries with modification times
stamped from a logical clock; `tempfile.mkstemp` / `tempfile.mkdtemp` names
come from a counter.  Paths are joined with `/` (every filename the source
passes to `os.path.join` here is relative). -/

inductive PyErr where
  | valueError (msg : String)
  | typeError
  | attributeError
  | fileNotFoundError
  | notADirectoryError
  | fileExistsError
  deriving Repr, DecidableEq

instance {ε α : Type} [DecidableEq ε] [DecidableEq α] : DecidableEq (Except ε α) := fun a b =>
  match a, b with
  | .error e1, .error e2 =>
    match decEq e1 e2 with
    | isTrue h => isTrue (by rw [h])
    | isFalse h => isFalse (by intro he; injection he; contradiction)
  | .ok v1, .ok v2 =>
    match decEq v1 v2 with
    | isTrue h => isTrue (by rw [h])
    | isFalse h => isFalse (by intro he; injection he; contradiction)
  | .error _, .ok _ => isFalse nofun
  | .ok _, .error _ => isFalse nofun

structure FEntry where
  path : String
  content : String
  mtime : Nat
  deriving Repr, DecidableEq

structure DEntry where
  path : String
  mtime : Nat
  deriving Repr, DecidableEq

structure FS where
  files : List FEntry
  dirs : List DEntry
  clock : Nat
  tmpCounter : Nat
  deriving Repr, DecidableEq

def joinPath (a b : String) : String := a ++ "/" ++ b

def FS.isFile (fs : FS) (p : String) : Bool := fs.files.any (fun e => e.path == p)

def FS.isDir (fs : FS) (p : String) : Bool := fs.dirs.any (fun e => e.path == p)

/-- `os.path.exists`. -/
def FS.exists (fs : FS) (p : String) : Bool := fs.isFile p || fs.isDir p

def FS.fileContent (fs : FS) (p : String) : Option String :=
  (fs.files.find? (fun e => e.path == p)).map (fun e => e.content)

/-- `os.path.getmtime` (0 for a missing entry; callers only ask for listed
entries). -/
def FS.getmtime (fs : FS) (p : String) : Nat :=
  match fs.files.find? (fun e => e.path == p) with
  | some e => e.mtime
  | none =>
    match fs.dirs.find? (fun e => e.path == p) with
    | some e => e.mtime
    | none => 0

/-- Create one directory entry if absent. -/
def FS.addDir (fs : FS) (d : String) : FS :=
  if fs.isDir d then fs
  else { fs with dirs := fs.dirs ++ [⟨d, fs.clock⟩], clock := fs.clock + 1 }

/-- `os.makedirs(p)`: create the directory (intermediate ancestor
directories are elided from the model; no listed code observes them). -/
def FS.makedirs (fs : FS) (p : String) : FS :=
  fs.addDir p

/-- Write (create or overwrite) a file, stamping the clock. -/
def FS.writeFile (fs : FS) (p content : String) : FS :=
  { fs with
    files := (fs.files.filter (fun e => e.path != p)) ++ [⟨p, content, fs.clock⟩],
    clock := fs.clock + 1 }

def FS.removeFile (fs : FS) (p : String) : FS :=
  { fs with files := fs.files.filter (fun e => e.path != p) }

/-- `shutil.rmtree`: drop the entry and everything below it. -/
def FS.rmtree (fs : FS) (p : String) : FS :=
  let below (q : String) : Bool := q == p || (joinPath p "").isPrefixOf q
  { fs with
    files := fs.files.filter (fun e => !below e.path),
    dirs := fs.dirs.filter (fun e => !below e.path) }

/-- The parent directory of a path (text before the final `/`). -/
def parentOf (p : String) : String :=
  match (p.splitOn "/").reverse with
  | _ :: rest => String.intercalate "/" rest.reverse
  | [] => ""

def baseNameOf (p : String) : String :=
  match (p.splitOn "/").reverse with
  | last :: _ => last
  | [] => p

/-- `os.listdir`: names of the immediate children, or the exception Python
raises; the model lists directory entries before file entries, in creation
order (the source sorts the result by mtime, so only mtime ties observe
this order). -/
def FS.listdir (fs : FS) (p : String) : Except PyErr (List String) :=
  if fs.isDir p then
    .ok ((fs.dirs.filter (fun e => parentOf e.path == p)).map (fun e => baseNameOf e.path) ++
         (fs.files.filter (fun e => parentOf e.path == p)).map (fun e => baseNameOf e.path))
  else if fs.isFile p then .error .notADirectoryError
  else .error .fileNotFoundError

/-- `tempfile.mkstemp(dir=path)`: create an empty, fresh-named file. -/
def FS.mkstemp (fs : FS) (path : String) : FS × String :=
  let fn := joinPath path ("tmp" ++ toString fs.tmpCounter)
  ({ fs.writeFile fn "" with tmpCounter := fs.tmpCounter + 1 }, fn)

structure DumpResult where
  fs : FS
  fn : String
  wrote : Bool
  deriving Repr, DecidableEq

/-- The guarded write of `dump_artifact`: create the
`.artifact_write_lock` sentinel, take the advisory lock, write the target
with owner-only permissions, then release and remove the sentinel. -/
def daLockedWrite (obj path fn : String) (fs : FS) : FS :=
  let lockFp := joinPath path ".artifact_write_lock"
  ((fs.writeFile lockFp "").writeFile fn obj).removeFile lockFp

/-- `dump_artifact(obj, path, filename)`: ensure the directory, digest the
content, skip the write when the target exists with an identical digest,
otherwise write under the lock sentinel.  `wrote` records whether the
guarded write ran (the model computes the existing file's digest
unconditionally; the source computes it only when the target exists, and
only reads it in that case). -/
def daEnsureDir (path : String) (fs : FS) : FS :=
  if fs.exists path then fs else fs.makedirs path

def dump_artifact (obj : String) (path : String) (filename : Option String) (fs : FS) : DumpResult :=
  let fs := daEnsureDir path fs
  let pSha := sha1Hex obj
  let (fs, fn) :=
    match filename with
    | none => fs.mkstemp path
    | some f => (fs, joinPath path f)
  let cSha := sha1Hex ((fs.fileContent fn).getD "")
  if !(fs.exists fn) || pSha != cSha then
    ⟨daLockedWrite obj path fn fs, fn, true⟩
  else
    ⟨fs, fn, false⟩

/-- `cleanup_folder(folder)`: `shutil.rmtree`, catching `FileNotFoundError`
and `NotADirectoryError` and reporting whether a change happened. -/
def cleanup_folder (fs : FS) (folder : String) : FS × Bool :=
  if fs.isDir folder then (fs.rmtree folder, true) else (fs, false)

def insertByKey {α : Type} (key : α → Nat) (x : α) : List α → List α
  | [] => [x]
  | y :: ys => if key x < key y then x :: y :: ys else y :: insertByKey key x ys

/-- Stable ascending sort by a natural-number key (Python's `sorted`/`sort`
are stable). -/
def sortByKey {α : Type} (key : α → Nat) (l : List α) : List α :=
  l.foldl (fun acc x => insertByKey key x acc) []

/-- `cleanup_artifact_dir(path, num_keep)`: no-op below 1, else list the
directory (raising as Python does when the path is missing), sort the
children by mtime ascending and `rmtree` the oldest `len - num_keep`. -/
def cleanup_artifact_dir (fs : FS) (path : String) (numKeep : Int) : Except PyErr FS :=
  if numKeep < 1 then .ok fs
  else
    match fs.listdir path with
    | .error e => .error e
    | .ok names =>
      let allPaths := sortByKey (fun p => fs.getmtime p) (names.map (joinPath path))
      let totalRemove := (allPaths.length : Int) - numKeep
      .ok ((allPaths.take totalRemove.toNat).foldl FS.rmtree fs)

/-! ### Job-input materialization (`dump_artifacts`) -/

/-- Substring test (`sub in s`). -/
def hasSub (s sub : List Char) : Bool :=
  (List.range (s.length + 1)).any (fun i => sub.isPrefixOf (s.drop i))

/-- `re.match("^[0-9]+-.+json$", name)`: one or more digits, `-`, one or
more non-newline characters, the literal `json`, at end of string (or, as
Python's `$` allows, before one final newline). -/
def matchesEventFile (name : String) : Bool :=
  let l := name.data
  let core := match l.getLast? with
              | some c => if c == '\n' then l.dropLast else l
              | none => l
  let ds := core.takeWhile Char.isDigit
  if ds.isEmpty then false
  else
    match core.drop ds.length with
    | '-' :: rest =>
        let n := rest.length
        n ≥ 5 && (rest.drop (n - 4) == "json".data) && (rest.take (n - 4)).all (fun c => c != '\n')
    | _ => false

/-- `int(filenm.split("-", 1)[0])` for a name the pattern accepted. -/
def seqOfName (name : String) : Nat :=
  digitsToNat (name.data.takeWhile (fun c => c != '-'))

/-- The content of a named file of a directory snapshot (the snapshot lists
name/content pairs in `os.listdir` order). -/
def contentOf (dirListing : List (String × String)) (f : String) : String :=
  ((dirListing.find? (fun p => p.1 == f)).map (fun p => p.2)).getD ""

/-- The filenames one polling pass selects, in the order it visits them:
names matching the finalized-event pattern, not containing `-partial`, not
already seen, sorted by the integer sequence prefix ascending (stably). -/
def selectedFiles (dirListing : List (String × String)) (oldEvents : List String) : List String :=
  sortByKey seqOfName ((dirListing.map (fun p => p.1)).filter (fun f =>
    matchesEventFile f && !hasSub f.data "-partial".data && !oldEvents.contains f))

/-- The `for event_file in dir_events_actual` loop: parse each file, `break`
on a parse failure (before the file is marked seen), otherwise mark it seen
and yield. -/
def collectLoop (dirListing : List (String × String)) :
    List String → List String → List (String × JVal) × List String
  | [], old => ([], old)
  | f :: rest, old =>
    match jsonLoads (contentOf dirListing f).data with
    | none => ([], old)
    | some ev =>
      let (ys, old') := collectLoop dirListing rest (old ++ [f])
      ((f, ev) :: ys, old')

/-- One polling pass of `collect_new_events(event_path, old_events)` over a
directory snapshot.  The yielded `(filename, event)` pairs are returned
together with the final seen set; a file whose content fails to parse stops
the pass. -/
def collect_new_events (dirListing : List (String × String)) (oldEvents : List String) :
    List (String × JVal) × List String :=
  collectLoop dirListing (selectedFiles dirListing oldEvents) oldEvents

/-! ### Side-channel writer (`open_fifo_write`) -/

/-- A value passed for the `data` parameter; the annotation says
`str | bytes` but nothing enforces it, so other objects are representable. -/
inductive PyData where
  | str (s : String)
  | bytes (b : Bytes)
  | int (n : Int)
  | none
  deriving Repr, DecidableEq

/-- `open_fifo_write(path, data)`: create the fifo node (owner-only), encode
`str` data to bytes, and hand the (possibly still non-bytes) value to the
background writer thread.  The returned value is the `data` argument the
spawned worker receives; no type validation happens on the caller's side. -/
def open_fifo_write (fs : FS) (path : String) (data : PyData) : Except PyErr (FS × PyData) :=
  if fs.exists path then .error .fileExistsError
  else
    let fs := fs.writeFile path ""
    let data := match data with
                | .str s => .bytes (utf8Encode s.data)
                | d => d
    .ok (fs, data)

/-- The body of the worker thread: `open(path, 'wb')` then `fh.write(data)`,
which raises `TypeError` unless `data` is bytes-like. -/
def fifoWorker (data : PyData) : Except PyErr Unit :=
  match data with
  | .bytes _ => .ok ()
  | _ => .error .typeError

/-! ### Event stream decoder (`OutputEventFilter`)

The event-token pattern is
`EVENT_DATA_RE = \x1b\[K((?:[A-Za-z0-9+/=]+\x1b\[\d+D)+)\x1b\[K`.
`findMatch` below implements `re.search` for this pattern by scanning for
the opening control marker and then parsing, greedily, one or more
(base64-fragment, cursor-reposition) pairs followed by the closing marker.
Greedy runs of disjoint character classes make the backtracking engine
deterministic here, so the scan is an exact model: within a pair,
`[A-Za-z0-9+/=]+` ends only at `\x1b` (which is outside the class) and
`\d+` ends only at the required `D`; when no further pair parses, the next
character is not a class character, so the engine's only continuation is
the closing literal. -/

def ESC : Char := Char.ofNat 27

/-- The control marker `\x1b[K` that opens and closes an embedded payload. -/
def evMarker : Str := [ESC, '[', 'K']

/-- The character class `[A-Za-z0-9+/=]`. -/
def isB64Class (c : Char) : Bool :=
  c.isAlpha || c.isDigit || c == '+' || c == '/' || c == '='

/-- Parse one `[A-Za-z0-9+/=]+\x1b\[\d+D` pair, returning the consumed
characters and the rest. -/
def parsePair (l : Str) : Option (Str × Str) :=
  let b := l.takeWhile isB64Class
  if b.isEmpty then none
  else
    match l.drop b.length with
    | e :: '[' :: r2 =>
      if e == ESC then
        let d := r2.takeWhile Char.isDigit
        if d.isEmpty then none
        else
          match r2.drop d.length with
          | 'D' :: r3 => some (b ++ ESC :: '[' :: (d ++ ['D']), r3)
          | _ => none
      else none
    | _ => none

/-- After an opening marker: greedily parse pairs until none parses, then
require the closing marker.  Returns (group 1 content, rest after the
match). -/
def matchTail : Nat → Str → Option (Str × Str)
  | 0, _ => none
  | fuel + 1, l =>
    match parsePair l with
    | some (g, r) =>
      (match matchTail fuel r with
       | some (gs, rest) => some (g ++ gs, rest)
       | none => none)
    | none =>
      match l with
      | e :: '[' :: 'K' :: r => if e == ESC then some ([], r) else none
      | _ => none

/-- Match the pattern at the position right after an opening marker,
requiring at least one pair. -/
def matchAfterOpen (l : Str) : Option (Str × Str) :=
  match parsePair l with
  | none => none
  | some (g, r) =>
    match matchTail (r.length + 1) r with
    | some (gs, rest) => some (g ++ gs, rest)
    | none => none

/-- `EVENT_DATA_RE.search(value)`: leftmost match, returned as
(text before the match, group 1, text after the match). -/
def findMatch : Str → Option (Str × Str × Str)
  | [] => none
  | c :: rest =>
    (if c == ESC then
      match rest with
      | '[' :: 'K' :: r =>
        (match matchAfterOpen r with
         | some (g, after) => some ([], g, after)
         | none => (findMatch rest).map (fun p => (c :: p.1, p.2.1, p.2.2)))
      | _ => (findMatch rest).map (fun p => (c :: p.1, p.2.1, p.2.2))
    else (findMatch rest).map (fun p => (c :: p.1, p.2.1, p.2.2)))

/-- `re.sub(r'\x1b\[\d+D', '', s)` (fuel-indexed scan; callers pass the
length). -/
def stripCursorSeqs : Nat → Str → Str
  | 0, l => l
  | _, [] => []
  | fuel + 1, c :: rest =>
    if c == ESC then
      match rest with
      | '[' :: r2 =>
        let d := r2.takeWhile Char.isDigit
        if !d.isEmpty then
          match r2.drop d.length with
          | 'D' :: r3 => stripCursorSeqs fuel r3
          | _ => c :: stripCursorSeqs fuel rest
        else c :: stripCursorSeqs fuel rest
      | _ => c :: stripCursorSeqs fuel rest
    else c :: stripCursorSeqs fuel rest

/-- The `try` block of `OutputEventFilter.write`: strip the interior
cursor-reposition sequences, base64-decode, decode UTF-8, parse JSON;
any `ValueError` (`binascii.Error`, `UnicodeDecodeError`,
`json.JSONDecodeError`) is caught and replaced by an empty mapping. -/
def decodePayload (g : Str) : JVal :=
  let b64data := stripCursorSeqs g.length g
  match b64Decode b64data with
  | none => .obj []
  | some bs =>
    match utf8Decode bs with
    | none => .obj []
    | some s =>
      match jsonLoads s with
      | none => .obj []
      | some v => v

/-- Whether the decode chain of `write` would raise `ValueError` (and be
caught): base64, UTF-8 or JSON decoding fails on the stripped group. -/
def decodeFails (g : Str) : Bool :=
  let b64data := stripCursorSeqs g.length g
  match b64Decode b64data with
  | none => true
  | some bs =>
    match utf8Decode bs with
    | none => true
    | some s => (jsonLoads s).isNone

/-- Python `str.splitlines`: the line-break characters. -/
def isLineBreak (c : Char) : Bool :=
  c == '\n' || c == '\r' || c.toNat == 0x0b || c.toNat == 0x0c ||
  c.toNat == 0x1c || c.toNat == 0x1d || c.toNat == 0x1e ||
  c.toNat == 0x85 || c.toNat == 0x2028 || c.toNat == 0x2029

def splitlinesKeepAux : Str → Str → List Str
  | [], acc => if acc.isEmpty then [] else [acc.reverse]
  | [c], acc => [acc.reverse ++ [c]]
  | c :: c2 :: rest, acc =>
    if c == '\r' && c2 == '\n' then
      (acc.reverse ++ ['\r', '\n']) :: splitlinesKeepAux rest []
    else if isLineBreak c then (acc.reverse ++ [c]) :: splitlinesKeepAux (c2 :: rest) []
    else splitlinesKeepAux (c2 :: rest) (c :: acc)

/-- `s.splitlines(True)` (keeping the line ends). -/
def splitlinesKeep (l : Str) : List Str := splitlinesKeepAux l []

/-- `chunk.rstrip('\n\r')`. -/
def rstripNl (l : Str) : Str :=
  (l.reverse.dropWhile (fun c => c == '\n' || c == '\r')).reverse

/-- Deterministic stand-in for `str(uuid.uuid4())`: the `n`-th identifier
drawn by one decoder instance. -/
def uuidName (n : Nat) : String := "uuid-" ++ toString n

/-- Decoder state.  `events` records the dict passed to each
`event_callback` invocation (as its value at call time); `chunkLog`
records, for each `_emit_event` emission, the stdout chunk it accounted
(instrumentation used to state the line-accounting claim); `uuidSeq`
drives the deterministic uuid stand-in. -/
structure DecState where
  counter : Nat
  start_line : Nat
  buffer : Str
  last_chunk : Str
  current_event_data : Option Dict
  events : List Dict
  chunkLog : List Str
  uuidSeq : Nat
  deriving Repr, DecidableEq

def initState : DecState :=
  { counter := 0, start_line := 0, buffer := [], last_chunk := [],
    current_event_data := none, events := [], chunkLog := [], uuidSeq := 0 }

/-- The per-chunk loop of `_emit_event`: the same dict is threaded through
(Python mutates one object), and its value at callback time is appended to
`events`. -/
def emitChunks : Dict → DecState → List Str → Dict × DecState
  | ed, st, [] => (ed, st)
  | ed, st, chunk :: rest =>
    let isVerbose := dget ed "event" == some (.str "verbose")
    let ed := if isVerbose then dset ed "uuid" (.str (uuidName st.uuidSeq)) else ed
    let uu := if isVerbose then st.uuidSeq + 1 else st.uuidSeq
    let counter := st.counter + 1
    let ed := dset ed "counter" (.int counter)
    let ed := dset ed "stdout" (.str ⟨rstripNl chunk⟩)
    let n := chunk.count '\n'
    let ed := dset ed "start_line" (.int st.start_line)
    let ed := dset ed "end_line" (.int (st.start_line + n))
    let st := { st with
      counter := counter,
      start_line := st.start_line + n,
      uuidSeq := uu,
      events := st.events ++ [ed],
      chunkLog := st.chunkLog ++ [chunk] }
    emitChunks ed st rest

/-- `OutputEventFilter._emit_event(buffered_stdout, next_event_data)`.
A truthy non-mapping payload raises `AttributeError` at
`next_event_data.get('uuid', None)`; a falsy one is first replaced by `{}`
(`next_event_data = next_event_data or {}`). -/
def emitEvent (st : DecState) (buffered : Str) (next : JVal) : Except PyErr DecState :=
  let next := if truthy next then next else .obj []
  let ed : Dict :=
    match st.current_event_data with
    | some d => d
    | none => if !buffered.isEmpty then [("event", JVal.str "verbose")] else []
  let chunks : List Str :=
    match st.current_event_data with
    | some _ => [buffered]
    | none => if !buffered.isEmpty then splitlinesKeep buffered else []
  let st := (emitChunks ed st chunks).2
  match next with
  | .obj d =>
    .ok { st with current_event_data := if truthyOpt (dget d "uuid") then some d else none }
  | _ => .error .attributeError

/-- The `while should_search` loop of `write`: search the buffer, decode
the payload, emit, truncate the buffer to the remainder (which also
becomes the last chunk), and repeat until no match remains. -/
def searchLoop : Nat → DecState → Except PyErr DecState
  | 0, st => .ok st
  | fuel + 1, st =>
    match findMatch st.buffer with
    | none => .ok st
    | some (pre, g, after) =>
      match emitEvent st pre (decodePayload g) with
      | .error e => .error e
      | .ok st' => searchLoop fuel { st' with buffer := after, last_chunk := after }

/-- Emit one verbose event per complete line (the `for line in lines` loop
of the flush path). -/
def flushLines : DecState → List Str → Except PyErr DecState
  | st, [] => .ok st
  | st, line :: rest =>
    match emitEvent st line .null with
    | .error e => .error e
    | .ok st' => flushLines st' rest

/-- `OutputEventFilter.write(data)`.  The buffer search runs only when the
control marker appears in the last two chunks; by Python's `while`/`else`,
the eager line flush runs exactly when the search loop was never entered. -/
def OEFwrite (st : DecState) (data : Str) : Except PyErr DecState :=
  let st := { st with buffer := st.buffer ++ data }
  let shouldSearch := hasSub (st.last_chunk ++ data) evMarker
  let st := { st with last_chunk := data }
  if shouldSearch then
    searchLoop (st.buffer.length + 1) st
  else
    if !data.isEmpty && data.contains '\n' && st.current_event_data.isNone then
      let lines := splitlinesKeep st.buffer
      let complete :=
        match lines.getLast? with
        | some last => if !last.contains '\n' then lines.dropLast else lines
        | none => []
      let remainder :=
        match lines.getLast? with
        | some last => if !last.contains '\n' then last else []
        | none => []
      match flushLines st complete with
      | .error e => .error e
      | .ok st' => .ok { st' with buffer := remainder }
    else .ok st

/-- `OutputEventFilter.close()`: flush the remaining buffer through
`_emit_event`, then deliver the terminal `{'event': 'EOF'}` marker. -/
def OEFclose (st : DecState) : Except PyErr DecState :=
  let flushed : Except PyErr DecState :=
    if !st.buffer.isEmpty then
      match emitEvent st st.buffer .null with
      | .error e => .error e
      | .ok st' => .ok { st' with buffer := [] }
    else .ok st
  match flushed with
  | .error e => .error e
  | .ok st =>
    .ok { st with events := st.events ++ [[("event", JVal.str "EOF")]] }

/-- Run a fresh decoder over a sequence of `write` calls. -/
def runWrites : DecState → List Str → Except PyErr DecState
  | st, [] => .ok st
  | st, c :: rest =>
    match OEFwrite st c with
    | .error e => .error e
    | .ok st' => runWrites st' rest

/-- A fresh decoder fed the chunks in order, then closed. -/
def runDecoder (chunks : List Str) : Except PyErr DecState :=
  match runWrites initState chunks with
  | .error e => .error e
  | .ok st => OEFclose st

-- The end-to-end example from the specification: `"hello\n"` then
-- `"world\n"` yields two verbose events with counters 1, 2 and line
-- ranges (0,1), (1,2), then EOF.
example :
    (runDecoder ["hello\n".data, "world\n".data]).map
      (fun st => st.events.map (fun d => (dget d "counter", dget d "stdout", dget d "start_line", dget d "end_line"))) =
    .ok [(some (.int 1), some (.str "hello"), some (.int 0), some (.int 1)),
         (some (.int 2), some (.str "world"), some (.int 1), some (.int 2)),
         (none, none, none, none)] := by
  decide

/-! ### C1: the embedded event token and chunk-boundary invariance -/

/-- One `[A-Za-z0-9+/=]+\x1b\[\d+D` pair of the regex, as its two variable
parts: the base64 fragment and the cursor-reposition digit string. -/
def pairOk (p : Str × Str) : Bool :=
  !p.1.isEmpty && p.1.all isB64Class && !p.2.isEmpty && p.2.all Char.isDigit

/-- The text of one pair. -/
def pairText (p : Str × Str) : Str := p.1 ++ ESC :: '[' :: (p.2 ++ ['D'])

/-- The text matched by group 1: the concatenated pairs. -/
def payloadOf (pairs : List (Str × Str)) : Str := (pairs.map pairText).join

/-- A full embedded event token: opening marker, pairs, closing marker. -/
def tokOf (pairs : List (Str × Str)) : Str :=
  evMarker ++ payloadOf pairs ++ evMarker

/-- `sub` occurs as a contiguous substring. -/
def occursIn (sub s : Str) : Prop := ∃ x y, s = x ++ sub ++ y

/-- What `write`'s flush loop needs of each produced line. -/
def lineIsGood (l : Str) : Prop :=
  l ≠ [] ∧ splitlinesKeep l = [l] ∧ ('\n' ∈ l → l.getLast? = some '\n')

/-- Relation between consecutive produced lines: a line ending in a bare
carriage return is never followed by a line starting with a newline. -/
def adjOk (a b : Str) : Prop := a.getLast? = some '\r' → b.head? ≠ some '\n'

/-- The fresh dict `_emit_event` builds for unclaimed stdout. -/
def vbDict : Dict := [("event", JVal.str "verbose")]

/-- The shape of that dict after any number of emission loop steps. -/
def edFull (u c sd a b : JVal) : Dict :=
  [("event", JVal.str "verbose"), ("uuid", u), ("counter", c), ("stdout", sd),
   ("start_line", a), ("end_line", b)]

/-- Advance a state by one batched `_emit_event` body over complete lines
(no pending event data). -/
def flushAdv (st : DecState) (text : Str) : DecState :=
  (emitChunks (if text.isEmpty then [] else vbDict) st (splitlinesKeep text)).2

/-- A state with the buffer and last-chunk fields blanked: the emission
machinery neither reads nor writes those two fields. -/
def eraseBL (st : DecState) : DecState := { st with buffer := [], last_chunk := [] }

/-- Boundary well-formedness of the flushed prefix against the unflushed
remainder. -/
def bndOk (fl rem : Str) : Prop :=
  fl = [] ∨ ∃ cl, fl.getLast? = some cl ∧ isLineBreak cl = true ∧
    (cl = '\r' → ∃ h t, rem = h :: t ∧ h ≠ '\n')

/-- The complete lines popped by the flush path of `write`. -/
def completeOf (x : Str) : List Str :=
  match (splitlinesKeep x).getLast? with
  | some last => if !last.contains '\n' then (splitlinesKeep x).dropLast else splitlinesKeep x
  | none => []

/-- The held-back partial line of the flush path of `write`. -/
def remainderOf (x : Str) : Str :=
  match (splitlinesKeep x).getLast? with
  | some last => if !last.contains '\n' then last else []
  | none => []

/-! ## Theorems -/

/-! ### Basic filesystem lemmas -/

def emptyFS : FS := { files := [], dirs := [], clock := 0, tmpCounter := 0 }

theorem find_append_of_none {α : Type} (l1 l2 : List α) (f : α → Bool)
    (h : l1.find? f = none) : (l1 ++ l2).find? f = l2.find? f := by
  rw [List.find?_append, h, Option.none_or]

theorem find_filter_path_self (l : List FEntry) (p : String) :
    (l.filter (fun e => e.path != p)).find? (fun e => e.path == p) = none := by
  rw [List.find?_filter, List.find?_eq_none]
  intro x _
  simp

theorem find_filter_path_ne (l : List FEntry) (p q : String) (h : q ≠ p) :
    (l.filter (fun e => e.path != p)).find? (fun e => e.path == q) =
      l.find? (fun e => e.path == q) := by
  rw [List.find?_filter]
  have hf : (fun (e : FEntry) => decide ((e.path != p) = true ∧ (e.path == q) = true)) =
      (fun (e : FEntry) => e.path == q) := by
    funext e
    by_cases he : e.path = q
    · simp [he, h]
    · simp [he]
  rw [hf]

theorem any_of_find {α : Type} (l : List α) (f : α → Bool) :
    l.any f = (l.find? f).isSome := by
  induction l with
  | nil => rfl
  | cons x rest ih =>
    simp only [List.any_cons, List.find?_cons]
    cases hx : f x <;> simp [ih]

theorem isFile_iff_fileContent (fs : FS) (p : String) :
    fs.isFile p = (fs.fileContent p).isSome := by
  unfold FS.isFile FS.fileContent
  rw [any_of_find]
  cases fs.files.find? (fun e => e.path == p) <;> rfl

theorem fileContent_writeFile_self (fs : FS) (p c : String) :
    (fs.writeFile p c).fileContent p = some c := by
  unfold FS.writeFile FS.fileContent
  rw [List.find?_append, find_filter_path_self fs.files p, Option.none_or]
  simp [List.find?_cons]

theorem fileContent_writeFile_ne (fs : FS) (p c : String) (q : String) (h : q ≠ p) :
    (fs.writeFile p c).fileContent q = fs.fileContent q := by
  unfold FS.writeFile FS.fileContent
  rw [List.find?_append, find_filter_path_ne fs.files p q h]
  have hpq : ((⟨p, c, fs.clock⟩ : FEntry).path == q) = false := by
    simp only [beq_eq_false_iff_ne, ne_eq]
    exact fun hq => h hq.symm
  have hsingle : ([(⟨p, c, fs.clock⟩ : FEntry)].find? (fun e => e.path == q)) = none := by
    simp [List.find?_cons, hpq]
  rw [hsingle, Option.or_none]

theorem isFile_writeFile_self (fs : FS) (p c : String) :
    (fs.writeFile p c).isFile p = true := by
  rw [isFile_iff_fileContent, fileContent_writeFile_self]; rfl

theorem isFile_writeFile_ne (fs : FS) (p c : String) (q : String) (h : q ≠ p) :
    (fs.writeFile p c).isFile q = fs.isFile q := by
  rw [isFile_iff_fileContent, isFile_iff_fileContent, fileContent_writeFile_ne fs p c q h]

theorem isDir_writeFile (fs : FS) (p c : String) (q : String) :
    (fs.writeFile p c).isDir q = fs.isDir q := rfl

theorem fileContent_removeFile_ne (fs : FS) (p q : String) (h : q ≠ p) :
    (fs.removeFile p).fileContent q = fs.fileContent q := by
  unfold FS.removeFile FS.fileContent
  rw [find_filter_path_ne fs.files p q h]

theorem isFile_removeFile_ne (fs : FS) (p q : String) (h : q ≠ p) :
    (fs.removeFile p).isFile q = fs.isFile q := by
  rw [isFile_iff_fileContent, isFile_iff_fileContent, fileContent_removeFile_ne fs p q h]

theorem isDir_removeFile (fs : FS) (p q : String) :
    (fs.removeFile p).isDir q = fs.isDir q := rfl

theorem files_makedirs (fs : FS) (p : String) :
    (fs.makedirs p).files = fs.files := by
  unfold FS.makedirs FS.addDir
  split <;> rfl

theorem isDir_makedirs (fs : FS) (p q : String) :
    (fs.makedirs p).isDir q = (fs.isDir q || p == q) := by
  unfold FS.makedirs FS.addDir
  split
  · next hpd =>
    by_cases h : p = q
    · subst h; simp [hpd]
    · simp [h]
  · unfold FS.isDir
    simp [List.any_append]

theorem isFile_makedirs (fs : FS) (p q : String) :
    (fs.makedirs p).isFile q = fs.isFile q := by
  unfold FS.isFile; rw [files_makedirs]

theorem fileContent_makedirs (fs : FS) (p q : String) :
    (fs.makedirs p).fileContent q = fs.fileContent q := by
  unfold FS.fileContent; rw [files_makedirs]

/-! ### C8 — rotation on a missing path -/

/-- C8 counterexample: on a filesystem without `/x`, `cleanup_artifact_dir`
with `num_keep = 1` raises `FileNotFoundError` (from `os.listdir`) instead
of completing as a successful no-op, refuting the claim at this input. -/
theorem C8_counterexample :
    cleanup_artifact_dir emptyFS "/x" 1 = .error .fileNotFoundError := by decide

/-- C8 (amended): for every missing path and `keep ≥ 1`, rotation
(`cleanup_artifact_dir`) propagates `FileNotFoundError` to the caller; the
successful-no-op-on-missing-path behavior belongs to the deletion helper
`cleanup_folder` (which returns `False` without raising), and rotation is
a no-op only when `keep < 1`. -/
theorem C8_rotation_missing_path_raises (fs : FS) (p : String) (keep : Int)
    (hf : fs.isFile p = false) (hd : fs.isDir p = false) (hk : 1 ≤ keep) :
    cleanup_artifact_dir fs p keep = .error .fileNotFoundError ∧
    cleanup_folder fs p = (fs, false) ∧
    (∀ k : Int, k < 1 → cleanup_artifact_dir fs p k = .ok fs) := by
  refine ⟨?_, ?_, ?_⟩
  · unfold cleanup_artifact_dir
    rw [if_neg (by omega)]
    unfold FS.listdir
    rw [hf, hd]
    simp
  · unfold cleanup_folder
    rw [hd]
    simp
  · intro k hk1
    unfold cleanup_artifact_dir
    rw [if_pos hk1]

/-- C8 witness: the amended theorem applied at the empty filesystem,
path `/x`, `keep = 1`. -/
theorem C8_witness :
    emptyFS.isFile "/x" = false ∧ emptyFS.isDir "/x" = false ∧ (1 : Int) ≤ 1 ∧
    cleanup_artifact_dir emptyFS "/x" 1 = .error .fileNotFoundError := by
  refine ⟨by decide, by decide, by decide, ?_⟩
  exact (C8_rotation_missing_path_raises emptyFS "/x" 1 (by decide) (by decide) (by decide)).1

/-! ### C9 — delivery of a non-text, non-bytes value -/

def isStrOrBytes : PyData → Bool
  | .str _ => true
  | .bytes _ => true
  | _ => false

/-- C9 counterexample: `open_fifo_write` called with the integer `3`
returns normally (no synchronous `TypeError`), handing the unconverted
value to the background writer, where the write then raises `TypeError`
— refuting the claim that the type error is raised synchronously before
the background task starts. -/
theorem C9_counterexample :
    (open_fifo_write emptyFS "/fifo" (.int 3)).map (fun r => r.2) = .ok (.int 3) ∧
    fifoWorker (.int 3) = .error .typeError := by decide

/-- C9 (amended): for every value that is neither text nor bytes,
`open_fifo_write` performs no type validation: it creates the fifo,
returns successfully with the value passed through unchanged to the
background writer task, and the `TypeError` is raised only inside that
task's file write. -/
theorem C9_type_error_only_in_background (fs : FS) (path : String) (data : PyData)
    (hnb : isStrOrBytes data = false) (hne : fs.exists path = false) :
    open_fifo_write fs path data = .ok (fs.writeFile path "", data) ∧
    fifoWorker data = .error .typeError := by
  cases data <;> simp_all [open_fifo_write, fifoWorker, isStrOrBytes]

/-- C9 witness: the amended theorem applied to the integer `3` on the
empty filesystem. -/
theorem C9_witness :
    isStrOrBytes (.int 3) = false ∧ emptyFS.exists "/fifo" = false ∧
    open_fifo_write emptyFS "/fifo" (.int 3) = .ok (emptyFS.writeFile "/fifo" "", .int 3) := by
  refine ⟨by decide, by decide, ?_⟩
  exact (C9_type_error_only_in_background emptyFS "/fifo" (.int 3) (by decide) (by decide)).1

/-! ### C5 — artifact writer idempotence -/

theorem joinPath_length (a b : String) : (joinPath a b).length = a.length + 1 + b.length := by
  unfold joinPath
  rw [String.length_append, String.length_append]
  have h1 : "/".length = 1 := rfl
  rw [h1]

theorem joinPath_ne_left (a b : String) : joinPath a b ≠ a := by
  intro h
  have := congrArg String.length h
  rw [joinPath_length] at this
  omega

theorem daEnsureDir_files (path : String) (fs : FS) :
    (daEnsureDir path fs).files = fs.files := by
  unfold daEnsureDir
  split
  · rfl
  · exact files_makedirs fs path

theorem daEnsureDir_isFile (path : String) (fs : FS) (q : String) :
    (daEnsureDir path fs).isFile q = fs.isFile q := by
  unfold FS.isFile; rw [daEnsureDir_files]

theorem daEnsureDir_isDir_other (path : String) (fs : FS) (q : String) (h : path ≠ q) :
    (daEnsureDir path fs).isDir q = fs.isDir q := by
  unfold daEnsureDir
  split
  · rfl
  · rw [isDir_makedirs, beq_eq_false_iff_ne.mpr h, Bool.or_false]

theorem daEnsureDir_exists_other (path : String) (fs : FS) (q : String) (h : path ≠ q) :
    (daEnsureDir path fs).exists q = fs.exists q := by
  unfold FS.exists
  rw [daEnsureDir_isFile, daEnsureDir_isDir_other path fs q h]

theorem daEnsureDir_of_exists (path : String) (fs : FS) (h : fs.exists path = true) :
    daEnsureDir path fs = fs := by
  unfold daEnsureDir
  rw [h]
  simp

theorem daEnsureDir_exists_self (path : String) (fs : FS) :
    (daEnsureDir path fs).exists path = true := by
  unfold daEnsureDir
  split
  · next h => exact h
  · unfold FS.exists
    rw [isDir_makedirs]
    simp

theorem daLockedWrite_isDir (obj path fn : String) (fs : FS) (q : String) :
    (daLockedWrite obj path fn fs).isDir q = fs.isDir q := rfl

theorem daLockedWrite_fileContent_self (obj path fn : String) (fs : FS)
    (h : fn ≠ joinPath path ".artifact_write_lock") :
    (daLockedWrite obj path fn fs).fileContent fn = some obj := by
  unfold daLockedWrite
  rw [fileContent_removeFile_ne _ _ _ h, fileContent_writeFile_self]

theorem daLockedWrite_isFile_self (obj path fn : String) (fs : FS)
    (h : fn ≠ joinPath path ".artifact_write_lock") :
    (daLockedWrite obj path fn fs).isFile fn = true := by
  rw [isFile_iff_fileContent, daLockedWrite_fileContent_self obj path fn fs h]
  rfl

theorem daLockedWrite_isFile_ne (obj path fn : String) (fs : FS) (q : String)
    (hfn : q ≠ fn) (hlk : q ≠ joinPath path ".artifact_write_lock") :
    (daLockedWrite obj path fn fs).isFile q = fs.isFile q := by
  unfold daLockedWrite
  rw [isFile_removeFile_ne _ _ _ hlk, isFile_writeFile_ne _ _ _ _ hfn,
      isFile_writeFile_ne _ _ _ _ hlk]

theorem dump_artifact_some (obj path f : String) (fs : FS) :
    dump_artifact obj path (some f) fs =
      (if !((daEnsureDir path fs).exists (joinPath path f)) ||
          sha1Hex obj !=
            sha1Hex (((daEnsureDir path fs).fileContent (joinPath path f)).getD "") then
        ⟨daLockedWrite obj path (joinPath path f) (daEnsureDir path fs), joinPath path f, true⟩
      else ⟨daEnsureDir path fs, joinPath path f, false⟩) := rfl

/-- C5: writing the same content twice under the same directory and target
name performs the guarded filesystem write exactly once — the first call
writes, the second is a no-op returning the same target path with the
filesystem untouched — while a third call whose content digest differs
rewrites the target with the new content.  (The target must be fresh and
must not be the lock sentinel itself.) -/
theorem C5_dump_artifact_idempotent (fs : FS) (dir name content content2 : String)
    (hne : fs.exists (joinPath dir name) = false)
    (hlok : joinPath dir name ≠ joinPath dir ".artifact_write_lock")
    (hdig : sha1Hex content2 ≠ sha1Hex content) :
    (dump_artifact content dir (some name) fs).wrote = true ∧
    (dump_artifact content dir (some name) fs).fn = joinPath dir name ∧
    dump_artifact content dir (some name) (dump_artifact content dir (some name) fs).fs =
      ⟨(dump_artifact content dir (some name) fs).fs, joinPath dir name, false⟩ ∧
    (dump_artifact content2 dir (some name)
      (dump_artifact content dir (some name) fs).fs).wrote = true ∧
    (dump_artifact content2 dir (some name)
      (dump_artifact content dir (some name) fs).fs).fs.fileContent (joinPath dir name) =
      some content2 := by
  have hdirfn : dir ≠ joinPath dir name := fun h => joinPath_ne_left dir name h.symm
  have hdirlk : dir ≠ joinPath dir ".artifact_write_lock" :=
    fun h => joinPath_ne_left dir ".artifact_write_lock" h.symm
  -- the state the first call starts from
  have hbex : (daEnsureDir dir fs).exists (joinPath dir name) = false := by
    rw [daEnsureDir_exists_other dir fs _ hdirfn]
    exact hne
  -- first call: fresh target, so the guarded write runs
  have h1 : dump_artifact content dir (some name) fs =
      ⟨daLockedWrite content dir (joinPath dir name) (daEnsureDir dir fs),
        joinPath dir name, true⟩ := by
    rw [dump_artifact_some, hbex]
    simp only [Bool.not_false, Bool.true_or, if_true]
  rw [h1]
  refine ⟨rfl, rfl, ?_, ?_, ?_⟩
  all_goals {
    have hCdirF : (daLockedWrite content dir (joinPath dir name)
        (daEnsureDir dir fs)).isFile dir = (daEnsureDir dir fs).isFile dir :=
      daLockedWrite_isFile_ne _ _ _ _ _ hdirfn hdirlk
    have hCdir : (daLockedWrite content dir (joinPath dir name)
        (daEnsureDir dir fs)).exists dir = true := by
      unfold FS.exists
      rw [hCdirF, daLockedWrite_isDir]
      exact daEnsureDir_exists_self dir fs
    have hCfile : (daLockedWrite content dir (joinPath dir name)
        (daEnsureDir dir fs)).isFile (joinPath dir name) = true :=
      daLockedWrite_isFile_self _ _ _ _ hlok
    have hCcont : (daLockedWrite content dir (joinPath dir name)
        (daEnsureDir dir fs)).fileContent (joinPath dir name) = some content :=
      daLockedWrite_fileContent_self _ _ _ _ hlok
    have hCens : daEnsureDir dir (daLockedWrite content dir (joinPath dir name)
        (daEnsureDir dir fs)) = daLockedWrite content dir (joinPath dir name)
        (daEnsureDir dir fs) := daEnsureDir_of_exists dir _ hCdir
    have hCex : (daLockedWrite content dir (joinPath dir name)
        (daEnsureDir dir fs)).exists (joinPath dir name) = true := by
      unfold FS.exists
      rw [hCfile]
      rfl
    -- second call: identical digest, no-op; third call: differing digest,
    -- the guarded write runs again and the target holds the new content
    rw [dump_artifact_some, hCens, hCcont, hCex]
    simp
    try rw [if_neg hdig]
    try rfl
    try exact daLockedWrite_fileContent_self _ _ _ _ hlok }

set_option maxRecDepth 100000 in
/-- C5 witness: the theorem applied on the empty filesystem, directory
`/a`, file `f`, contents `"x"` then `"y"`. -/
theorem C5_witness :
    emptyFS.exists (joinPath "/a" "f") = false ∧
    joinPath "/a" "f" ≠ joinPath "/a" ".artifact_write_lock" ∧
    sha1Hex "y" ≠ sha1Hex "x" ∧
    (dump_artifact "x" "/a" (some "f") emptyFS).wrote = true := by
  refine ⟨by decide, by decide, by decide, ?_⟩
  exact (C5_dump_artifact_idempotent emptyFS "/a" "f" "x" "y" (by decide) (by decide)
    (by decide)).1

/-! ### Poller lemmas: stable key sort and the yield loop -/

theorem mem_insertByKey {α : Type} (key : α → Nat) (x z : α) (l : List α) :
    z ∈ insertByKey key x l ↔ z = x ∨ z ∈ l := by
  induction l with
  | nil => simp [insertByKey]
  | cons y ys ih =>
    unfold insertByKey
    by_cases h : key x < key y
    · rw [if_pos h]
      simp [List.mem_cons]
    · rw [if_neg h]
      simp only [List.mem_cons, ih]
      tauto

theorem pairwise_insertByKey {α : Type} (key : α → Nat) (x : α) (l : List α)
    (h : l.Pairwise (fun a b => key a ≤ key b)) :
    (insertByKey key x l).Pairwise (fun a b => key a ≤ key b) := by
  induction l with
  | nil => simp [insertByKey]
  | cons y ys ih =>
    rw [List.pairwise_cons] at h
    obtain ⟨hy, hys⟩ := h
    unfold insertByKey
    by_cases hxy : key x < key y
    · rw [if_pos hxy]
      refine List.Pairwise.cons ?_ (List.Pairwise.cons hy hys)
      intro z hz
      rcases List.mem_cons.mp hz with rfl | hz
      · omega
      · have := hy z hz
        omega
    · rw [if_neg hxy]
      refine List.Pairwise.cons ?_ (ih hys)
      intro z hz
      rcases (mem_insertByKey key x z ys).mp hz with rfl | hz
      · omega
      · exact hy z hz

theorem pairwise_foldl_insertByKey {α : Type} (key : α → Nat) (l : List α) :
    ∀ acc : List α, acc.Pairwise (fun a b => key a ≤ key b) →
      (l.foldl (fun acc x => insertByKey key x acc) acc).Pairwise (fun a b => key a ≤ key b) := by
  induction l with
  | nil => intro acc h; exact h
  | cons x rest ih =>
    intro acc h
    exact ih (insertByKey key x acc) (pairwise_insertByKey key x acc h)

theorem sortByKey_pairwise {α : Type} (key : α → Nat) (l : List α) :
    (sortByKey key l).Pairwise (fun a b => key a ≤ key b) :=
  pairwise_foldl_insertByKey key l [] List.Pairwise.nil

theorem mem_foldl_insertByKey {α : Type} (key : α → Nat) (l : List α) :
    ∀ (acc : List α) (z : α), z ∈ l.foldl (fun acc x => insertByKey key x acc) acc →
      z ∈ acc ∨ z ∈ l := by
  induction l with
  | nil => intro acc z h; exact Or.inl h
  | cons x rest ih =>
    intro acc z h
    rcases ih (insertByKey key x acc) z h with h1 | h1
    · rcases (mem_insertByKey key x z acc).mp h1 with rfl | h1
      · exact Or.inr (List.mem_cons_self _ _)
      · exact Or.inl h1
    · exact Or.inr (List.mem_cons_of_mem _ h1)

theorem mem_sortByKey {α : Type} (key : α → Nat) (l : List α) (z : α)
    (h : z ∈ sortByKey key l) : z ∈ l := by
  rcases mem_foldl_insertByKey key l [] z h with h1 | h1
  · exact absurd h1 (List.not_mem_nil z)
  · exact h1

theorem collectLoop_names_take (dl : List (String × String)) :
    ∀ (files old : List String), ∃ k,
      ((collectLoop dl files old).1.map (fun p => p.1)) = files.take k := by
  intro files
  induction files with
  | nil => intro old; exact ⟨0, rfl⟩
  | cons f rest ih =>
    intro old
    unfold collectLoop
    cases hp : jsonLoads (contentOf dl f).data with
    | none => exact ⟨0, rfl⟩
    | some ev =>
      obtain ⟨k, hk⟩ := ih (old ++ [f])
      refine ⟨k + 1, ?_⟩
      simp only [List.map_cons, List.take_succ_cons]
      rw [← hk]

theorem collectLoop_seen (dl : List (String × String)) :
    ∀ (files old : List String),
      (collectLoop dl files old).2 = old ++ (collectLoop dl files old).1.map (fun p => p.1) := by
  intro files
  induction files with
  | nil => intro old; simp [collectLoop]
  | cons f rest ih =>
    intro old
    unfold collectLoop
    cases hp : jsonLoads (contentOf dl f).data with
    | none => simp
    | some ev =>
      simp only [List.map_cons]
      rw [ih (old ++ [f])]
      simp

theorem collectLoop_mem_name (dl : List (String × String)) (files old : List String)
    (p : String × JVal) (h : p ∈ (collectLoop dl files old).1) : p.1 ∈ files := by
  obtain ⟨k, hk⟩ := collectLoop_names_take dl files old
  have h1 : p.1 ∈ (collectLoop dl files old).1.map (fun p => p.1) :=
    List.mem_map.mpr ⟨p, h, rfl⟩
  rw [hk] at h1
  exact List.take_subset k files h1

/-! ### C6 — poller selection and ordering -/

/-- C6: every yielded file matches `^[0-9]+-.+json$`, contains no
`-partial` and is not in the caller's seen set; the yields are ascending
in the integer sequence prefix; and on the listing
`1-a.json, 2-b.json, 3-b-partial.json` with an empty seen set the pass
yields the events of `1-a.json` then `2-b.json` and never
`3-b-partial.json`. -/
theorem C6_poller_filters_and_orders :
    (∀ (dl : List (String × String)) (old : List String) (p : String × JVal),
       p ∈ (collect_new_events dl old).1 →
       matchesEventFile p.1 = true ∧ hasSub p.1.data "-partial".data = false ∧
       old.contains p.1 = false) ∧
    (∀ (dl : List (String × String)) (old : List String),
       ((collect_new_events dl old).1.map (fun p => seqOfName p.1)).Pairwise (· ≤ ·)) ∧
    collect_new_events
      [("1-a.json", "\x7b\"event\": \"one\"\x7d"), ("2-b.json", "\x7b\"event\": \"two\"\x7d"),
       ("3-b-partial.json", "\x7b\"event\": \"three\"\x7d")] [] =
      ([("1-a.json", .obj [("event", .str "one")]), ("2-b.json", .obj [("event", .str "two")])],
       ["1-a.json", "2-b.json"]) := by
  refine ⟨?_, ?_, by decide⟩
  · intro dl old p hp
    have h1 : p.1 ∈ selectedFiles dl old := collectLoop_mem_name dl _ old p hp
    have h2 := mem_sortByKey seqOfName _ _ h1
    rw [List.mem_filter] at h2
    have h3 := h2.2
    rw [Bool.and_eq_true, Bool.and_eq_true] at h3
    refine ⟨h3.1.1, ?_, ?_⟩
    · have := h3.1.2
      cases hs : hasSub p.1.data "-partial".data
      · rfl
      · rw [hs] at this; exact absurd this (by simp)
    · have := h3.2
      cases hs : old.contains p.1
      · rfl
      · rw [hs] at this; exact absurd this (by simp)
  · intro dl old
    obtain ⟨k, hk⟩ := collectLoop_names_take dl (selectedFiles dl old) old
    have hmap : (collect_new_events dl old).1.map (fun p => seqOfName p.1) =
        ((collect_new_events dl old).1.map (fun p => p.1)).map seqOfName := by
      rw [List.map_map]
      rfl
    rw [hmap]
    unfold collect_new_events
    rw [hk]
    have hsorted := sortByKey_pairwise seqOfName ((dl.map (fun p => p.1)).filter (fun f =>
      matchesEventFile f && !hasSub f.data "-partial".data && !old.contains f))
    have htake : List.Sublist ((selectedFiles dl old).take k) (selectedFiles dl old) :=
      List.take_sublist k _
    have := hsorted.sublist htake
    exact List.pairwise_map.mpr this

/-- C6 witness: the universally quantified selection property applied to
the concrete three-file listing at the yielded pair for `1-a.json`. -/
theorem C6_witness :
    ("1-a.json", JVal.obj [("event", .str "one")]) ∈
      (collect_new_events
        [("1-a.json", "\x7b\"event\": \"one\"\x7d"), ("2-b.json", "\x7b\"event\": \"two\"\x7d"),
         ("3-b-partial.json", "\x7b\"event\": \"three\"\x7d")] []).1 ∧
    matchesEventFile "1-a.json" = true := by
  refine ⟨by decide, ?_⟩
  exact (C6_poller_filters_and_orders.1
    [("1-a.json", "\x7b\"event\": \"one\"\x7d"), ("2-b.json", "\x7b\"event\": \"two\"\x7d"),
     ("3-b-partial.json", "\x7b\"event\": \"three\"\x7d")] []
    ("1-a.json", JVal.obj [("event", .str "one")]) (by decide)).1

/-! ### C2 — a parse failure during one polling pass -/

theorem collectLoop_spec (dl : List (String × String)) (bad : String) (rest : List String)
    (hbad : jsonLoads (contentOf dl bad).data = none) :
    ∀ (good old : List String),
      (∀ f ∈ good, (jsonLoads (contentOf dl f).data).isSome) →
      collectLoop dl (good ++ bad :: rest) old =
        (good.map (fun f => (f, (jsonLoads (contentOf dl f).data).getD .null)), old ++ good) := by
  intro good
  induction good with
  | nil =>
    intro old _
    simp only [List.nil_append, List.map_nil, List.append_nil]
    unfold collectLoop
    rw [hbad]
  | cons g gs ih =>
    intro old hgood
    have hg : (jsonLoads (contentOf dl g).data).isSome :=
      hgood g (List.mem_cons_self _ _)
    obtain ⟨ev, hev⟩ := Option.isSome_iff_exists.mp hg
    simp only [List.cons_append]
    unfold collectLoop
    rw [hev]
    have ihh := ih (old ++ [g]) (fun f hf => hgood f (List.mem_cons_of_mem _ hf))
    rw [ihh]
    simp [hev]

/-- C2 counterexample: with the single event file `1-a.json` whose content
`{` fails to parse, the polling pass yields nothing and the final seen set
is empty — the unparsable file is NOT marked as seen (the `break` precedes
the marking), refuting the claim's final clause. -/
theorem C2_counterexample :
    jsonLoads "\x7b".data = none ∧
    collect_new_events [("1-a.json", "\x7b")] [] = ([], []) := by decide

/-- C2 (amended): when the selected files of one polling pass are
`good ++ bad :: rest` with every file of `good` parsing and `bad` failing
to parse, the pass stops at `bad` without raising (the loop returns
normally), yields exactly the events of the `good` prefix in order, and
the final seen set is the original plus the `good` prefix — the
unparsable file is NOT marked as seen, so it is retried on later polls
with that seen set. -/
theorem C2_parse_failure_stops_without_marking (dl : List (String × String))
    (old good : List String) (bad : String) (rest : List String)
    (hsel : selectedFiles dl old = good ++ bad :: rest)
    (hgood : ∀ f ∈ good, (jsonLoads (contentOf dl f).data).isSome)
    (hbad : jsonLoads (contentOf dl bad).data = none) :
    collect_new_events dl old =
      (good.map (fun f => (f, (jsonLoads (contentOf dl f).data).getD .null)), old ++ good) ∧
    bad ∉ (collect_new_events dl old).2 := by
  have hmain : collect_new_events dl old =
      (good.map (fun f => (f, (jsonLoads (contentOf dl f).data).getD .null)), old ++ good) := by
    unfold collect_new_events
    rw [hsel]
    exact collectLoop_spec dl bad rest hbad good old hgood
  refine ⟨hmain, ?_⟩
  rw [hmain]
  intro hmem
  rcases List.mem_append.mp hmem with hin | hin
  · -- bad is in the selection, so it was not already seen
    have hbadsel : bad ∈ selectedFiles dl old := by
      rw [hsel]
      exact List.mem_append_right good (List.mem_cons_self _ _)
    have h2 := mem_sortByKey seqOfName _ _ hbadsel
    rw [List.mem_filter] at h2
    have h3 := h2.2
    rw [Bool.and_eq_true] at h3
    have h4 := h3.2
    rw [Bool.not_eq_true'] at h4
    have h5 : old.contains bad = true := List.elem_iff.mpr hin
    rw [h5] at h4
    exact absurd h4 (by simp)
  · -- bad cannot be in good: its content parses there but fails by hbad
    have := hgood bad hin
    rw [hbad] at this
    exact absurd this (by simp)

/-- C2 witness: the amended theorem applied to a listing where
`1-a.json` parses and `2-b.json` does not. -/
theorem C2_witness :
    selectedFiles [("1-a.json", "\x7b\"event\": \"one\"\x7d"), ("2-b.json", "\x7b")] [] =
      ["1-a.json"] ++ "2-b.json" :: [] ∧
    collect_new_events [("1-a.json", "\x7b\"event\": \"one\"\x7d"), ("2-b.json", "\x7b")] [] =
      ([("1-a.json", JVal.obj [("event", .str "one")])], ["1-a.json"]) := by
  refine ⟨by decide, ?_⟩
  have h := C2_parse_failure_stops_without_marking
    [("1-a.json", "\x7b\"event\": \"one\"\x7d"), ("2-b.json", "\x7b")] [] ["1-a.json"] "2-b.json" []
    (by decide) (by decide) (by decide)
  rw [h.1]
  decide

/-! ### C10 — dict and stage lemmas -/

theorem dget_dset_self (d : Dict) (k : String) (v : JVal) :
    dget (dset d k v) k = some v := by
  induction d with
  | nil => simp [dset, dget, List.find?_cons]
  | cons e rest ih =>
    unfold dset
    by_cases h : e.1 = k
    · rw [if_pos (beq_iff_eq.mpr h)]
      simp [dget, List.find?_cons]
    · rw [if_neg (by simpa using h)]
      unfold dget at ih ⊢
      simp only [List.find?_cons]
      rw [show (e.1 == k) = false from by simpa using h]
      exact ih

theorem dget_dset_ne (d : Dict) (k : String) (v : JVal) (q : String) (h : q ≠ k) :
    dget (dset d k v) q = dget d q := by
  induction d with
  | nil =>
    simp only [dset, dget, List.find?_cons, List.find?_nil]
    rw [show ((k : String) == q) = false from by simpa using fun he => h he.symm]
  | cons e rest ih =>
    unfold dset
    by_cases he : e.1 = k
    · rw [if_pos (beq_iff_eq.mpr he)]
      unfold dget
      simp only [List.find?_cons]
      rw [show ((k : String) == q) = false from by simpa using fun x => h x.symm,
          show (e.1 == q) = false from by simpa [he] using fun x => h x.symm]
    · rw [if_neg (by simpa using he)]
      unfold dget at ih ⊢
      simp only [List.find?_cons]
      cases hx : (e.1 == q)
      · exact ih
      · rfl

/-- The counted events delivered to the callback: those carrying a
`counter` key (every `_emit_event` emission; the terminal EOF marker has
none). -/
def countedEvents (evs : List Dict) : List Dict :=
  evs.filter (fun d => dhas d "counter")

/-- The line accounting of a run: event `i` starts at the running cursor,
ends after the newlines of its chunk, and the next event starts exactly
there; `a` is the initial cursor and `b` the final one. -/
def linesChain : List Dict → List Str → Nat → Nat → Prop
  | [], [], a, b => a = b
  | d :: ds, c :: cs, a, b =>
      dget d "start_line" = some (.int a) ∧
      dget d "end_line" = some (.int (a + c.count '\n')) ∧
      linesChain ds cs (a + c.count '\n') b
  | _, _, _, _ => False

theorem dhas_iff_dget (d : Dict) (k : String) : dhas d k = (dget d k).isSome := by
  unfold dhas dget
  rw [any_of_find]
  cases d.find? (fun p => p.1 == k) <;> rfl

theorem countedEvents_append (a b : List Dict) :
    countedEvents (a ++ b) = countedEvents a ++ countedEvents b := by
  unfold countedEvents
  rw [List.filter_append]

theorem linesChain_append_one (d : Dict) (c : Str) :
    ∀ (ds : List Dict) (cs : List Str) (a b : Nat), linesChain ds cs a b →
      dget d "start_line" = some (.int b) →
      dget d "end_line" = some (.int (b + c.count '\n')) →
      linesChain (ds ++ [d]) (cs ++ [c]) a (b + c.count '\n') := by
  intro ds
  induction ds with
  | nil =>
    intro cs a b hch h1 h2
    cases cs with
    | nil =>
      have : a = b := hch
      subst this
      exact ⟨h1, h2, rfl⟩
    | cons c cs => exact absurd hch (by simp [linesChain])
  | cons d0 ds ih =>
    intro cs a b hch h1 h2
    cases cs with
    | nil => exact absurd hch (by simp [linesChain])
    | cons c0 cs =>
      obtain ⟨g1, g2, g3⟩ := hch
      exact ⟨g1, g2, ih cs _ b g3 h1 h2⟩

theorem linesChain_length : ∀ (ds : List Dict) (cs : List Str) (a b : Nat),
    linesChain ds cs a b → ds.length = cs.length := by
  intro ds
  induction ds with
  | nil =>
    intro cs a b hch
    cases cs with
    | nil => rfl
    | cons c cs => exact absurd hch (by simp [linesChain])
  | cons d0 ds ih =>
    intro cs a b hch
    cases cs with
    | nil => exact absurd hch (by simp [linesChain])
    | cons c0 cs =>
      obtain ⟨_, _, g3⟩ := hch
      simpa using ih cs _ b g3

/-- The run invariant behind the counter and line-range claims. -/
def decInv (st : DecState) : Prop :=
  (countedEvents st.events).map (fun d => dget d "counter") =
    (List.range' 1 st.counter).map (fun n => some (JVal.int (n : Nat))) ∧
  linesChain (countedEvents st.events) st.chunkLog 0 st.start_line

theorem decInv_init : decInv initState := ⟨rfl, rfl⟩

theorem emitChunks_inv (chunks : List Str) :
    ∀ (ed : Dict) (st : DecState), decInv st → decInv (emitChunks ed st chunks).2 := by
  induction chunks with
  | nil => intro ed st h; exact h
  | cons c rest ih =>
    intro ed st h
    unfold emitChunks
    apply ih
    -- the one emitted dict
    set ed1 := if dget ed "event" == some (.str "verbose")
               then dset ed "uuid" (.str (uuidName st.uuidSeq)) else ed with hed1
    set ed5 := dset (dset (dset (dset ed1 "counter" (.int (st.counter + 1)))
      "stdout" (.str ⟨rstripNl c⟩)) "start_line" (.int st.start_line))
      "end_line" (.int (st.start_line + c.count '\n')) with hed5
    have hcounter : dget ed5 "counter" = some (.int (st.counter + 1)) := by
      rw [hed5, dget_dset_ne _ _ _ _ (by decide), dget_dset_ne _ _ _ _ (by decide),
          dget_dset_ne _ _ _ _ (by decide), dget_dset_self]
    have hstart : dget ed5 "start_line" = some (.int st.start_line) := by
      rw [hed5, dget_dset_ne _ _ _ _ (by decide), dget_dset_self]
    have hend : dget ed5 "end_line" = some (.int (st.start_line + c.count '\n')) := by
      rw [hed5, dget_dset_self]
    have hhas : dhas ed5 "counter" = true := by
      rw [dhas_iff_dget, hcounter]
      rfl
    obtain ⟨hc, hl⟩ := h
    constructor
    · show (countedEvents (st.events ++ [ed5])).map (fun d => dget d "counter") = _
      rw [countedEvents_append]
      have hone : countedEvents [ed5] = [ed5] := by
        unfold countedEvents
        simp [List.filter, hhas]
      rw [hone, List.map_append, hc, List.range'_1_concat]
      simp only [List.map_append, List.map_cons, List.map_nil, hcounter]
      have : (1 : Nat) + st.counter = st.counter + 1 := by omega
      rw [this]
      norm_cast
    · show linesChain (countedEvents (st.events ++ [ed5])) (st.chunkLog ++ [c]) 0 _
      rw [countedEvents_append]
      have hone : countedEvents [ed5] = [ed5] := by
        unfold countedEvents
        simp [List.filter, hhas]
      rw [hone]
      exact linesChain_append_one ed5 c _ _ 0 st.start_line hl hstart hend

theorem emitEvent_inv (st : DecState) (buffered : Str) (next : JVal) (st' : DecState)
    (hinv : decInv st) (h : emitEvent st buffered next = .ok st') : decInv st' := by
  unfold emitEvent at h
  set ed : Dict := match st.current_event_data with
    | some d => d
    | none => if !buffered.isEmpty then [("event", JVal.str "verbose")] else [] with hed
  set chunks : List Str := match st.current_event_data with
    | some _ => [buffered]
    | none => if !buffered.isEmpty then splitlinesKeep buffered else [] with hchunks
  have hmid := emitChunks_inv chunks ed st hinv
  generalize hq : (if truthy next then next else JVal.obj []) = q at h
  cases q <;> first
  | (injection h with h
     subst h
     exact hmid)
  | injection h

theorem searchLoop_inv : ∀ (fuel : Nat) (st st' : DecState),
    decInv st → searchLoop fuel st = .ok st' → decInv st' := by
  intro fuel
  induction fuel with
  | zero =>
    intro st st' h hl
    injection hl with hl
    subst hl
    exact h
  | succ fuel ih =>
    intro st st' h hl
    unfold searchLoop at hl
    split at hl
    · injection hl with hl; subst hl; exact h
    · split at hl
      · exact absurd hl (by simp)
      · next st1 hemit =>
        refine ih _ st' ?_ hl
        exact emitEvent_inv st _ _ st1 h hemit

theorem flushLines_inv : ∀ (lines : List Str) (st st' : DecState),
    decInv st → flushLines st lines = .ok st' → decInv st' := by
  intro lines
  induction lines with
  | nil =>
    intro st st' h hl
    injection hl with hl
    subst hl
    exact h
  | cons l rest ih =>
    intro st st' h hl
    unfold flushLines at hl
    split at hl
    · exact absurd hl (by simp)
    · next st1 hemit =>
      exact ih _ st' (emitEvent_inv _ _ _ _ h hemit) hl

theorem OEFwrite_inv (st : DecState) (data : Str) (st' : DecState)
    (hinv : decInv st) (h : OEFwrite st data = .ok st') : decInv st' := by
  unfold OEFwrite at h
  dsimp only at h
  split at h
  · refine searchLoop_inv _ _ st' ?_ h
    exact hinv
  · split at h
    · split at h
      · exact absurd h (by simp)
      · next st1 hfl =>
        injection h with h
        subst h
        have hst1 : decInv st1 := by
          refine flushLines_inv _ _ st1 ?_ hfl
          exact hinv
        exact hst1
    · injection h with h
      subst h
      exact hinv

theorem OEFclose_inv (st st' : DecState)
    (hinv : decInv st) (h : OEFclose st = .ok st') : decInv st' := by
  unfold OEFclose at h
  have heof : ∀ st2 : DecState, decInv st2 →
      decInv { st2 with events := st2.events ++ [[("event", JVal.str "EOF")]] } := by
    intro st2 ⟨hc, hl⟩
    have hnot : countedEvents [[("event", JVal.str "EOF")]] = [] := by decide
    constructor
    · show (countedEvents (st2.events ++ _)).map _ = _
      rw [countedEvents_append, hnot, List.append_nil]
      exact hc
    · show linesChain (countedEvents (st2.events ++ _)) st2.chunkLog 0 _
      rw [countedEvents_append, hnot, List.append_nil]
      exact hl
  split at h
  · split at h
    · exact absurd h (by simp)
    · next st1 hemit =>
      injection h with h
      subst h
      exact heof _ (emitEvent_inv st _ _ st1 hinv hemit)
  · injection h with h
    subst h
    exact heof _ hinv

theorem runWrites_inv : ∀ (chunks : List Str) (st st' : DecState),
    decInv st → runWrites st chunks = .ok st' → decInv st' := by
  intro chunks
  induction chunks with
  | nil =>
    intro st st' h hl
    injection hl with hl
    subst hl
    exact h
  | cons c rest ih =>
    intro st st' h hl
    unfold runWrites at hl
    split at hl
    · exact absurd hl (by simp)
    · next st1 hw =>
      exact ih _ st' (OEFwrite_inv _ _ _ h hw) hl

theorem runDecoder_inv (chunks : List Str) (st : DecState)
    (h : runDecoder chunks = .ok st) : decInv st := by
  unfold runDecoder at h
  split at h
  · exact absurd h (by simp)
  · next st1 hw =>
    exact OEFclose_inv _ _ (runWrites_inv _ _ _ decInv_init hw) h

/-- C3: over any sequence of `write` calls followed by `close()`, the
counter values carried by the counted events delivered to the callback
are exactly `1, 2, ..., N` in order (`List.range' 1 N`). -/
theorem C3_counters_exactly_one_to_N (chunks : List Str) (st : DecState)
    (h : runDecoder chunks = .ok st) :
    (countedEvents st.events).map (fun d => dget d "counter") =
      (List.range' 1 (countedEvents st.events).length).map
        (fun n => some (JVal.int (n : Nat))) := by
  obtain ⟨hc, _⟩ := runDecoder_inv chunks st h
  have hlen : (countedEvents st.events).length = st.counter := by
    have := congrArg List.length hc
    simpa using this
  rw [hlen]
  exact hc

/-- C3 witness: the spec's `hello`/`world` example has counters `[1, 2]`. -/
theorem C3_witness :
    (countedEvents (((runDecoder ["hello\n".data, "world\n".data]).toOption.getD
      initState).events)).map (fun d => dget d "counter") =
      [some (.int 1), some (.int 2)] := by
  have h : runDecoder ["hello\n".data, "world\n".data] =
      .ok ((runDecoder ["hello\n".data, "world\n".data]).toOption.getD initState) := by
    decide
  rw [C3_counters_exactly_one_to_N _ _ h]
  decide

/-- C4: over any sequence of `write` calls followed by `close()`, the
emitted `start_line`/`end_line` ranges partition the cumulative
newline-delimited output: the first event starts at line 0, each event's
`end_line` exceeds its `start_line` by the newline count of the stdout
chunk it accounted (recorded in `chunkLog`), and each event starts where
the previous one ended, finishing at the decoder's final line cursor. -/
theorem C4_line_ranges_partition (chunks : List Str) (st : DecState)
    (h : runDecoder chunks = .ok st) :
    (countedEvents st.events).length = st.chunkLog.length ∧
    linesChain (countedEvents st.events) st.chunkLog 0 st.start_line := by
  obtain ⟨_, hl⟩ := runDecoder_inv chunks st h
  exact ⟨linesChain_length _ _ _ _ hl, hl⟩

/-- C4 witness: the theorem applied to the spec's `hello`/`world`
example. -/
theorem C4_witness :
    (countedEvents (((runDecoder ["hello\n".data, "world\n".data]).toOption.getD
      initState).events)).length =
      ((runDecoder ["hello\n".data, "world\n".data]).toOption.getD initState).chunkLog.length ∧
    linesChain
      (countedEvents (((runDecoder ["hello\n".data, "world\n".data]).toOption.getD
        initState).events))
      ((runDecoder ["hello\n".data, "world\n".data]).toOption.getD initState).chunkLog 0
      ((runDecoder ["hello\n".data, "world\n".data]).toOption.getD initState).start_line :=
  C4_line_ranges_partition ["hello\n".data, "world\n".data] _ (by decide)

/-! ### C7 — payload decode failure degrades to an empty mapping -/

theorem searchLoop_of_no_match (st : DecState) (h : findMatch st.buffer = none) :
    ∀ fuel, searchLoop fuel st = .ok st := by
  intro fuel
  cases fuel with
  | zero => rfl
  | succ fuel =>
    unfold searchLoop
    rw [h]

theorem emitEvent_obj_ex (st : DecState) (b : Str) (l : List (String × JVal)) :
    ∃ st1, emitEvent st b (.obj l) = .ok st1 := by
  unfold emitEvent
  dsimp only
  by_cases hb : truthy (.obj l) = true
  · rw [if_pos hb]
    exact ⟨_, rfl⟩
  · rw [if_neg hb]
    exact ⟨_, rfl⟩

theorem decodePayload_of_fails (g : Str) (h : decodeFails g = true) :
    decodePayload g = .obj [] := by
  unfold decodePayload
  unfold decodeFails at h
  dsimp only at h ⊢
  cases hb : b64Decode (stripCursorSeqs g.length g) with
  | none => rfl
  | some bs =>
    dsimp only at h ⊢
    cases hu : utf8Decode bs with
    | none => rfl
    | some s =>
      dsimp only at h ⊢
      cases hj : jsonLoads s with
      | none => rfl
      | some v =>
        simp only [hb, hu, hj] at h
        exact absurd h (by simp)

/-- C7: when the buffered data (after this `write`) matches the event-token
pattern once and the extracted payload fails base64/UTF-8/JSON decoding,
the decoder substitutes an empty mapping as the decoded payload, continues
processing the match with it (emitting the preceding text and rebuffering
the remainder), and `write` returns normally — no exception from payload
decoding reaches the caller. -/
theorem C7_decode_failure_degrades (st : DecState) (data pre g after : Str)
    (hs : hasSub (st.last_chunk ++ data) evMarker = true)
    (hm : findMatch (st.buffer ++ data) = some (pre, g, after))
    (hafter : findMatch after = none)
    (hfail : decodeFails g = true) :
    decodePayload g = .obj [] ∧
    OEFwrite st data =
      Except.map (fun st1 => { st1 with buffer := after, last_chunk := after })
        (emitEvent { st with buffer := st.buffer ++ data, last_chunk := data } pre
          (JVal.obj [])) ∧
    (OEFwrite st data).toOption.isSome = true := by
  have hdec := decodePayload_of_fails g hfail
  obtain ⟨st1, hst1⟩ := emitEvent_obj_ex
    { st with buffer := st.buffer ++ data, last_chunk := data } pre []
  have hwrite : OEFwrite st data = .ok { st1 with buffer := after, last_chunk := after } := by
    unfold OEFwrite
    dsimp only
    rw [hs]
    simp only [if_true]
    unfold searchLoop
    dsimp only
    rw [hm]
    dsimp only
    rw [hdec, hst1]
    dsimp only
    exact searchLoop_of_no_match _ hafter _
  refine ⟨hdec, ?_, ?_⟩
  · rw [hwrite, hst1]
    rfl
  · rw [hwrite]
    rfl

/-- C7 witness: the single-token stream whose payload is the base64 of
`"A"` (not valid JSON) — the decode fails, the write succeeds. -/
theorem C7_witness :
    hasSub (initState.last_chunk ++ "\x1b[KQQ==\x1b[1D\x1b[K".data) evMarker = true ∧
    findMatch (initState.buffer ++ "\x1b[KQQ==\x1b[1D\x1b[K".data) =
      some ([], "QQ==\x1b[1D".data, []) ∧
    findMatch [] = none ∧
    decodeFails "QQ==\x1b[1D".data = true ∧
    decodePayload "QQ==\x1b[1D".data = .obj [] ∧
    (OEFwrite initState "\x1b[KQQ==\x1b[1D\x1b[K".data).toOption.isSome = true := by
  refine ⟨by decide, by decide, by decide, by decide, ?_, ?_⟩
  · exact (C7_decode_failure_degrades initState "\x1b[KQQ==\x1b[1D\x1b[K".data []
      "QQ==\x1b[1D".data [] (by decide) (by decide) (by decide) (by decide)).1
  · exact (C7_decode_failure_degrades initState "\x1b[KQQ==\x1b[1D\x1b[K".data []
      "QQ==\x1b[1D".data [] (by decide) (by decide) (by decide) (by decide)).2.2

/-! ### C1: structure of the embedded event token -/

theorem occursIn_append_left {sub x : Str} (y : Str) (h : occursIn sub x) :
    occursIn sub (x ++ y) := by
  obtain ⟨a, b, rfl⟩ := h
  exact ⟨a, b ++ y, by simp⟩

theorem occursIn_append_right (x : Str) {sub y : Str} (h : occursIn sub y) :
    occursIn sub (x ++ y) := by
  obtain ⟨a, b, rfl⟩ := h
  exact ⟨x ++ a, b, by simp⟩

theorem occursIn_of_within {sub u s : Str} (h : u <:+: s) (hu : occursIn sub u) :
    occursIn sub s := by
  obtain ⟨x, y, rfl⟩ := h
  exact occursIn_append_left _ (occursIn_append_right _ hu)

/-- `hasSub` decides `occursIn`. -/
theorem hasSub_iff {s sub : Str} : hasSub s sub = true ↔ occursIn sub s := by
  constructor
  · intro h
    obtain ⟨i, hi, hpre⟩ := List.any_eq_true.mp h
    obtain ⟨t, ht⟩ := List.isPrefixOf_iff_prefix.mp hpre
    exact ⟨s.take i, t, by rw [List.append_assoc, ht, List.take_append_drop]⟩
  · rintro ⟨x, y, rfl⟩
    apply List.any_eq_true.mpr
    refine ⟨x.length, List.mem_range.mpr (by simp; omega), ?_⟩
    apply List.isPrefixOf_iff_prefix.mpr
    rw [List.append_assoc, List.drop_left]
    exact ⟨y, rfl⟩

theorem not_occursIn_of_hasSub {s sub : Str} (h : hasSub s sub = false) :
    ¬ occursIn sub s := by
  intro hc
  rw [← hasSub_iff] at hc
  rw [h] at hc
  exact Bool.false_ne_true hc

/-- If every element of `l1` satisfies `p` and `c` does not, `takeWhile`
stops exactly at the junction. -/
theorem takeWhile_append_not {p : Char → Bool} {l1 : Str} (c : Char) (t : Str)
    (h1 : ∀ x ∈ l1, p x = true) (hc : p c = false) :
    (l1 ++ c :: t).takeWhile p = l1 := by
  induction l1 with
  | nil => simp [List.takeWhile_cons, hc]
  | cons a l ih =>
    have ha := h1 a (by simp)
    simp only [List.cons_append, List.takeWhile_cons, ha, if_true]
    rw [ih (fun x hx => h1 x (by simp [hx]))]

theorem isB64Class_ESC : isB64Class ESC = false := by decide

theorem isDigit_D : Char.isDigit 'D' = false := by decide

/-- `parsePair` consumes exactly one well-formed pair, whatever follows. -/
theorem parsePair_pairText {p : Str × Str} (hp : pairOk p = true) (tail : Str) :
    parsePair (pairText p ++ tail) = some (pairText p, tail) := by
  obtain ⟨b, d⟩ := p
  simp only [pairOk, Bool.and_eq_true, Bool.not_eq_true', List.isEmpty_eq_false,
    List.all_eq_true] at hp
  obtain ⟨⟨⟨hb, hball⟩, hd⟩, hdall⟩ := hp
  have htext : pairText (b, d) ++ tail = b ++ (ESC :: '[' :: (d ++ 'D' :: tail)) := by
    simp [pairText]
  rw [htext]
  have htake : (b ++ (ESC :: '[' :: (d ++ 'D' :: tail))).takeWhile isB64Class = b :=
    takeWhile_append_not _ _ (fun x hx => hball x hx) isB64Class_ESC
  have hdrop : (b ++ (ESC :: '[' :: (d ++ 'D' :: tail))).drop b.length =
      ESC :: '[' :: (d ++ 'D' :: tail) := List.drop_left _ _
  have htake2 : (d ++ 'D' :: tail).takeWhile Char.isDigit = d :=
    takeWhile_append_not _ _ (fun x hx => hdall x hx) isDigit_D
  have hdrop2 : (d ++ 'D' :: tail).drop d.length = 'D' :: tail := List.drop_left _ _
  simp only [parsePair, htake, hdrop, htake2, hdrop2]
  have hbe : b.isEmpty = false := List.isEmpty_eq_false.mpr hb
  have hde : d.isEmpty = false := List.isEmpty_eq_false.mpr hd
  simp [hbe, hde, pairText]

/-- `parsePair` fails on input starting with the escape character. -/
theorem parsePair_ESC (t : Str) : parsePair (ESC :: t) = none := by
  simp [parsePair, List.takeWhile_cons, isB64Class_ESC]

theorem pairText_ne_nil (p : Str × Str) : pairText p ≠ [] := by
  simp [pairText]

theorem pairText_length_pos (p : Str × Str) : 0 < (pairText p).length := by
  simp [pairText]

/-- The greedy pair loop consumes exactly the well-formed pairs and then the
closing marker, whatever follows it. -/
theorem matchTail_payload (pairs : List (Str × Str)) (rest : Str) (fuel : Nat)
    (hok : ∀ p ∈ pairs, pairOk p = true)
    (hfuel : (payloadOf pairs).length < fuel) :
    matchTail fuel (payloadOf pairs ++ (evMarker ++ rest)) =
      some (payloadOf pairs, rest) := by
  induction pairs generalizing fuel with
  | nil =>
    match fuel, hfuel with
    | f + 1, _ =>
      show matchTail (f + 1) ([] ++ (evMarker ++ rest)) = some ([], rest)
      simp only [List.nil_append, evMarker]
      show matchTail (f + 1) (ESC :: '[' :: 'K' :: rest) = some ([], rest)
      simp [matchTail, parsePair_ESC]
  | cons p ps ih =>
    have hlen : 0 < (pairText p).length := pairText_length_pos p
    have hpay : payloadOf (p :: ps) = pairText p ++ payloadOf ps := by
      simp [payloadOf]
    rw [hpay] at hfuel ⊢
    match fuel, hfuel with
    | f + 1, hfuel =>
      have hps : (payloadOf ps).length < f := by
        simp only [List.length_append] at hfuel
        omega
      show matchTail (f + 1) (pairText p ++ payloadOf ps ++ (evMarker ++ rest)) = _
      rw [List.append_assoc]
      simp only [matchTail, parsePair_pairText (hok p (by simp))]
      rw [ih f (fun q hq => hok q (by simp [hq])) hps]

/-- The full after-marker matcher on a well-formed token body. -/
theorem matchAfterOpen_payload (pairs : List (Str × Str)) (p : Str × Str) (rest : Str)
    (hok : ∀ q ∈ p :: pairs, pairOk q = true) :
    matchAfterOpen (payloadOf (p :: pairs) ++ (evMarker ++ rest)) =
      some (payloadOf (p :: pairs), rest) := by
  have hpay : payloadOf (p :: pairs) = pairText p ++ payloadOf pairs := by
    simp [payloadOf]
  rw [hpay, List.append_assoc]
  simp only [matchAfterOpen, parsePair_pairText (hok p (by simp))]
  rw [matchTail_payload pairs rest _ (fun q hq => hok q (by simp [hq])) (by simp; omega)]

/-- A marker-headed position: the scan tries the matcher there. -/
theorem findMatch_hit (r : Str) :
    findMatch (ESC :: '[' :: 'K' :: r) =
      match matchAfterOpen r with
      | some (g, after) => some ([], g, after)
      | none => (findMatch ('[' :: 'K' :: r)).map (fun p => (ESC :: p.1, p.2.1, p.2.2)) := by
  rfl

/-- A position where the marker is not a prefix: the scan moves on. -/
theorem findMatch_skip (c : Char) (rest : Str) (h : ¬ evMarker <+: (c :: rest)) :
    findMatch (c :: rest) = (findMatch rest).map (fun p => (c :: p.1, p.2.1, p.2.2)) := by
  show (if c == ESC then
      match rest with
      | '[' :: 'K' :: r =>
        (match matchAfterOpen r with
         | some (g, after) => some ([], g, after)
         | none => (findMatch rest).map (fun p => (c :: p.1, p.2.1, p.2.2)))
      | _ => (findMatch rest).map (fun p => (c :: p.1, p.2.1, p.2.2))
    else (findMatch rest).map (fun p => (c :: p.1, p.2.1, p.2.2))) = _
  by_cases hc : (c == ESC) = true
  · rw [if_pos hc]
    have hce : c = ESC := by simpa using hc
    subst hce
    split
    · next r =>
      exact absurd ⟨r, rfl⟩ h
    · rfl
  · rw [if_neg hc]

/-- Leftmost search on a buffer holding marker-free text, then one complete
well-formed token, then anything: the match is exactly the token. -/
theorem findMatch_ready (pairs : List (Str × Str)) (p0 : Str × Str) (rest : Str)
    (hok : ∀ q ∈ p0 :: pairs, pairOk q = true) :
    ∀ (preRem : Str), ¬ occursIn evMarker preRem →
    findMatch (preRem ++ (evMarker ++ (payloadOf (p0 :: pairs) ++ (evMarker ++ rest)))) =
      some (preRem, payloadOf (p0 :: pairs), rest) := by
  intro preRem
  induction preRem with
  | nil =>
    intro _
    rw [List.nil_append]
    show findMatch (ESC :: '[' :: 'K' :: (payloadOf (p0 :: pairs) ++ (evMarker ++ rest))) = _
    rw [findMatch_hit, matchAfterOpen_payload pairs p0 rest hok]
  | cons c pr ih =>
    intro hpre
    have hnp : ¬ evMarker <+:
        (c :: (pr ++ (evMarker ++ (payloadOf (p0 :: pairs) ++ (evMarker ++ rest))))) := by
      rintro ⟨t, ht⟩
      simp only [evMarker, List.cons_append, List.nil_append] at ht
      rcases pr with _ | ⟨c2, _ | ⟨c3, pr'⟩⟩
      · simp only [List.nil_append, List.cons_append] at ht
        injection ht with h1 ht2
        injection ht2 with h2 _
        exact absurd h2 (by decide)
      · simp only [List.cons_append, List.singleton_append] at ht
        injection ht with h1 ht2
        injection ht2 with h2 ht3
        injection ht3 with h3 _
        exact absurd h3 (by decide)
      · simp only [List.cons_append] at ht
        injection ht with h1 ht2
        injection ht2 with h2 ht3
        injection ht3 with h3 _
        exact hpre ⟨[], pr', by rw [← h1, ← h2, ← h3]; rfl⟩
    rw [List.cons_append, findMatch_skip _ _ hnp]
    have hpre' : ¬ occursIn evMarker pr := fun hc => hpre (occursIn_append_right [c] hc)
    rw [ih hpre']
    rfl

theorem prefix_drop_reconstruct {b l : Str} (h : b <+: l) :
    l = b ++ l.drop b.length := by
  obtain ⟨t, rfl⟩ := h
  rw [List.drop_left]

/-- Soundness: `parsePair` returns a decomposition of its input. -/
theorem parsePair_sound {l g r : Str} (h : parsePair l = some (g, r)) :
    l = g ++ r := by
  simp only [parsePair] at h
  split at h
  · exact absurd h (by simp)
  · split at h
    · next e r2 heq =>
      split at h
      · next he =>
        split at h
        · exact absurd h (by simp)
        · split at h
          · next r3 heq2 =>
            simp only [Option.some.injEq, Prod.mk.injEq] at h
            obtain ⟨hg, hr⟩ := h
            have h1 : l = l.takeWhile isB64Class ++ (e :: '[' :: r2) := by
              rw [← heq]
              exact prefix_drop_reconstruct (List.takeWhile_prefix _)
            have h2 : r2 = r2.takeWhile Char.isDigit ++ ('D' :: r3) := by
              rw [← heq2]
              exact prefix_drop_reconstruct (List.takeWhile_prefix _)
            have he' : e = ESC := by simpa using he
            rw [← hg, ← hr]
            calc l = List.takeWhile isB64Class l ++ (e :: '[' :: r2) := h1
              _ = List.takeWhile isB64Class l ++
                  (ESC :: '[' :: (List.takeWhile Char.isDigit r2 ++ 'D' :: r3)) := by
                  rw [he']
                  conv_lhs => rw [h2]
              _ = (List.takeWhile isB64Class l ++
                  ESC :: '[' :: (List.takeWhile Char.isDigit r2 ++ ['D'])) ++ r3 := by
                  simp
          · exact absurd h (by simp)
      · exact absurd h (by simp)
    · exact absurd h (by simp)

theorem matchTail_sound : ∀ {fuel : Nat} {l g r : Str},
    matchTail fuel l = some (g, r) → l = g ++ evMarker ++ r := by
  intro fuel
  induction fuel with
  | zero => intro l g r h; exact absurd h (by simp [matchTail])
  | succ f ih =>
    intro l g r h
    simp only [matchTail] at h
    split at h
    · next g1 r1 hp =>
      split at h
      · next gs rest hmt =>
        simp only [Option.some.injEq, Prod.mk.injEq] at h
        obtain ⟨hg, hr⟩ := h
        have h1 := parsePair_sound hp
        have h2 := ih hmt
        rw [← hg, ← hr, h1, h2]
        simp
      · exact absurd h (by simp)
    · split at h
      · next e rl hpn =>
        split at h
        · next he =>
          simp only [Option.some.injEq, Prod.mk.injEq] at h
          obtain ⟨hg, hr⟩ := h
          have he' : e = ESC := by simpa using he
          rw [← hg, ← hr, he']
          rfl
        · exact absurd h (by simp)
      · exact absurd h (by simp)

theorem matchAfterOpen_sound {l g r : Str} (h : matchAfterOpen l = some (g, r)) :
    l = g ++ evMarker ++ r := by
  simp only [matchAfterOpen] at h
  split at h
  · exact absurd h (by simp)
  · next g1 r1 hp =>
    split at h
    · next gs rest hmt =>
      simp only [Option.some.injEq, Prod.mk.injEq] at h
      obtain ⟨hg, hr⟩ := h
      have h1 := parsePair_sound hp
      have h2 := matchTail_sound hmt
      rw [← hg, ← hr, h1, h2]
      simp
    · exact absurd h (by simp)

/-- Soundness of the scan: a match decomposes the buffer as text, opening
marker, group, closing marker, rest. -/
theorem findMatch_sound : ∀ {s b g a : Str},
    findMatch s = some (b, g, a) →
    s = b ++ evMarker ++ g ++ evMarker ++ a := by
  intro s
  induction s with
  | nil => intro b g a h; exact absurd h (by simp [findMatch])
  | cons c rest ih =>
    intro b g a h
    simp only [findMatch] at h
    split at h
    · next hc =>
      split at h
      · next r =>
        split at h
        · next g1 after hma =>
          simp only [Option.some.injEq, Prod.mk.injEq] at h
          obtain ⟨hb, hg, ha⟩ := h
          have h1 := matchAfterOpen_sound hma
          have hce : c = ESC := by simpa using hc
          rw [← hb, ← hg, ← ha, hce, h1]
          simp [evMarker]
        · next hma =>
          rw [Option.map_eq_some'] at h
          obtain ⟨⟨b', g', a'⟩, hfm, heq⟩ := h
          have h1 := ih hfm
          simp only [Prod.mk.injEq] at heq
          obtain ⟨hb, hg, ha⟩ := heq
          rw [← hb, ← hg, ← ha, h1]
          simp
      · rw [Option.map_eq_some'] at h
        obtain ⟨⟨b', g', a'⟩, hfm, heq⟩ := h
        have h1 := ih hfm
        simp only [Prod.mk.injEq] at heq
        obtain ⟨hb, hg, ha⟩ := heq
        rw [← hb, ← hg, ← ha, h1]
        simp
    · rw [Option.map_eq_some'] at h
      obtain ⟨⟨b', g', a'⟩, hfm, heq⟩ := h
      have h1 := ih hfm
      simp only [Prod.mk.injEq] at heq
      obtain ⟨hb, hg, ha⟩ := heq
      rw [← hb, ← hg, ← ha, h1]
      simp

/-- On marker-free text the scan finds nothing. -/
theorem findMatch_none_of_clean {s : Str} (h : ¬ occursIn evMarker s) :
    findMatch s = none := by
  cases hfm : findMatch s with
  | none => rfl
  | some p =>
    obtain ⟨b, g, a⟩ := p
    have := findMatch_sound hfm
    exact absurd ⟨b, g ++ evMarker ++ a, by rw [this]; simp⟩ h

/-- No occurrence of the marker starts strictly inside one pair's text. -/
theorem pairText_no_occ {p : Str × Str} (hp : pairOk p = true) {TAIL t y : Str}
    (h : pairText p ++ TAIL = t ++ (evMarker ++ y)) :
    ∃ t', t = pairText p ++ t' ∧ TAIL = t' ++ (evMarker ++ y) := by
  obtain ⟨b, d⟩ := p
  simp only [pairOk, Bool.and_eq_true, Bool.not_eq_true', List.isEmpty_eq_false,
    List.all_eq_true] at hp
  obtain ⟨⟨⟨hb, hball⟩, hd⟩, hdall⟩ := hp
  have hX : pairText (b, d) ++ TAIL = b ++ (ESC :: '[' :: (d ++ 'D' :: TAIL)) := by
    simp [pairText]
  rw [hX] at h
  rcases List.append_eq_append_iff.mp h with ⟨a', ha1, ha2⟩ | ⟨c', hc1, hc2⟩
  · -- t = b ++ a'; the marker occurrence starts in the `ESC [ digits D` block
    rcases a' with _ | ⟨a0, a2⟩
    · -- ESC :: '[' :: (d ++ 'D' :: TAIL) = evMarker ++ y : third char digit vs 'K'
      exfalso
      simp only [List.nil_append, evMarker, List.cons_append] at ha2
      injection ha2 with _ h2
      injection h2 with _ h3
      rcases hd' : d with _ | ⟨d0, ds⟩
      · exact hd hd'
      · rw [hd'] at h3
        simp only [List.cons_append] at h3
        injection h3 with h4 _
        have hh := hdall d0 (by rw [hd']; simp)
        subst h4
        exact absurd hh (by decide)
    · simp only [List.cons_append] at ha2
      injection ha2 with h0 h2
      rcases a2 with _ | ⟨a1, a3⟩
      · -- '[' :: ... = evMarker ++ y : '[' = ESC
        exfalso
        simp only [List.nil_append, evMarker, List.cons_append] at h2
        injection h2 with h3 _
        exact absurd h3 (by decide)
      · simp only [List.cons_append] at h2
        injection h2 with h1 h3
        -- d ++ 'D' :: TAIL = a3 ++ (evMarker ++ y)
        rcases List.append_eq_append_iff.mp h3 with ⟨a4, hb1, hb2⟩ | ⟨v, hv1, hv2⟩
        · rcases a4 with _ | ⟨a40, a5⟩
          · -- 'D' :: TAIL = evMarker ++ y : 'D' = ESC
            exfalso
            simp only [List.nil_append, evMarker, List.cons_append] at hb2
            injection hb2 with h4 _
            exact absurd h4 (by decide)
          · simp only [List.cons_append] at hb2
            injection hb2 with h4 h5
            -- h4 : 'D' = a40 ; h5 : TAIL = a5 ++ (evMarker ++ y)
            refine ⟨a5, ?_, h5⟩
            rw [ha1, ← h0, ← h1, hb1, ← h4]
            simp [pairText]
        · -- evMarker ++ y = v ++ 'D' :: TAIL with v a nonempty digit suffix
          rcases v with _ | ⟨v0, v2⟩
          · -- v = []: d = a3, 'K' vs 'D' mismatch? evMarker ++ y = 'D' :: TAIL
            exfalso
            simp only [List.nil_append, evMarker, List.cons_append] at hv2
            injection hv2 with h4 _
            exact absurd h4 (by decide)
          · -- v0 is a digit of d but equals ESC
            exfalso
            simp only [evMarker, List.cons_append] at hv2
            injection hv2 with h4 _
            have hm : v0 ∈ d := by rw [hv1]; simp
            have hh := hdall v0 hm
            subst h4
            exact absurd hh (by decide)
  · -- b = t ++ c' : the occurrence would start inside the base64 run
    rcases c' with _ | ⟨c0, c2⟩
    · -- c' = [] : evMarker ++ y = ESC [ digits D ... : 'K' vs digit
      exfalso
      simp only [List.nil_append, evMarker, List.cons_append] at hc2
      injection hc2 with _ h2
      injection h2 with _ h3
      rcases hd' : d with _ | ⟨d0, ds⟩
      · exact hd hd'
      · rw [hd'] at h3
        simp only [List.cons_append] at h3
        injection h3 with h4 _
        have hh := hdall d0 (by rw [hd']; simp)
        subst h4
        exact absurd hh (by decide)
    · -- c0 ∈ b is base64 but equals ESC
      exfalso
      simp only [evMarker, List.cons_append] at hc2
      injection hc2 with h4 _
      have hm : c0 ∈ b := by rw [hc1]; simp
      have hh := hball c0 hm
      subst h4
      exact absurd hh (by decide)

/-- No marker occurrence starts inside the payload. -/
theorem payload_no_occ (pairs : List (Str × Str)) (hok : ∀ p ∈ pairs, pairOk p = true) :
    ∀ {TAIL t y : Str}, payloadOf pairs ++ TAIL = t ++ (evMarker ++ y) →
    ∃ t', t = payloadOf pairs ++ t' ∧ TAIL = t' ++ (evMarker ++ y) := by
  induction pairs with
  | nil =>
    intro TAIL t y h
    simp only [payloadOf, List.map_nil, List.join, List.nil_append] at h ⊢
    exact ⟨t, rfl, h⟩
  | cons p ps ih =>
    intro TAIL t y h
    have hpay : payloadOf (p :: ps) = pairText p ++ payloadOf ps := by simp [payloadOf]
    rw [hpay, List.append_assoc] at h
    obtain ⟨t1, ht1, ht2⟩ := pairText_no_occ (hok p (by simp)) h
    obtain ⟨t', ht3, ht4⟩ := ih (fun q hq => hok q (by simp [hq])) ht2
    refine ⟨t', ?_, ht4⟩
    rw [ht1, ht3, hpay]
    simp

/-- Any marker occurrence in a full token is at its opening or its closing
marker position. -/
theorem tok_occ {pairs : List (Str × Str)} (hok : ∀ p ∈ pairs, pairOk p = true)
    (hne : pairs ≠ []) {t w : Str}
    (h : t ++ (evMarker ++ w) = tokOf pairs) :
    t = [] ∨ t = evMarker ++ payloadOf pairs := by
  have h' : evMarker ++ (payloadOf pairs ++ evMarker) = t ++ (evMarker ++ w) := by
    rw [h]; simp [tokOf]
  rcases List.append_eq_append_iff.mp h' with ⟨a', ha1, ha2⟩ | ⟨c', hc1, hc2⟩
  · -- t = evMarker ++ a' ; occurrence inside payload ++ evMarker
    obtain ⟨t', ht1, ht2⟩ := payload_no_occ pairs hok ha2
    -- ht2 : evMarker = t' ++ (evMarker ++ w)
    have hlen := congrArg List.length ht2
    simp only [List.length_append, evMarker] at hlen
    have ht'0 : t' = [] := List.eq_nil_of_length_eq_zero (by simp at hlen; omega)
    right
    rw [ha1, ht1, ht'0]
    simp
  · -- evMarker = t ++ c'
    rcases t with _ | ⟨t0, t2⟩
    · exact Or.inl rfl
    · exfalso
      rcases c' with _ | ⟨c0, c2⟩
      · -- c' = [] : evMarker = t and evMarker ++ w = payload ++ evMarker
        simp only [List.append_nil] at hc1
        rcases hps : pairs with _ | ⟨p, ps⟩
        · exact hne hps
        · have hp := hok p (by rw [hps]; simp)
          simp only [pairOk, Bool.and_eq_true, Bool.not_eq_true', List.isEmpty_eq_false,
            List.all_eq_true] at hp
          obtain ⟨⟨⟨hb, hball⟩, hd⟩, hdall⟩ := hp
          rcases hb1 : p.1 with _ | ⟨b0, bs⟩
          · exact hb hb1
          · rw [hps] at hc2
            have hpay : payloadOf (p :: ps) = b0 :: (bs ++ ESC :: '[' :: (p.2 ++ ['D']) ++ payloadOf ps) := by
              simp [payloadOf, pairText, hb1]
            rw [hpay] at hc2
            simp only [evMarker, List.cons_append, List.nil_append] at hc2
            injection hc2 with h0 _
            have hh := hball b0 (by rw [hb1]; simp)
            rw [← h0] at hh
            exact absurd hh (by decide)
      · -- c' nonempty proper suffix of the marker starting with ESC
        simp only [List.cons_append, evMarker] at hc1 hc2
        injection hc2 with h0 _
        rcases t2 with _ | ⟨t1, t3⟩
        · injection hc1 with _ h1
          injection h1 with h2 _
          rw [← h0] at h2
          exact absurd h2 (by decide)
        · rcases t3 with _ | ⟨t4, t5⟩
          · injection hc1 with _ h1
            injection h1 with _ h2
            injection h2 with h3 _
            rw [← h0] at h3
            exact absurd h3 (by decide)
          · have hlen := congrArg List.length hc1
            simp only [List.length_cons, List.length_append, List.length_nil] at hlen
            omega

/-- In a buffer of marker-free text followed by a proper prefix of a token,
any marker occurrence starts exactly where the token starts. -/
theorem buffer_occ_unique {pairs : List (Str × Str)}
    (hok : ∀ p ∈ pairs, pairOk p = true) (hne : pairs ≠ [])
    {preRem tkp z : Str}
    (hpre : ¬ occursIn evMarker preRem)
    (htkp : tkp ++ z = tokOf pairs) (hz : z ≠ [])
    {x y : Str} (h : preRem ++ tkp = x ++ (evMarker ++ y)) :
    x = preRem := by
  rcases List.append_eq_append_iff.mp h with ⟨a', ha1, ha2⟩ | ⟨c', hc1, hc2⟩
  · -- x = preRem ++ a', and tkp = a' ++ (evMarker ++ y)
    have htok : a' ++ (evMarker ++ (y ++ z)) = tokOf pairs := by
      rw [← htkp, ha2]; simp
    rcases tok_occ hok hne htok with h0 | h0
    · rw [ha1, h0]; simp
    · exfalso
      have hl1 := congrArg List.length htkp
      have hl2 := congrArg List.length ha2
      have hl3 := congrArg List.length h0
      simp only [List.length_append, tokOf, evMarker] at hl1 hl2 hl3
      have hzl : 0 < z.length := List.length_pos.mpr hz
      simp only [List.length_cons, List.length_nil] at hl1 hl2 hl3
      omega
  · -- preRem = x ++ c' with the marker stretching over the junction
    rcases c' with _ | ⟨c0, c2⟩
    · simp only [List.append_nil] at hc1
      exact hc1.symm
    · exfalso
      rcases List.append_eq_append_iff.mp hc2 with ⟨a2, hb1, hb2⟩ | ⟨v, hv1, hv2⟩
      · -- c0 :: c2 = evMarker ++ a2 : the marker sits wholly inside preRem
        exact hpre ⟨x, a2, by rw [hc1, hb1]; simp⟩
      · rcases v with _ | ⟨v0, v2⟩
        · -- v = [] : c' = evMarker
          simp only [List.append_nil] at hv1
          exact hpre ⟨x, [], by rw [hc1, ← hv1]; simp⟩
        · -- tkp starts with a non-head marker character
          have htk0 : tkp = v0 :: (v2 ++ y) := by rw [hv2]; rfl
          have htok0 : tokOf pairs = v0 :: (v2 ++ y ++ z) := by
            rw [← htkp, htk0]; simp
          have hesc : v0 = ESC := by
            have : tokOf pairs = ESC :: ('[' :: 'K' :: payloadOf pairs ++ evMarker) := by
              simp [tokOf, evMarker]
            rw [this] at htok0
            injection htok0 with h0 _
            exact h0.symm
          -- evMarker = (c0 :: c2) ++ (v0 :: v2) with c' nonempty: v0 ∈ {'[', 'K'}
          rcases c2 with _ | ⟨c1, c3⟩
          · simp only [List.cons_append, List.nil_append, evMarker] at hv1
            injection hv1 with _ h1
            injection h1 with h2 _
            rw [hesc] at h2
            exact absurd h2 (by decide)
          · rcases c3 with _ | ⟨c4, c5⟩
            · simp only [List.cons_append, List.nil_append, evMarker] at hv1
              injection hv1 with _ h1
              injection h1 with _ h2
              injection h2 with h3 _
              rw [hesc] at h3
              exact absurd h3 (by decide)
            · have hlen := congrArg List.length hv1
              simp only [List.length_cons, List.length_append, evMarker,
                List.length_nil] at hlen
              omega

/-- While the token is still incomplete in the buffer, the scan finds no
match. -/
theorem findMatch_incomplete {pairs : List (Str × Str)}
    (hok : ∀ p ∈ pairs, pairOk p = true) (hne : pairs ≠ [])
    {preRem tkp z : Str}
    (hpre : ¬ occursIn evMarker preRem)
    (htkp : tkp ++ z = tokOf pairs) (hz : z ≠ []) :
    findMatch (preRem ++ tkp) = none := by
  cases hfm : findMatch (preRem ++ tkp) with
  | none => rfl
  | some p =>
    exfalso
    obtain ⟨b, g, a⟩ := p
    have hs := findMatch_sound hfm
    have h1 : preRem ++ tkp = b ++ (evMarker ++ (g ++ (evMarker ++ a))) := by
      rw [hs]; simp
    have h2 : preRem ++ tkp = (b ++ evMarker ++ g) ++ (evMarker ++ a) := by
      rw [hs]; simp
    have e1 := buffer_occ_unique hok hne hpre htkp hz h1
    have e2 := buffer_occ_unique hok hne hpre htkp hz h2
    have hl1 := congrArg List.length e1
    have hl2 := congrArg List.length e2
    simp only [List.length_append, evMarker, List.length_cons, List.length_nil] at hl1 hl2
    omega

/-! ### C1: structure of `splitlines(True)` -/

theorem sla_nil (acc : Str) :
    splitlinesKeepAux [] acc = if acc.isEmpty then [] else [acc.reverse] := rfl

theorem sla_one (c : Char) (acc : Str) :
    splitlinesKeepAux [c] acc = [acc.reverse ++ [c]] := rfl

theorem sla_pair (rest acc : Str) :
    splitlinesKeepAux ('\r' :: '\n' :: rest) acc =
      (acc.reverse ++ ['\r', '\n']) :: splitlinesKeepAux rest [] := by
  simp [splitlinesKeepAux]

theorem sla_break2 (c c2 : Char) (rest acc : Str) (h : ¬(c = '\r' ∧ c2 = '\n'))
    (hb : isLineBreak c = true) :
    splitlinesKeepAux (c :: c2 :: rest) acc =
      (acc.reverse ++ [c]) :: splitlinesKeepAux (c2 :: rest) [] := by
  have hcc : (c == '\r' && c2 == '\n') = false := by
    rcases Bool.eq_false_or_eq_true (c == '\r') with h1 | h1
    · have hc : c = '\r' := by simpa using h1
      have hc2 : c2 ≠ '\n' := fun he => h ⟨hc, he⟩
      simp [hc, hc2]
    · simp [h1]
  simp [splitlinesKeepAux, hcc, hb]

theorem sla_plain2 (c c2 : Char) (rest acc : Str) (hb : isLineBreak c = false) :
    splitlinesKeepAux (c :: c2 :: rest) acc =
      splitlinesKeepAux (c2 :: rest) (c :: acc) := by
  have hc : c ≠ '\r' := by
    intro he; rw [he] at hb; exact absurd hb (by decide)
  simp [splitlinesKeepAux, hc, hb]

theorem sla_join : ∀ (x acc : Str), (splitlinesKeepAux x acc).join = acc.reverse ++ x
  | [], acc => by
      rw [sla_nil]
      by_cases h : acc.isEmpty
      · rw [if_pos h]
        have : acc = [] := by simpa using h
        simp [this]
      · rw [if_neg h]
        simp
  | [c], acc => by simp [sla_one]
  | c :: c2 :: rest, acc => by
      by_cases hp : c = '\r' ∧ c2 = '\n'
      · obtain ⟨h1, h2⟩ := hp
        subst h1; subst h2
        rw [sla_pair]
        simp [sla_join rest []]
      · by_cases hb : isLineBreak c = true
        · rw [sla_break2 _ _ _ _ hp hb]
          simp [sla_join (c2 :: rest) []]
        · rw [sla_plain2 _ _ _ _ (by simpa using hb)]
          have := sla_join (c2 :: rest) (c :: acc)
          simpa using this

theorem splitlinesKeep_join (x : Str) : (splitlinesKeep x).join = x := by
  simpa using sla_join x []

/-- A run of non-break characters is swallowed into the accumulator. -/
theorem sla_accum : ∀ (body : Str), ∀ (t acc : Str), t ≠ [] →
    (∀ c ∈ body, isLineBreak c = false) →
    splitlinesKeepAux (body ++ t) acc = splitlinesKeepAux t (body.reverse ++ acc)
  | [], t, acc, _, _ => by simp
  | b0 :: body', t, acc, ht, hnb => by
      have hb0 : isLineBreak b0 = false := hnb b0 (by simp)
      have hbt : body' ++ t ≠ [] := by
        intro he
        rcases List.append_eq_nil.mp he with ⟨_, h2⟩
        exact ht h2
      rcases hshape : body' ++ t with _ | ⟨d, ds⟩
      · exact absurd hshape hbt
      · rw [List.cons_append, hshape, sla_plain2 _ _ _ _ hb0, ← hshape,
          sla_accum body' t (b0 :: acc) ht (fun c hc => hnb c (by simp [hc]))]
        simp

/-- A non-break body followed by one final character is a single line. -/
theorem split_body_one (body : Str) (c : Char)
    (hnb : ∀ x ∈ body, isLineBreak x = false) :
    splitlinesKeep (body ++ [c]) = [body ++ [c]] := by
  unfold splitlinesKeep
  rw [sla_accum body [c] [] (by simp) hnb, sla_one]
  simp

/-- A non-break body followed by the CRLF pair is a single line. -/
theorem split_body_pair (body : Str)
    (hnb : ∀ x ∈ body, isLineBreak x = false) :
    splitlinesKeep (body ++ ['\r', '\n']) = [body ++ ['\r', '\n']] := by
  unfold splitlinesKeep
  rw [sla_accum body ['\r', '\n'] [] (by simp) hnb, sla_pair, sla_nil]
  simp

/-- A nonempty all-plain string is a single (unterminated) line. -/
theorem split_plain (body : Str) (hne : body ≠ [])
    (hnb : ∀ x ∈ body, isLineBreak x = false) :
    splitlinesKeep body = [body] := by
  have hd := List.dropLast_append_getLast hne
  rw [← hd]
  exact split_body_one _ _ (fun x hx => hnb x (by rw [← hd]; simp [hx]))

theorem sla_lines : ∀ (x acc : Str), (∀ c ∈ acc, isLineBreak c = false) →
    ∀ l ∈ splitlinesKeepAux x acc, lineIsGood l
  | [], acc, hacc => by
      rw [sla_nil]
      by_cases h : acc.isEmpty
      · rw [if_pos h]; intro l hl; simp at hl
      · rw [if_neg h]
        intro l hl
        simp only [List.mem_singleton] at hl
        subst hl
        have hne : acc ≠ [] := by simpa using h
        have hnb : ∀ c ∈ acc.reverse, isLineBreak c = false := by
          intro c hc; exact hacc c (by simpa using hc)
        refine ⟨by simpa using hne, split_plain _ (by simpa using hne) hnb, ?_⟩
        intro hn
        exact absurd (hnb '\n' hn) (by decide)
  | [c], acc, hacc => by
      rw [sla_one]
      intro l hl
      simp only [List.mem_singleton] at hl
      subst hl
      have hnb : ∀ x ∈ acc.reverse, isLineBreak x = false := by
        intro x hx; exact hacc x (by simpa using hx)
      refine ⟨by simp, split_body_one _ _ hnb, ?_⟩
      intro hn
      rcases List.mem_append.mp hn with h1 | h1
      · exact absurd (hnb '\n' h1) (by decide)
      · simp only [List.mem_singleton] at h1
        rw [← h1]
        simp
  | c :: c2 :: rest, acc, hacc => by
      by_cases hp : c = '\r' ∧ c2 = '\n'
      · obtain ⟨h1, h2⟩ := hp
        subst h1; subst h2
        rw [sla_pair]
        intro l hl
        rcases List.mem_cons.mp hl with h | h
        · subst h
          have hnb : ∀ x ∈ acc.reverse, isLineBreak x = false := by
            intro x hx; exact hacc x (by simpa using hx)
          refine ⟨by simp, split_body_pair _ hnb, ?_⟩
          intro _; simp
        · exact sla_lines rest [] (by simp) l h
      · by_cases hb : isLineBreak c = true
        · rw [sla_break2 _ _ _ _ hp hb]
          intro l hl
          rcases List.mem_cons.mp hl with h | h
          · subst h
            have hnb : ∀ x ∈ acc.reverse, isLineBreak x = false := by
              intro x hx; exact hacc x (by simpa using hx)
            refine ⟨by simp, split_body_one _ _ hnb, ?_⟩
            intro hn
            rcases List.mem_append.mp hn with h1 | h1
            · exact absurd (hnb '\n' h1) (by decide)
            · simp only [List.mem_singleton] at h1
              rw [← h1]
              simp
          · exact sla_lines (c2 :: rest) [] (by simp) l h
        · rw [sla_plain2 _ _ _ _ (by simpa using hb)]
          exact sla_lines (c2 :: rest) (c :: acc)
            (by intro x hx
                rcases List.mem_cons.mp hx with h | h
                · subst h; simpa using hb
                · exact hacc x h)

theorem splitlinesKeep_lines (x : Str) : ∀ l ∈ splitlinesKeep x, lineIsGood l :=
  sla_lines x [] (by simp)

/-- Every line except possibly the last ends with a line break. -/
theorem sla_complete : ∀ (x acc : Str),
    ∀ l ∈ (splitlinesKeepAux x acc).dropLast,
      ∃ c, l.getLast? = some c ∧ isLineBreak c = true
  | [], acc => by
      rw [sla_nil]
      by_cases h : acc.isEmpty
      · rw [if_pos h]; intro l hl; simp at hl
      · rw [if_neg h]; intro l hl; simp at hl
  | [c], acc => by
      rw [sla_one]
      intro l hl; simp at hl
  | c :: c2 :: rest, acc => by
      by_cases hp : c = '\r' ∧ c2 = '\n'
      · obtain ⟨h1, h2⟩ := hp
        subst h1; subst h2
        rw [sla_pair]
        intro l hl
        rcases hrec : splitlinesKeepAux rest [] with _ | ⟨r0, rs⟩
        · rw [hrec] at hl; simp at hl
        · rw [hrec, List.dropLast_cons₂] at hl
          rcases List.mem_cons.mp hl with h | h
          · subst h
            exact ⟨'\n', by simp, by decide⟩
          · rw [← hrec] at h
            exact sla_complete rest [] l h
      · by_cases hb : isLineBreak c = true
        · rw [sla_break2 _ _ _ _ hp hb]
          intro l hl
          rcases hrec : splitlinesKeepAux (c2 :: rest) [] with _ | ⟨r0, rs⟩
          · rw [hrec] at hl; simp at hl
          · rw [hrec, List.dropLast_cons₂] at hl
            rcases List.mem_cons.mp hl with h | h
            · subst h
              exact ⟨c, by simp, hb⟩
            · rw [← hrec] at h
              exact sla_complete (c2 :: rest) [] l h
        · rw [sla_plain2 _ _ _ _ (by simpa using hb)]
          exact sla_complete (c2 :: rest) (c :: acc)

theorem sla_ne_nil : ∀ (x acc : Str), x ≠ [] → splitlinesKeepAux x acc ≠ []
  | [], _, hx => absurd rfl hx
  | [c], acc, _ => by rw [sla_one]; simp
  | c :: c2 :: rest, acc, _ => by
      by_cases hp : c = '\r' ∧ c2 = '\n'
      · obtain ⟨h1, h2⟩ := hp
        subst h1; subst h2
        rw [sla_pair]; simp
      · by_cases hb : isLineBreak c = true
        · rw [sla_break2 _ _ _ _ hp hb]; simp
        · rw [sla_plain2 _ _ _ _ (by simpa using hb)]
          exact sla_ne_nil (c2 :: rest) (c :: acc) (by simp)

/-- The first produced line starts with the first pending character. -/
theorem sla_head : ∀ (x acc : Str), ∀ l ∈ (splitlinesKeepAux x acc).head?,
    l.head? = (acc.reverse ++ x).head?
  | [], acc => by
      rw [sla_nil]
      by_cases h : acc.isEmpty
      · rw [if_pos h]; intro l hl; simp at hl
      · rw [if_neg h]
        intro l hl
        simp only [List.head?_cons, Option.mem_def, Option.some.injEq] at hl
        subst hl
        simp
  | [c], acc => by
      rw [sla_one]
      intro l hl
      simp only [List.head?_cons, Option.mem_def, Option.some.injEq] at hl
      subst hl
      rfl
  | c :: c2 :: rest, acc => by
      by_cases hp : c = '\r' ∧ c2 = '\n'
      · obtain ⟨h1, h2⟩ := hp
        subst h1; subst h2
        rw [sla_pair]
        intro l hl
        simp only [List.head?_cons, Option.mem_def, Option.some.injEq] at hl
        subst hl
        rcases hrev : acc.reverse with _ | ⟨a, t⟩ <;> simp [hrev]
      · by_cases hb : isLineBreak c = true
        · rw [sla_break2 _ _ _ _ hp hb]
          intro l hl
          simp only [List.head?_cons, Option.mem_def, Option.some.injEq] at hl
          subst hl
          rcases hrev : acc.reverse with _ | ⟨a, t⟩ <;> simp [hrev]
        · rw [sla_plain2 _ _ _ _ (by simpa using hb)]
          intro l hl
          have := sla_head (c2 :: rest) (c :: acc) l hl
          rw [this]
          simp

theorem sla_chain : ∀ (x acc : Str), List.Chain' adjOk (splitlinesKeepAux x acc)
  | [], acc => by
      rw [sla_nil]
      by_cases h : acc.isEmpty
      · rw [if_pos h]; exact List.chain'_nil
      · rw [if_neg h]; exact List.chain'_singleton _
  | [c], acc => by rw [sla_one]; exact List.chain'_singleton _
  | c :: c2 :: rest, acc => by
      by_cases hp : c = '\r' ∧ c2 = '\n'
      · obtain ⟨h1, h2⟩ := hp
        subst h1; subst h2
        rw [sla_pair]
        apply List.chain'_cons'.mpr
        refine ⟨?_, sla_chain rest []⟩
        intro b _
        intro hlast
        simp at hlast
      · by_cases hb : isLineBreak c = true
        · rw [sla_break2 _ _ _ _ hp hb]
          apply List.chain'_cons'.mpr
          refine ⟨?_, sla_chain (c2 :: rest) []⟩
          intro b hb'
          intro hlast
          have hb0 : b.head? = ((c2 :: rest) : Str).head? := by
            simpa using sla_head (c2 :: rest) [] b hb'
          rw [hb0]
          simp only [List.head?_cons, ne_eq, Option.some.injEq]
          intro hc2
          have hc : c = '\r' := by
            have := hlast
            simpa using this
          exact hp ⟨hc, hc2⟩
        · rw [sla_plain2 _ _ _ _ (by simpa using hb)]
          exact sla_chain (c2 :: rest) (c :: acc)

/-- Splitting distributes over a junction that closes a line (and does not
split a CRLF pair). -/
theorem sla_append : ∀ (fl : Str), ∀ (x acc : Str), fl ≠ [] →
    (∃ cl, fl.getLast? = some cl ∧ isLineBreak cl = true ∧
      ¬(cl = '\r' ∧ x.head? = some '\n')) →
    splitlinesKeepAux (fl ++ x) acc = splitlinesKeepAux fl acc ++ splitlinesKeep x
  | [], _, _, hne, _ => absurd rfl hne
  | [c], x, acc, _, hcl => by
      obtain ⟨cl, hcl1, hcl2, hcl3⟩ := hcl
      have hc : cl = c := by simpa using hcl1.symm
      subst hc
      rcases x with _ | ⟨x0, xs⟩
      · rw [List.append_nil, sla_one]
        rfl
      · by_cases hp : cl = '\r' ∧ x0 = '\n'
        · exact absurd ⟨hp.1, by rw [hp.2]; rfl⟩ hcl3
        · rw [List.cons_append, List.nil_append, sla_break2 _ _ _ _ hp hcl2, sla_one]
          rfl
  | c :: c2 :: rest, x, acc, _, hcl => by
      obtain ⟨cl, hcl1, hcl2, hcl3⟩ := hcl
      have hlast : ((c2 :: rest) : Str).getLast? = some cl := by
        rw [← hcl1]
        rfl
      by_cases hp : c = '\r' ∧ c2 = '\n'
      · obtain ⟨h1, h2⟩ := hp
        subst h1; subst h2
        rcases rest with _ | ⟨r0, rs⟩
        · have hc : cl = '\n' := by simpa using hlast.symm
          subst hc
          rw [List.cons_append, List.cons_append, List.nil_append, sla_pair, sla_pair,
            sla_nil]
          simp [splitlinesKeep]
        · rw [List.cons_append, List.cons_append, sla_pair, sla_pair]
          rw [sla_append (r0 :: rs) x [] (by simp) ⟨cl, by simpa using hlast, hcl2, hcl3⟩]
          rfl
      · by_cases hb : isLineBreak c = true
        · rw [List.cons_append, List.cons_append, sla_break2 _ _ _ _ hp hb,
            sla_break2 _ _ _ _ hp hb, ← List.cons_append,
            sla_append (c2 :: rest) x [] (by simp) ⟨cl, hlast, hcl2, hcl3⟩]
          simp
        · rw [List.cons_append, List.cons_append, sla_plain2 _ _ _ _ (by simpa using hb),
            sla_plain2 _ _ _ _ (by simpa using hb), ← List.cons_append,
            sla_append (c2 :: rest) x (c :: acc) (by simp) ⟨cl, hlast, hcl2, hcl3⟩]

/-- Top-level form of the junction lemma. -/
theorem splitlinesKeep_append (fl x : Str)
    (h : ∃ cl, fl.getLast? = some cl ∧ isLineBreak cl = true ∧
      ¬(cl = '\r' ∧ x.head? = some '\n')) :
    splitlinesKeep (fl ++ x) = splitlinesKeep fl ++ splitlinesKeep x := by
  have hne : fl ≠ [] := by
    obtain ⟨cl, hcl, _, _⟩ := h
    intro he
    rw [he] at hcl
    simp at hcl
  exact sla_append fl x [] hne h

/-! ### C1: batching of verbose emissions -/

theorem emitChunks_append (ed : Dict) (st : DecState) (l₁ l₂ : List Str) :
    emitChunks ed st (l₁ ++ l₂) =
      emitChunks (emitChunks ed st l₁).1 (emitChunks ed st l₁).2 l₂ := by
  induction l₁ generalizing ed st with
  | nil => rfl
  | cons c cs ih => exact ih _ _

theorem emitChunks_buffer (ed : Dict) (st : DecState) (cs : List Str) :
    (emitChunks ed st cs).2.buffer = st.buffer := by
  induction cs generalizing ed st with
  | nil => rfl
  | cons c cs ih => exact ih _ _

theorem emitChunks_last_chunk (ed : Dict) (st : DecState) (cs : List Str) :
    (emitChunks ed st cs).2.last_chunk = st.last_chunk := by
  induction cs generalizing ed st with
  | nil => rfl
  | cons c cs ih => exact ih _ _

theorem emitChunks_current (ed : Dict) (st : DecState) (cs : List Str) :
    (emitChunks ed st cs).2.current_event_data = st.current_event_data := by
  induction cs generalizing ed st with
  | nil => rfl
  | cons c cs ih => exact ih _ _

theorem emitChunks_congrBL : ∀ (cs : List Str) (ed : Dict) (st₁ st₂ : DecState),
    eraseBL st₁ = eraseBL st₂ →
    (emitChunks ed st₁ cs).1 = (emitChunks ed st₂ cs).1 ∧
    eraseBL (emitChunks ed st₁ cs).2 = eraseBL (emitChunks ed st₂ cs).2
  | [], ed, st₁, st₂, h => ⟨rfl, h⟩
  | c :: cs, ed, st₁, st₂, h => by
      obtain ⟨cnt1, sl1, buf1, lc1, cur1, evs1, clog1, us1⟩ := st₁
      obtain ⟨cnt2, sl2, buf2, lc2, cur2, evs2, clog2, us2⟩ := st₂
      simp only [eraseBL, DecState.mk.injEq] at h
      obtain ⟨h1, h2, _, _, h3, h4, h5, h6⟩ := h
      subst h1; subst h2; subst h3; subst h4; subst h5; subst h6
      exact emitChunks_congrBL cs _ _ _ rfl

theorem emitChunks_edFull_step (u c sd a b : JVal) (st : DecState) (chunk : Str)
    (cs : List Str) :
    emitChunks (edFull u c sd a b) st (chunk :: cs) = emitChunks vbDict st (chunk :: cs) :=
  rfl

/-- One explicit step of the emission loop from the fresh verbose dict. -/
theorem emitChunks_vb_step (st : DecState) (c0 : Str) (rest : List Str) :
    emitChunks vbDict st (c0 :: rest) =
      emitChunks
        (edFull (JVal.str (uuidName st.uuidSeq)) (JVal.int (st.counter + 1))
          (JVal.str ⟨rstripNl c0⟩) (JVal.int st.start_line)
          (JVal.int (st.start_line + c0.count '\n')))
        { st with
          counter := st.counter + 1,
          start_line := st.start_line + c0.count '\n',
          uuidSeq := st.uuidSeq + 1,
          events := st.events ++
            [edFull (JVal.str (uuidName st.uuidSeq)) (JVal.int (st.counter + 1))
              (JVal.str ⟨rstripNl c0⟩) (JVal.int st.start_line)
              (JVal.int (st.start_line + c0.count '\n'))],
          chunkLog := st.chunkLog ++ [c0] } rest := rfl

theorem emitChunks_vb_shape : ∀ (cs : List Str) (st : DecState), cs ≠ [] →
    ∃ u c sd a b, (emitChunks vbDict st cs).1 = edFull u c sd a b
  | [], _, h => absurd rfl h
  | [c0], st, _ => by
      rw [emitChunks_vb_step]
      exact ⟨_, _, _, _, _, rfl⟩
  | c0 :: c1 :: cs, st, _ => by
      rw [emitChunks_vb_step, emitChunks_edFull_step]
      exact emitChunks_vb_shape (c1 :: cs) _ (by simp)

theorem flushAdv_buffer (st : DecState) (t : Str) :
    (flushAdv st t).buffer = st.buffer := emitChunks_buffer _ _ _

theorem flushAdv_last_chunk (st : DecState) (t : Str) :
    (flushAdv st t).last_chunk = st.last_chunk := emitChunks_last_chunk _ _ _

theorem flushAdv_current (st : DecState) (t : Str) :
    (flushAdv st t).current_event_data = st.current_event_data :=
  emitChunks_current _ _ _

theorem flushAdv_congrBL (st₁ st₂ : DecState) (t : Str)
    (h : eraseBL st₁ = eraseBL st₂) :
    eraseBL (flushAdv st₁ t) = eraseBL (flushAdv st₂ t) :=
  (emitChunks_congrBL _ _ _ _ h).2

theorem flushAdv_nil (st : DecState) : flushAdv st [] = st := rfl

theorem getLast?_ne_nil {l : Str} {c : Char} (h : l.getLast? = some c) : l ≠ [] := by
  intro he
  rw [he] at h
  simp at h

/-- Batching splits at a line-closing junction. -/
theorem flushAdv_append (st : DecState) (a b : Str)
    (h : ∃ cl, a.getLast? = some cl ∧ isLineBreak cl = true ∧
      ¬(cl = '\r' ∧ b.head? = some '\n')) :
    flushAdv st (a ++ b) = flushAdv (flushAdv st a) b := by
  have hane : a ≠ [] := getLast?_ne_nil h.choose_spec.1
  by_cases hbe : b = []
  · subst hbe
    rw [List.append_nil, flushAdv_nil]
  · unfold flushAdv
    rw [splitlinesKeep_append a b h]
    have h1 : ((a ++ b).isEmpty : Bool) = false := by simp [hane]
    have h2 : (a.isEmpty : Bool) = false := by simp [hane]
    have h3 : (b.isEmpty : Bool) = false := by simp [hbe]
    rw [h1, h2, h3]
    simp only [Bool.false_eq_true, if_false]
    rw [emitChunks_append vbDict st (splitlinesKeep a) (splitlinesKeep b)]
    obtain ⟨u, c, sd, aa, bb, hsh⟩ :=
      emitChunks_vb_shape (splitlinesKeep a) st (sla_ne_nil a [] hane)
    rw [hsh]
    rcases hsb : splitlinesKeep b with _ | ⟨b0, bs⟩
    · exact absurd hsb (sla_ne_nil b [] hbe)
    · rw [emitChunks_edFull_step]

theorem set_current_none (st : DecState) (h : st.current_event_data = none) :
    { st with current_event_data := none } = st := by
  obtain ⟨cnt, sl, buf, lc, cur, evs, clog, us⟩ := st
  simp only at h
  rw [h]

/-- `_emit_event` with no pending event data, on an arbitrary payload. -/
theorem emitEvent_none (st : DecState) (text : Str) (v : JVal)
    (hcur : st.current_event_data = none) :
    emitEvent st text v =
      match (if truthy v then v else .obj []) with
      | .obj d => .ok { flushAdv st text with
          current_event_data := if truthyOpt (dget d "uuid") then some d else none }
      | _ => .error .attributeError := by
  unfold emitEvent flushAdv
  rw [hcur]
  by_cases ht : text.isEmpty
  · have h0 : text = [] := by simpa using ht
    subst h0
    rfl
  · have h0 : (text.isEmpty : Bool) = false := by simpa using ht
    rw [h0]
    rfl

/-- `_emit_event` at `close()` while an event is pending: the whole buffer
is attached as the single stdout chunk of the pending event. -/
theorem emitEvent_some (st : DecState) (text : Str) (d0 : Dict)
    (hcur : st.current_event_data = some d0) :
    emitEvent st text .null =
      .ok { (emitChunks d0 st [text]).2 with current_event_data := none } := by
  unfold emitEvent
  rw [hcur]
  rfl

/-- The per-line flush loop equals one batched emission over the same
lines. -/
theorem flushLines_emit : ∀ (lines : List Str) (st : DecState),
    st.current_event_data = none →
    (∀ l ∈ lines, lineIsGood l) →
    flushLines st lines =
      .ok { (emitChunks vbDict st lines).2 with current_event_data := none }
  | [], st, hcur, _ => by
      show Except.ok st = _
      rw [show (emitChunks vbDict st []).2 = st from rfl, set_current_none st hcur]
  | l :: ls, st, hcur, hgood => by
      obtain ⟨hne, hsplit, _⟩ := hgood l (by simp)
      have hemit := emitEvent_none st l .null hcur
      have hemit2 : emitEvent st l .null =
          .ok { flushAdv st l with current_event_data := none } := by
        rw [hemit]
        rfl
      have hfa : flushAdv st l = (emitChunks vbDict st [l]).2 := by
        unfold flushAdv
        rw [hsplit]
        have h0 : (l.isEmpty : Bool) = false := by simpa using hne
        rw [h0]
        rfl
      show (match emitEvent st l JVal.null with
        | Except.error e => Except.error e
        | Except.ok st' => flushLines st' ls) = _
      rw [hemit2, hfa]
      have hc2 : (emitChunks vbDict st [l]).2.current_event_data = none := by
        rw [emitChunks_current]
        exact hcur
      rw [set_current_none _ hc2]
      show flushLines (emitChunks vbDict st [l]).2 ls = _
      rw [flushLines_emit ls _ hc2 (fun q hq => hgood q (by simp [hq]))]
      congr 1
      rcases ls with _ | ⟨l1, ls'⟩
      · rfl
      · have happ := emitChunks_append vbDict st [l] (l1 :: ls')
        simp only [List.singleton_append] at happ
        rw [happ]
        obtain ⟨u, c, sd, aa, bb, hsh⟩ := emitChunks_vb_shape [l] st (by simp)
        rw [hsh, emitChunks_edFull_step]

/-! ### C1: the `write` step lemmas -/

theorem break_char_cases {c : Char} (h : isLineBreak c = true) :
    c = '\n' ∨ c = '\r' ∨ c = Char.ofNat 0x0b ∨ c = Char.ofNat 0x0c ∨
    c = Char.ofNat 0x1c ∨ c = Char.ofNat 0x1d ∨ c = Char.ofNat 0x1e ∨
    c = Char.ofNat 0x85 ∨ c = Char.ofNat 0x2028 ∨ c = Char.ofNat 0x2029 := by
  simp only [isLineBreak, Bool.or_eq_true] at h
  rcases h with (((((((((h|h)|h)|h)|h)|h)|h)|h)|h)|h)
  · exact Or.inl (by simpa using h)
  · exact Or.inr (Or.inl (by simpa using h))
  all_goals {
    have h1 := beq_iff_eq.mp h
    have h2 := congrArg Char.ofNat h1
    rw [Char.ofNat_toNat] at h2
    simp [h2]
  }

theorem b64_not_break {c : Char} (h : isB64Class c = true) : isLineBreak c = false := by
  by_contra hb
  have hb' : isLineBreak c = true := by simpa using hb
  rcases break_char_cases hb' with h1|h1|h1|h1|h1|h1|h1|h1|h1|h1 <;>
    (subst h1; exact absurd h (by decide))

theorem digit_not_break {c : Char} (h : c.isDigit = true) : isLineBreak c = false := by
  by_contra hb
  have hb' : isLineBreak c = true := by simpa using hb
  rcases break_char_cases hb' with h1|h1|h1|h1|h1|h1|h1|h1|h1|h1 <;>
    (subst h1; exact absurd h (by decide))

/-- No character of a well-formed token is a line break. -/
theorem tok_no_break {pairs : List (Str × Str)} (hok : ∀ p ∈ pairs, pairOk p = true) :
    ∀ c ∈ tokOf pairs, isLineBreak c = false := by
  intro c hc
  simp only [tokOf, List.mem_append] at hc
  rcases hc with (hc | hc) | hc
  · simp only [evMarker, List.mem_cons, List.not_mem_nil, or_false] at hc
    rcases hc with h|h|h <;> (subst h; decide)
  · simp only [payloadOf] at hc
    rw [List.mem_join] at hc
    obtain ⟨l, hl, hcl⟩ := hc
    rw [List.mem_map] at hl
    obtain ⟨p, hp, hpl⟩ := hl
    have hpok := hok p hp
    simp only [pairOk, Bool.and_eq_true, Bool.not_eq_true', List.isEmpty_eq_false,
      List.all_eq_true] at hpok
    obtain ⟨⟨⟨_, hball⟩, _⟩, hdall⟩ := hpok
    rw [← hpl] at hcl
    simp only [pairText, List.mem_append, List.mem_cons] at hcl
    rcases hcl with hb | hb | hb | hb
    · exact b64_not_break (hball c hb)
    · subst hb; decide
    · subst hb; decide
    · rcases hb with hd | hd | hd
      · exact digit_not_break (hdall c hd)
      · subst hd; decide
      · simp at hd
  · simp only [evMarker, List.mem_cons, List.not_mem_nil, or_false] at hc
    rcases hc with h|h|h <;> (subst h; decide)

theorem bndOk_extend (fl rem ext : Str) (h : bndOk fl rem) :
    bndOk fl (rem ++ ext) := by
  rcases h with h | ⟨cl, h1, h2, h3⟩
  · exact Or.inl h
  · refine Or.inr ⟨cl, h1, h2, ?_⟩
    intro hcr
    obtain ⟨hd, tl, hrem, hne⟩ := h3 hcr
    exact ⟨hd, tl ++ ext, by rw [hrem]; simp, hne⟩

/-- The boundary lets batching split at the junction. -/
theorem bndOk_append_cond {fl rem : Str} (h : bndOk fl rem) (hfl : fl ≠ []) :
    ∃ cl, fl.getLast? = some cl ∧ isLineBreak cl = true ∧
      ¬(cl = '\r' ∧ rem.head? = some '\n') := by
  rcases h with h | ⟨cl, h1, h2, h3⟩
  · exact absurd h hfl
  · refine ⟨cl, h1, h2, ?_⟩
    rintro ⟨hcr, hh⟩
    obtain ⟨hd, tl, hrem, hne⟩ := h3 hcr
    rw [hrem] at hh
    simp only [List.head?_cons, Option.some.injEq] at hh
    exact hne hh

/-- A `write` that neither matches nor flushes just appends to the buffer
and records the chunk. -/
theorem OEFwrite_nochange (St : DecState) (data : Str)
    (hfm : findMatch (St.buffer ++ data) = none)
    (hnf : ¬(data ≠ [] ∧ data.contains '\n' = true ∧ St.current_event_data = none)) :
    OEFwrite St data = .ok { St with buffer := St.buffer ++ data, last_chunk := data } := by
  unfold OEFwrite
  simp only []
  by_cases hs : hasSub (St.last_chunk ++ data) evMarker = true
  · rw [if_pos hs]
    show searchLoop ((St.buffer ++ data).length + 1) _ = _
    simp only [searchLoop]
    rw [hfm]
  · rw [if_neg hs]
    have hcond : (!data.isEmpty && data.contains '\n' &&
        ({ St with buffer := St.buffer ++ data, last_chunk := data } :
          DecState).current_event_data.isNone) = false := by
      simp only [Bool.and_eq_false_iff]
      by_cases h1 : data = []
      · subst h1
        left; left
        simp
      · by_cases h2 : data.contains '\n' = true
        · by_cases h3 : St.current_event_data = none
          · exact absurd ⟨h1, h2, h3⟩ hnf
          · right
            show (Option.isNone St.current_event_data) = false
            rcases hc : St.current_event_data with _ | d
            · exact absurd hc h3
            · rfl
        · left; right
          simpa using h2
    rw [hcond]
    simp only [Bool.false_eq_true, if_false]

/-- Splitting the joined text of well-formed adjacent lines reproduces
exactly those lines. -/
theorem split_join_lines : ∀ (ls : List Str),
    (∀ l ∈ ls, lineIsGood l) →
    (∀ l ∈ ls.dropLast, ∃ c, l.getLast? = some c ∧ isLineBreak c = true) →
    List.Chain' adjOk ls →
    splitlinesKeep ls.join = ls
  | [], _, _, _ => rfl
  | [l], hg, _, _ => by
      have h1 : ([l] : List Str).join = l := by simp
      rw [h1]
      exact (hg l (by simp)).2.1
  | l₁ :: l₂ :: ls, hg, hc, hch => by
      have h1 : ((l₁ :: l₂ :: ls) : List Str).join = l₁ ++ ((l₂ :: ls) : List Str).join := by
        simp
      rw [h1]
      obtain ⟨c1, hc1, hc2⟩ := hc l₁ (by rw [List.dropLast_cons₂]; simp)
      have hl2ne : l₂ ≠ [] := (hg l₂ (by simp)).1
      have hadj : adjOk l₁ l₂ := (List.chain'_cons.mp hch).1
      have hhead : (((l₂ :: ls) : List Str).join).head? = l₂.head? := by
        rcases hshape : l₂ with _ | ⟨a, t⟩
        · exact absurd hshape hl2ne
        · simp
      have hnot : ¬(c1 = '\r' ∧ (((l₂ :: ls) : List Str).join).head? = some '\n') := by
        rintro ⟨hr, hh⟩
        rw [hhead] at hh
        subst hr
        exact hadj hc1 hh
      rw [splitlinesKeep_append l₁ _ ⟨c1, hc1, hc2, hnot⟩]
      rw [(hg l₁ (by simp)).2.1]
      rw [split_join_lines (l₂ :: ls) (fun l hl => hg l (by simp [hl]))
        (fun l hl => hc l (by rw [List.dropLast_cons₂]; simp; exact Or.inr (by simpa using hl)))
        (List.chain'_cons.mp hch).2]
      rfl

theorem completeOf_join (x : Str) :
    (completeOf x).join ++ remainderOf x = x := by
  unfold completeOf remainderOf
  rcases hl : (splitlinesKeep x).getLast? with _ | last
  · have hnil : splitlinesKeep x = [] := List.getLast?_eq_none_iff.mp hl
    have hx : x = [] := by
      rw [← splitlinesKeep_join x, hnil]
      rfl
    simp [hx, hnil]
  · have hne : splitlinesKeep x ≠ [] := by
      intro he; rw [he] at hl; simp at hl
    dsimp only
    by_cases hcn : last.contains '\n' = true
    · rw [hcn]
      simp only [Bool.not_true, Bool.false_eq_true, if_false]
      rw [List.append_nil]
      exact splitlinesKeep_join x
    · have hcn' : last.contains '\n' = false := by simpa using hcn
      rw [hcn']
      simp only [Bool.not_false, if_true]
      have hdecomp : splitlinesKeep x = (splitlinesKeep x).dropLast ++ [last] := by
        have h2 := List.dropLast_append_getLast hne
        have h3 : (splitlinesKeep x).getLast hne = last := by
          rw [List.getLast?_eq_getLast _ hne] at hl
          exact (by simpa using hl.symm : last = (splitlinesKeep x).getLast hne).symm
        rw [← h3]
        exact h2.symm
      have hjoin := splitlinesKeep_join x
      calc ((splitlinesKeep x).dropLast).join ++ last
          = (((splitlinesKeep x).dropLast) ++ [last]).join := by simp
        _ = (splitlinesKeep x).join := by rw [← hdecomp]
        _ = x := hjoin

theorem completeOf_good (x : Str) : ∀ l ∈ completeOf x, lineIsGood l := by
  intro l hl
  unfold completeOf at hl
  rcases hgl : (splitlinesKeep x).getLast? with _ | last <;> rw [hgl] at hl
  · simp at hl
  · dsimp only at hl
    by_cases hcn : last.contains '\n' = true <;>
      [rw [hcn] at hl; rw [(by simpa using hcn : last.contains '\n' = false)] at hl] <;>
      simp only [Bool.not_true, Bool.not_false, Bool.false_eq_true, if_false, if_true] at hl
    · exact splitlinesKeep_lines x l hl
    · exact splitlinesKeep_lines x l (List.dropLast_sublist _ |>.mem hl)

theorem completeOf_split (x : Str) :
    splitlinesKeep (completeOf x).join = completeOf x := by
  unfold completeOf
  rcases hgl : (splitlinesKeep x).getLast? with _ | last
  · rfl
  · have hne : splitlinesKeep x ≠ [] := by
      intro he; rw [he] at hgl; simp at hgl
    dsimp only
    by_cases hcn : last.contains '\n' = true
    · rw [hcn]
      simp only [Bool.not_true, Bool.false_eq_true, if_false]
      exact split_join_lines _ (splitlinesKeep_lines x) (sla_complete x []) (sla_chain x [])
    · rw [(by simpa using hcn : last.contains '\n' = false)]
      simp only [Bool.not_false, if_true]
      have hdecomp := List.dropLast_append_getLast hne
      refine split_join_lines _ (fun l hl => splitlinesKeep_lines x l
        (List.dropLast_sublist _ |>.mem hl)) (fun l hl => ?_) ?_
      · exact sla_complete x [] l (List.dropLast_sublist _ |>.mem hl)
      · have hch : List.Chain' adjOk (splitlinesKeep x) := sla_chain x []
        rw [← hdecomp] at hch
        exact (List.chain'_append.mp hch).1

theorem join_getLast?_eq (ls : List Str) (hne : ls ≠ []) (hl : ls.getLast hne ≠ []) :
    ls.join.getLast? = (ls.getLast hne).getLast? := by
  have hdecomp := List.dropLast_append_getLast hne
  conv_lhs => rw [← hdecomp]
  have h0 : ((ls.dropLast ++ [ls.getLast hne]) : List Str).join =
      ls.dropLast.join ++ ls.getLast hne := by simp
  rw [h0]
  exact List.getLast?_append_of_ne_nil _ hl

theorem completeOf_bnd (x : Str) :
    completeOf x = [] ∨
    ∃ c, ((completeOf x).join).getLast? = some c ∧ isLineBreak c = true ∧
      (c = '\r' → ∃ hd tl, remainderOf x = hd :: tl ∧ hd ≠ '\n') := by
  rcases hgl : (splitlinesKeep x).getLast? with _ | last
  · left
    unfold completeOf
    rw [hgl]
  · have hne : splitlinesKeep x ≠ [] := by
      intro he; rw [he] at hgl; simp at hgl
    have hlast : (splitlinesKeep x).getLast hne = last := by
      rw [List.getLast?_eq_getLast _ hne] at hgl
      exact (by simpa using hgl.symm : last = (splitlinesKeep x).getLast hne).symm
    by_cases hcn : last.contains '\n' = true
    · right
      have hcomp : completeOf x = splitlinesKeep x := by
        unfold completeOf
        rw [hgl]
        dsimp only
        rw [hcn]
        simp
      have hlg := splitlinesKeep_lines x last (by rw [← hlast]; exact List.getLast_mem hne)
      have hnl : last.getLast? = some '\n' := hlg.2.2 (List.mem_of_elem_eq_true hcn)
      refine ⟨'\n', ?_, by decide, by intro h; exact absurd h (by decide)⟩
      rw [hcomp, join_getLast?_eq _ hne (by rw [hlast]; exact hlg.1), hlast]
      exact hnl
    · have hcomp : completeOf x = (splitlinesKeep x).dropLast := by
        unfold completeOf
        rw [hgl]
        dsimp only
        rw [(by simpa using hcn : last.contains '\n' = false)]
        simp
      have hrem : remainderOf x = last := by
        unfold remainderOf
        rw [hgl]
        dsimp only
        rw [(by simpa using hcn : last.contains '\n' = false)]
        simp
      rcases hdl : (splitlinesKeep x).dropLast with _ | ⟨d0, ds⟩
      · left
        rw [hcomp, hdl]
      · right
        have hdlne : (splitlinesKeep x).dropLast ≠ [] := by rw [hdl]; simp
        have hmem : (splitlinesKeep x).dropLast.getLast hdlne ∈ (splitlinesKeep x).dropLast :=
          List.getLast_mem hdlne
        obtain ⟨cc, hcc1, hcc2⟩ := sla_complete x [] _ hmem
        have hstarg : lineIsGood ((splitlinesKeep x).dropLast.getLast hdlne) :=
          splitlinesKeep_lines x _ (List.dropLast_sublist _ |>.mem hmem)
        have hlastg : lineIsGood last := by
          rw [← hlast]
          exact splitlinesKeep_lines x _ (List.getLast_mem hne)
        refine ⟨cc, ?_, hcc2, ?_⟩
        · rw [hcomp, join_getLast?_eq _ hdlne hstarg.1]
          exact hcc1
        · intro hcr
          rcases hlshape : last with _ | ⟨h0, t0⟩
          · exact absurd hlshape hlastg.1
          · refine ⟨h0, t0, by rw [hrem, hlshape], ?_⟩
            have hdecomp := List.dropLast_append_getLast hne
            have hch : List.Chain' adjOk (splitlinesKeep x) := sla_chain x []
            rw [← hdecomp] at hch
            have hadj := (List.chain'_append.mp hch).2.2
            have hx1 : (splitlinesKeep x).dropLast.getLast hdlne ∈
                ((splitlinesKeep x).dropLast).getLast? := by
              rw [List.getLast?_eq_getLast _ hdlne]
              rfl
            have hy1 : (splitlinesKeep x).getLast hne ∈
                ([(splitlinesKeep x).getLast hne] : List Str).head? := rfl
            have hy := hadj _ hx1 _ hy1
            rw [hlast, hlshape] at hy
            have := hy (by rw [hcc1, hcr])
            simp only [List.head?_cons, ne_eq, Option.some.injEq] at this
            exact this

theorem eraseBL_setB (st : DecState) (B : Str) :
    eraseBL { st with buffer := B } = eraseBL st := rfl

theorem eraseBL_setBL (st : DecState) (B L : Str) :
    eraseBL { st with buffer := B, last_chunk := L } = eraseBL st := rfl

theorem OEFwrite_search_nomatch (St : DecState) (data : Str)
    (hs : hasSub (St.last_chunk ++ data) evMarker = true)
    (hfm : findMatch (St.buffer ++ data) = none) :
    OEFwrite St data = .ok { St with buffer := St.buffer ++ data, last_chunk := data } := by
  unfold OEFwrite
  simp only []
  rw [if_pos hs]
  show searchLoop ((St.buffer ++ data).length + 1) _ = _
  simp only [searchLoop]
  rw [hfm]

theorem OEFwrite_flush_eq (St : DecState) (data : Str)
    (hs : hasSub (St.last_chunk ++ data) evMarker = false)
    (hne : data ≠ []) (hnl : data.contains '\n' = true)
    (hcur : St.current_event_data = none) :
    OEFwrite St data =
      match flushLines { St with buffer := St.buffer ++ data, last_chunk := data }
          (completeOf (St.buffer ++ data)) with
      | .error e => .error e
      | .ok st' => .ok { st' with buffer := remainderOf (St.buffer ++ data) } := by
  unfold OEFwrite
  simp only []
  rw [if_neg (by rw [hs]; simp)]
  have h1 : (data.isEmpty : Bool) = false := by simpa using hne
  have h2 : (({ St with buffer := St.buffer ++ data, last_chunk := data } :
      DecState).current_event_data).isNone = true := by
    show St.current_event_data.isNone = true
    rw [hcur]
    rfl
  rw [h1, hnl, h2]
  rfl

/-- One `write` during a phase with no pending event and no match in the
buffer: the state stays a batched-flush state, with the flushed prefix
growing only by whole completed lines. -/
theorem OEFwrite_step_none (S St : DecState) (fl rem data : Str)
    (hS : S.current_event_data = none)
    (hE : eraseBL St = eraseBL (flushAdv S fl))
    (hB : St.buffer = rem)
    (hfm : findMatch (rem ++ data) = none)
    (hbnd : bndOk fl rem) :
    ∃ ext rem2 St2,
      OEFwrite St data = .ok St2 ∧
      ext ++ rem2 = rem ++ data ∧
      (ext = [] ∨ ∃ c, (fl ++ ext).getLast? = some c ∧ isLineBreak c = true) ∧
      eraseBL St2 = eraseBL (flushAdv S (fl ++ ext)) ∧
      St2.buffer = rem2 ∧
      St2.last_chunk = data ∧
      bndOk (fl ++ ext) rem2 := by
  have hcur : St.current_event_data = none := by
    have h1 : (eraseBL St).current_event_data =
        (eraseBL (flushAdv S fl)).current_event_data := by rw [hE]
    simpa [eraseBL, flushAdv_current, hS] using h1
  have hfm' : findMatch (St.buffer ++ data) = none := by rw [hB]; exact hfm
  by_cases hs : hasSub (St.last_chunk ++ data) evMarker = true
  · refine ⟨[], rem ++ data, _, OEFwrite_search_nomatch St data hs hfm', by simp, Or.inl rfl,
      ?_, by rw [hB], rfl, by rw [List.append_nil]; exact bndOk_extend _ _ _ hbnd⟩
    rw [List.append_nil, eraseBL_setBL]
    exact hE
  · have hs' : hasSub (St.last_chunk ++ data) evMarker = false := by simpa using hs
    by_cases hfl : data ≠ [] ∧ data.contains '\n' = true
    · -- flush path
      obtain ⟨hdne, hdnl⟩ := hfl
      set x := rem ++ data with hx
      have hflush := OEFwrite_flush_eq St data hs' hdne hdnl hcur
      rw [hB] at hflush
      set st₁ : DecState := { St with buffer := x, last_chunk := data } with hst₁
      have hst₁cur : st₁.current_event_data = none := hcur
      have hfle := flushLines_emit (completeOf x) st₁ hst₁cur (completeOf_good x)
      have hecur : (emitChunks vbDict st₁ (completeOf x)).2.current_event_data = none := by
        rw [emitChunks_current]
        exact hst₁cur
      rw [set_current_none _ hecur] at hfle
      rw [hfle] at hflush
      have hE1 : eraseBL st₁ = eraseBL (flushAdv S fl) := by
        rw [show eraseBL st₁ = eraseBL St from rfl]
        exact hE
      refine ⟨(completeOf x).join, remainderOf x,
        { (emitChunks vbDict st₁ (completeOf x)).2 with buffer := remainderOf x },
        hflush, completeOf_join x, ?_, ?_, rfl, ?_, ?_⟩
      · -- break structure of the grown prefix
        rcases completeOf_bnd x with hc | ⟨c, hc1, hc2, _⟩
        · left; rw [hc]; rfl
        · right
          refine ⟨c, ?_, hc2⟩
          rw [List.getLast?_append_of_ne_nil _ (by
            intro he
            rw [he] at hc1
            simp at hc1)]
          exact hc1
      · -- the new state is the batched advance by the grown prefix
        rw [eraseBL_setB]
        by_cases hco : completeOf x = []
        · rw [hco]
          show eraseBL st₁ = eraseBL (flushAdv S (fl ++ ([] : List Str).join))
          rw [show (([] : List Str).join : Str) = [] from rfl, List.append_nil]
          rw [hE1]
        · have hjne : ((completeOf x).join : Str) ≠ [] := by
            intro he
            rcases hcs : completeOf x with _ | ⟨c0, cs⟩
            · exact hco hcs
            · have hg := completeOf_good x c0 (by rw [hcs]; simp)
              rw [hcs] at he
              have : c0 ++ cs.join = [] := by simpa using he
              rcases List.append_eq_nil.mp this with ⟨h1, _⟩
              exact hg.1 h1
          have hsplit2 : flushAdv S (fl ++ (completeOf x).join) =
              flushAdv (flushAdv S fl) (completeOf x).join := by
            rcases hbnd with hfl0 | hh
            · rw [hfl0, List.nil_append, flushAdv_nil]
            · apply flushAdv_append
              obtain ⟨cl, hcl1, hcl2, hcl3⟩ := hh
              refine ⟨cl, hcl1, hcl2, ?_⟩
              rintro ⟨hclr, hhead⟩
              obtain ⟨hd, tl, hrem2, hhd⟩ := hcl3 hclr
              have hxh : (completeOf x).join.head? = some hd := by
                have hcj := completeOf_join x
                have hxhd : x.head? = some hd := by
                  rw [hx, hrem2]
                  rfl
                rw [← hcj] at hxhd
                obtain ⟨j0, js, hjs⟩ := List.exists_cons_of_ne_nil hjne
                rw [hjs] at hxhd ⊢
                simpa using hxhd
              rw [hxh] at hhead
              simp only [Option.some.injEq] at hhead
              exact hhd hhead
          rw [hsplit2]
          have hfa2 : flushAdv (flushAdv S fl) (completeOf x).join =
              (emitChunks vbDict (flushAdv S fl) (completeOf x)).2 := by
            unfold flushAdv
            rw [completeOf_split x]
            rw [List.isEmpty_eq_false.mpr hjne]
            rfl
          rw [hfa2]
          exact (emitChunks_congrBL (completeOf x) vbDict st₁ (flushAdv S fl) hE1).2
      · show (emitChunks vbDict st₁ (completeOf x)).2.last_chunk = data
        rw [emitChunks_last_chunk]
      · -- boundary of the new junction
        rcases completeOf_bnd x with hc | ⟨c, hc1, hc2, hc3⟩
        · rw [hc]
          show bndOk (fl ++ ([] : List Str).join) (remainderOf x)
          rw [show (([] : List Str).join : Str) = [] from rfl, List.append_nil]
          have hrem : remainderOf x = x := by
            have hcj := completeOf_join x
            rw [hc] at hcj
            simpa using hcj
          rw [hrem, hx]
          exact bndOk_extend _ _ _ hbnd
        · right
          refine ⟨c, ?_, hc2, hc3⟩
          rw [List.getLast?_append_of_ne_nil _ (by
            intro he
            rw [he] at hc1
            simp at hc1)]
          exact hc1
    · -- no flush, no search
      have hnf : ¬(data ≠ [] ∧ data.contains '\n' = true ∧
          St.current_event_data = none) := by
        intro h
        exact hfl ⟨h.1, h.2.1⟩
      refine ⟨[], rem ++ data, _, OEFwrite_nochange St data hfm' hnf, by simp, Or.inl rfl,
        ?_, by rw [hB], rfl, by rw [List.append_nil]; exact bndOk_extend _ _ _ hbnd⟩
      rw [List.append_nil, eraseBL_setBL]
      exact hE

/-- Running `write` over chunks during a no-pending no-match phase keeps the
state a batched-flush state. -/
theorem runWrites_none : ∀ (chunks : List Str) (S St : DecState) (fl rem : Str),
    S.current_event_data = none →
    eraseBL St = eraseBL (flushAdv S fl) →
    St.buffer = rem →
    bndOk fl rem →
    (∀ (fl2 rem2 : Str) (pref : List Str) (c : Str) (suff : List Str),
      chunks = pref ++ c :: suff →
      fl2 ++ rem2 = fl ++ rem ++ pref.join →
      (∃ e, fl2 = fl ++ e) →
      (fl2 = fl ∨ ∃ cc, fl2.getLast? = some cc ∧ isLineBreak cc = true) →
      findMatch (rem2 ++ c) = none) →
    ∃ fl2 rem2 St2,
      runWrites St chunks = .ok St2 ∧
      fl2 ++ rem2 = fl ++ rem ++ chunks.join ∧
      (∃ e, fl2 = fl ++ e) ∧
      (fl2 = fl ∨ ∃ cc, fl2.getLast? = some cc ∧ isLineBreak cc = true) ∧
      eraseBL St2 = eraseBL (flushAdv S fl2) ∧
      St2.buffer = rem2 ∧
      St2.last_chunk = chunks.getLastD St.last_chunk ∧
      bndOk fl2 rem2
  | [], S, St, fl, rem, _, hE, hB, hbnd, _ =>
      ⟨fl, rem, St, rfl, by simp, ⟨[], by simp⟩, Or.inl rfl, hE, hB, rfl, hbnd⟩
  | c :: rest, S, St, fl, rem, hS, hE, hB, hbnd, hclean => by
      have hfm0 : findMatch (rem ++ c) = none :=
        hclean fl rem [] c rest rfl (by simp) ⟨[], by simp⟩ (Or.inl rfl)
      obtain ⟨ext, rem2, St2, hw, hsum, hbrk, hE2, hB2, hLC2, hbnd2⟩ :=
        OEFwrite_step_none S St fl rem c hS hE hB hfm0 hbnd
      have hclean' : ∀ (fl2 rem2v : Str) (pref : List Str) (cc : Str) (suff : List Str),
          rest = pref ++ cc :: suff →
          fl2 ++ rem2v = (fl ++ ext) ++ rem2 ++ pref.join →
          (∃ e, fl2 = (fl ++ ext) ++ e) →
          (fl2 = fl ++ ext ∨ ∃ c2, fl2.getLast? = some c2 ∧ isLineBreak c2 = true) →
          findMatch (rem2v ++ cc) = none := by
        intro fl2 rem2v pref cc suff hrest hsum2 hgrow2 hbrk2
        refine hclean fl2 rem2v (c :: pref) cc suff (by rw [hrest]; rfl) ?_ ?_ ?_
        · rw [hsum2]
          have h1 : ((c :: pref : List Str)).join = c ++ pref.join := by simp
          rw [h1]
          calc (fl ++ ext) ++ rem2 ++ pref.join
              = fl ++ (ext ++ rem2) ++ pref.join := by simp
            _ = fl ++ (rem ++ c) ++ pref.join := by rw [hsum]
            _ = fl ++ rem ++ (c ++ pref.join) := by simp
        · obtain ⟨e, he⟩ := hgrow2
          exact ⟨ext ++ e, by rw [he]; simp⟩
        · rcases hbrk2 with h | h
          · rcases hbrk with hext | hext
            · left; rw [h, hext, List.append_nil]
            · right; rw [h]; exact hext
          · right; exact h
      obtain ⟨fl3, rem3, St3, hrun, hsum3, hgrow3, hbrk3, hE3, hB3, hLC3, hbnd3⟩ :=
        runWrites_none rest S St2 (fl ++ ext) rem2 hS hE2 hB2 hbnd2 hclean'
      refine ⟨fl3, rem3, St3, ?_, ?_, ?_, ?_, hE3, hB3, ?_, hbnd3⟩
      · show (match OEFwrite St c with
          | Except.error e => Except.error e
          | Except.ok st' => runWrites st' rest) = Except.ok St3
        rw [hw]
        exact hrun
      · rw [hsum3]
        have h1 : ((c :: rest : List Str)).join = c ++ rest.join := by simp
        rw [h1]
        calc (fl ++ ext) ++ rem2 ++ rest.join
            = fl ++ (ext ++ rem2) ++ rest.join := by simp
          _ = fl ++ (rem ++ c) ++ rest.join := by rw [hsum]
          _ = fl ++ rem ++ (c ++ rest.join) := by simp
      · obtain ⟨e, he⟩ := hgrow3
        exact ⟨ext ++ e, by rw [he]; simp⟩
      · rcases hbrk3 with h | h
        · rcases hbrk with hext | hext
          · left; rw [h, hext, List.append_nil]
          · right; rw [h]; exact hext
        · right; exact h
      · rw [hLC3, hLC2]
        rw [List.getLastD_cons]

/-- Running `write` over chunks while an event is pending (or nothing can
flush): pure buffering. -/
theorem runWrites_pending : ∀ (chunks : List Str) (St : DecState),
    St.current_event_data.isNone = false →
    (∀ (pref : List Str) (c : Str) (suff : List Str), chunks = pref ++ c :: suff →
      findMatch (St.buffer ++ (pref.join ++ c)) = none) →
    runWrites St chunks = .ok { St with
      buffer := St.buffer ++ chunks.join,
      last_chunk := chunks.getLastD St.last_chunk }
  | [], St, _, _ => by
      obtain ⟨cnt, sl, buf, lc, cur, evs, clog, us⟩ := St
      simp [runWrites]
  | c :: rest, St, hcur, hclean => by
      have hfm : findMatch (St.buffer ++ c) = none := by
        have := hclean [] c rest rfl
        simpa using this
      have hnf : ¬(c ≠ [] ∧ c.contains '\n' = true ∧ St.current_event_data = none) := by
        rintro ⟨_, _, h3⟩
        rw [h3] at hcur
        exact absurd hcur (by simp)
      have hw := OEFwrite_nochange St c hfm hnf
      have hcur2 : ({ St with buffer := St.buffer ++ c, last_chunk := c } :
          DecState).current_event_data.isNone = false := hcur
      have hclean2 : ∀ (pref : List Str) (cc : Str) (suff : List Str),
          rest = pref ++ cc :: suff →
          findMatch (({ St with buffer := St.buffer ++ c, last_chunk := c } :
            DecState).buffer ++ (pref.join ++ cc)) = none := by
        intro pref cc suff hrest
        have := hclean (c :: pref) cc suff (by rw [hrest]; rfl)
        show findMatch ((St.buffer ++ c) ++ (pref.join ++ cc)) = none
        have h1 : ((c :: pref : List Str)).join ++ cc = c ++ (pref.join ++ cc) := by simp
        rw [h1] at this
        simpa using this
      have hrec := runWrites_pending rest
        { St with buffer := St.buffer ++ c, last_chunk := c } hcur2 hclean2
      show (match OEFwrite St c with
        | Except.error e => Except.error e
        | Except.ok st' => runWrites st' rest) = _
      rw [hw]
      show runWrites { St with buffer := St.buffer ++ c, last_chunk := c } rest = _
      rw [hrec]
      have h2 : ((St.buffer ++ c) ++ rest.join : Str) =
          St.buffer ++ ((c :: rest : List Str)).join := by simp
      rw [h2, List.getLastD_cons]

theorem eraseBL_set_current (st : DecState) (c : Option Dict) :
    eraseBL { st with current_event_data := c } =
      { eraseBL st with current_event_data := c } := rfl

theorem eraseBL_current (st : DecState) :
    (eraseBL st).current_event_data = st.current_event_data := rfl

theorem eraseBL_events (st : DecState) :
    (eraseBL st).events = st.events := rfl

theorem eraseBL_with_current_congr {A₁ A₂ : DecState} (h : eraseBL A₁ = eraseBL A₂)
    (c : Option Dict) :
    eraseBL { A₁ with current_event_data := c } =
      eraseBL { A₂ with current_event_data := c } := by
  obtain ⟨a1, a2, a3, a4, a5, a6, a7, a8⟩ := A₁
  obtain ⟨b1, b2, b3, b4, b5, b6, b7, b8⟩ := A₂
  simp only [eraseBL, DecState.mk.injEq] at h ⊢
  obtain ⟨h1, h2, -, -, h7, h8, h9, h10⟩ := h
  subst h1; subst h2; subst h7; subst h8; subst h9; subst h10
  simp

/-- `_emit_event` only reads the state through its non-buffer fields. -/
theorem emitEvent_congr (st₁ st₂ : DecState) (t : Str) (v : JVal)
    (hE : eraseBL st₁ = eraseBL st₂) :
    (emitEvent st₁ t v).map eraseBL = (emitEvent st₂ t v).map eraseBL := by
  have hc : st₁.current_event_data = st₂.current_event_data := by
    rw [← eraseBL_current, hE, eraseBL_current]
  unfold emitEvent
  rw [hc]
  rcases hcc : st₂.current_event_data with _ | d0
  · have hec := emitChunks_congrBL
      (if !t.isEmpty then splitlinesKeep t else [])
      (if !t.isEmpty then [("event", JVal.str "verbose")] else []) st₁ st₂ hE
    cases hv : (if truthy v then v else JVal.obj []) with
    | obj d =>
        show Except.map eraseBL (Except.ok _) = Except.map eraseBL (Except.ok _)
        simp only [Except.map]
        congr 1
        exact eraseBL_with_current_congr hec.2 _
    | null => rfl
    | bool b => rfl
    | int n => rfl
    | numRaw s => rfl
    | str s => rfl
    | arr l => rfl
  · have hec := emitChunks_congrBL [t] d0 st₁ st₂ hE
    cases hv : (if truthy v then v else JVal.obj []) with
    | obj d =>
        show Except.map eraseBL (Except.ok _) = Except.map eraseBL (Except.ok _)
        simp only [Except.map]
        congr 1
        exact eraseBL_with_current_congr hec.2 _
    | null => rfl
    | bool b => rfl
    | int n => rfl
    | numRaw s => rfl
    | str s => rfl
    | arr l => rfl

/-- `close()` depends only on the buffer and the non-buffer fields. -/
theorem OEFclose_events_congr (st₁ st₂ : DecState)
    (hE : eraseBL st₁ = eraseBL st₂) (hB : st₁.buffer = st₂.buffer) :
    (OEFclose st₁).map DecState.events = (OEFclose st₂).map DecState.events := by
  have hev : st₁.events = st₂.events := by
    rw [← eraseBL_events, hE, eraseBL_events]
  unfold OEFclose
  rw [hB]
  by_cases hbe : st₂.buffer.isEmpty = true
  · rw [(by simpa using hbe : (st₂.buffer.isEmpty : Bool) = true)]
    simp only [Bool.not_true, Bool.false_eq_true, if_false]
    show Except.map _ (Except.ok _) = Except.map _ (Except.ok _)
    simp only [Except.map]
    rw [hev]
  · rw [(by simpa using hbe : (st₂.buffer.isEmpty : Bool) = false)]
    simp only [Bool.not_false, if_true]
    have hcongr := emitEvent_congr st₁ st₂ st₂.buffer JVal.null hE
    rcases he2 : emitEvent st₂ st₂.buffer JVal.null with e | s2 <;>
      rcases he1 : emitEvent st₁ st₂.buffer JVal.null with e1 | s1 <;>
      rw [he1, he2] at hcongr <;> simp only [Except.map] at hcongr
    · have : e1 = e := by
        injection hcongr
      rw [this]
    · exact absurd hcongr (by simp)
    · exact absurd hcongr (by simp)
    · have hs : eraseBL s1 = eraseBL s2 := by
        injection hcongr
      have hsev : s1.events = s2.events := by
        rw [← eraseBL_events, hs, eraseBL_events]
      show Except.map _ (Except.ok _) = Except.map _ (Except.ok _)
      simp only [Except.map]
      show Except.ok (s1.events ++ _) = Except.ok (s2.events ++ _)
      rw [hsev]

/-- `close()` from a batched-flush state: the delivered events are the batch
over everything unflushed, then the EOF marker. -/
theorem OEFclose_flush_events (S St : DecState) (fl rem : Str)
    (hS : S.current_event_data = none)
    (hE : eraseBL St = eraseBL (flushAdv S fl))
    (hB : St.buffer = rem)
    (hbnd : bndOk fl rem) :
    (OEFclose St).map DecState.events =
      .ok ((flushAdv S (fl ++ rem)).events ++ [[("event", JVal.str "EOF")]]) := by
  have hcur : St.current_event_data = none := by
    have h1 : (eraseBL St).current_event_data =
        (eraseBL (flushAdv S fl)).current_event_data := by rw [hE]
    simpa [eraseBL, flushAdv_current, hS] using h1
  have hev : St.events = (flushAdv S fl).events := by
    rw [← eraseBL_events, hE, eraseBL_events]
  unfold OEFclose
  by_cases hre : rem = []
  · subst hre
    rw [hB]
    simp only [List.isEmpty_nil, Bool.not_true, Bool.false_eq_true, if_false]
    show Except.map _ (Except.ok _) = _
    simp only [Except.map]
    rw [hev, List.append_nil]
  · rw [hB, List.isEmpty_eq_false.mpr hre]
    simp only [Bool.not_false, if_true]
    have hfr : (flushAdv St rem).events = (flushAdv S (fl ++ rem)).events := by
      have hsplit : flushAdv S (fl ++ rem) = flushAdv (flushAdv S fl) rem := by
        rcases hbnd with hfl0 | hh
        · rw [hfl0, List.nil_append, flushAdv_nil]
        · exact flushAdv_append _ _ _ (bndOk_append_cond (Or.inr hh) (by
            obtain ⟨cl, hcl, _, _⟩ := hh
            exact getLast?_ne_nil hcl))
      rw [hsplit]
      have hco := flushAdv_congrBL St (flushAdv S fl) rem hE
      rw [← eraseBL_events, hco, eraseBL_events]
    have hemit2 : emitEvent St rem JVal.null =
        .ok { flushAdv St rem with current_event_data := none } := by
      rw [emitEvent_none St rem JVal.null hcur]
      rfl
    rw [hemit2]
    show Except.map _ (Except.ok _) = _
    simp only [Except.map]
    show Except.ok ((flushAdv St rem).events ++ _) = _
    rw [hfr]

theorem searchLoop_done : ∀ (n : Nat) (st : DecState),
    findMatch st.buffer = none → searchLoop n st = .ok st
  | 0, _, _ => rfl
  | n + 1, st, h => by
      simp only [searchLoop]
      rw [h]

/-- The `write` that completes the token, when the decoded payload behaves
as a mapping (or is falsy): one event is emitted for the preceding text and
the buffer is truncated to the tail. -/
theorem OEFwrite_match_ok (S St : DecState) (fl rem b preRem postPart : Str)
    (p0 : Str × Str) (ps : List (Str × Str)) (d : Dict)
    (hok : ∀ q ∈ p0 :: ps, pairOk q = true)
    (hS : S.current_event_data = none)
    (hE : eraseBL St = eraseBL (flushAdv S fl))
    (hB : St.buffer = rem)
    (hwin : hasSub (St.last_chunk ++ b) evMarker = true)
    (hdecomp : rem ++ b = preRem ++ (tokOf (p0 :: ps) ++ postPart))
    (hpreclean : ¬ occursIn evMarker preRem)
    (hpostclean : ¬ occursIn evMarker postPart)
    (hbnd : bndOk fl rem)
    (hheads : rem ≠ [] → preRem ≠ [] → rem.head? = preRem.head?)
    (hW : (if truthy (decodePayload (payloadOf (p0 :: ps)))
        then decodePayload (payloadOf (p0 :: ps)) else JVal.obj []) = JVal.obj d) :
    ∃ St2, OEFwrite St b = .ok St2 ∧
      eraseBL St2 = eraseBL { flushAdv S (fl ++ preRem) with
        current_event_data := if truthyOpt (dget d "uuid") then some d else none } ∧
      St2.buffer = postPart ∧ St2.last_chunk = postPart := by
  have hcur : St.current_event_data = none := by
    have h1 : (eraseBL St).current_event_data =
        (eraseBL (flushAdv S fl)).current_event_data := by rw [hE]
    simpa [eraseBL, flushAdv_current, hS] using h1
  have hfm : findMatch (rem ++ b) =
      some (preRem, payloadOf (p0 :: ps), postPart) := by
    rw [hdecomp]
    have hsh : tokOf (p0 :: ps) ++ postPart =
        evMarker ++ (payloadOf (p0 :: ps) ++ (evMarker ++ postPart)) := by
      simp [tokOf]
    rw [hsh]
    exact findMatch_ready ps p0 postPart hok preRem hpreclean
  have hstep : OEFwrite St b = .ok { ({ flushAdv
        { St with buffer := rem ++ b, last_chunk := b } preRem with
        current_event_data := if truthyOpt (dget d "uuid") then some d else none } :
        DecState) with buffer := postPart, last_chunk := postPart } := by
    unfold OEFwrite
    simp only []
    rw [hB, if_pos hwin]
    show searchLoop ((rem ++ b).length + 1)
      { St with buffer := rem ++ b, last_chunk := b } = _
    simp only [searchLoop]
    rw [hfm]
    show (match emitEvent { St with buffer := rem ++ b, last_chunk := b } preRem
        (decodePayload (payloadOf (p0 :: ps))) with
      | Except.error e => Except.error e
      | Except.ok st' => searchLoop (rem ++ b).length
          { st' with buffer := postPart, last_chunk := postPart }) = _
    rw [emitEvent_none _ preRem _
      (show ({ St with buffer := rem ++ b, last_chunk := b } : DecState).current_event_data
        = none from hcur), hW]
    show searchLoop _ _ = _
    exact searchLoop_done _ _ (findMatch_none_of_clean hpostclean)
  refine ⟨_, hstep, ?_, rfl, rfl⟩
  rw [eraseBL_setBL]
  apply eraseBL_with_current_congr
  have hsplit : flushAdv S (fl ++ preRem) = flushAdv (flushAdv S fl) preRem := by
    rcases hbnd with hfl0 | hh
    · rw [hfl0, List.nil_append, flushAdv_nil]
    · apply flushAdv_append
      obtain ⟨cl, h1, h2, h3⟩ := hh
      refine ⟨cl, h1, h2, ?_⟩
      rintro ⟨hr, hph⟩
      obtain ⟨hd, tl, hrem, hhd⟩ := h3 hr
      have hpne : preRem ≠ [] := by
        intro he
        rw [he] at hph
        simp at hph
      have hrne : rem ≠ [] := by rw [hrem]; simp
      have hh2 := hheads hrne hpne
      rw [hrem, hph] at hh2
      simp only [List.head?_cons, Option.some.injEq] at hh2
      exact hhd hh2
  rw [hsplit]
  exact flushAdv_congrBL _ _ preRem hE

/-- The `write` that completes the token, when the decoded payload is a
truthy non-mapping: `next_event_data.get` raises `AttributeError`. -/
theorem OEFwrite_match_err (S St : DecState) (fl rem b preRem postPart : Str)
    (p0 : Str × Str) (ps : List (Str × Str))
    (hok : ∀ q ∈ p0 :: ps, pairOk q = true)
    (hS : S.current_event_data = none)
    (hE : eraseBL St = eraseBL (flushAdv S fl))
    (hB : St.buffer = rem)
    (hwin : hasSub (St.last_chunk ++ b) evMarker = true)
    (hdecomp : rem ++ b = preRem ++ (tokOf (p0 :: ps) ++ postPart))
    (hpreclean : ¬ occursIn evMarker preRem)
    (hW : ∀ dd : Dict, (if truthy (decodePayload (payloadOf (p0 :: ps)))
        then decodePayload (payloadOf (p0 :: ps)) else JVal.obj []) ≠ JVal.obj dd) :
    OEFwrite St b = .error .attributeError := by
  have hcur : St.current_event_data = none := by
    have h1 : (eraseBL St).current_event_data =
        (eraseBL (flushAdv S fl)).current_event_data := by rw [hE]
    simpa [eraseBL, flushAdv_current, hS] using h1
  have hfm : findMatch (rem ++ b) =
      some (preRem, payloadOf (p0 :: ps), postPart) := by
    rw [hdecomp]
    have hsh : tokOf (p0 :: ps) ++ postPart =
        evMarker ++ (payloadOf (p0 :: ps) ++ (evMarker ++ postPart)) := by
      simp [tokOf]
    rw [hsh]
    exact findMatch_ready ps p0 postPart hok preRem hpreclean
  unfold OEFwrite
  simp only []
  rw [hB, if_pos hwin]
  show searchLoop ((rem ++ b).length + 1)
    { St with buffer := rem ++ b, last_chunk := b } = _
  simp only [searchLoop]
  rw [hfm]
  show (match emitEvent { St with buffer := rem ++ b, last_chunk := b } preRem
      (decodePayload (payloadOf (p0 :: ps))) with
    | Except.error e => Except.error e
    | Except.ok st' => searchLoop (rem ++ b).length
        { st' with buffer := postPart, last_chunk := postPart }) = _
  rw [emitEvent_none _ preRem _
    (show ({ St with buffer := rem ++ b, last_chunk := b } : DecState).current_event_data
      = none from hcur)]
  rcases hw : (if truthy (decodePayload (payloadOf (p0 :: ps)))
      then decodePayload (payloadOf (p0 :: ps)) else JVal.obj []) with
    _ | bb | nn | rr | ss | ll | dd
  · rfl
  · rfl
  · rfl
  · rfl
  · rfl
  · rfl
  · exact absurd hw (hW dd)

theorem runWrites_append : ∀ (l₁ l₂ : List Str) (st : DecState),
    runWrites st (l₁ ++ l₂) =
      match runWrites st l₁ with
      | .error e => .error e
      | .ok st' => runWrites st' l₂
  | [], l₂, st => rfl
  | c :: rest, l₂, st => by
      simp only [List.cons_append, runWrites]
      rcases hw : OEFwrite st c with e | st'
      · rfl
      · exact runWrites_append rest l₂ st'

theorem head?_append_left {a : Str} (b : Str) (h : a ≠ []) :
    (a ++ b).head? = a.head? := by
  rcases a with _ | ⟨a0, t⟩
  · exact absurd rfl h
  · rfl

/-- A flushed prefix ending in a line break cannot reach into the token. -/
theorem break_prefix_le {pre tok rest fl1 : Str}
    (hpr : ∃ t, fl1 ++ t = pre ++ (tok ++ rest))
    (hlen : fl1.length ≤ pre.length + tok.length)
    (hbrk : ∃ c, fl1.getLast? = some c ∧ isLineBreak c = true)
    (htok : ∀ c ∈ tok, isLineBreak c = false) :
    fl1.length ≤ pre.length := by
  by_contra hgt
  have hgt' : pre.length < fl1.length := by omega
  obtain ⟨t, ht⟩ := hpr
  have hpfx : pre <+: fl1 :=
    List.prefix_of_prefix_length_le ⟨tok ++ rest, rfl⟩ ⟨t, ht⟩ (by omega)
  obtain ⟨u, hu⟩ := hpfx
  have hune : u ≠ [] := by
    intro he
    rw [he, List.append_nil] at hu
    rw [← hu] at hgt'
    omega
  have hut : u ++ t = tok ++ rest := by
    have : pre ++ (u ++ t) = pre ++ (tok ++ rest) := by
      rw [← List.append_assoc, hu, ht]
    exact List.append_cancel_left this
  have hul : u.length ≤ tok.length := by
    have := congrArg List.length hu
    simp only [List.length_append] at this
    omega
  have hupfx : u <+: tok :=
    List.prefix_of_prefix_length_le ⟨t, hut⟩ ⟨rest, rfl⟩ hul
  obtain ⟨c, hc1, hc2⟩ := hbrk
  have hcl : u.getLast? = some c := by
    rw [← hu] at hc1
    rwa [List.getLast?_append_of_ne_nil _ hune] at hc1
  have hcm : c ∈ u := by
    have hgl := List.getLast?_eq_getLast _ hune
    rw [hgl] at hcl
    have hgc : u.getLast hune = c := by
      exact (by simpa using hcl.symm : c = u.getLast hune).symm
    rw [← hgc]
    exact List.getLast_mem hune
  exact absurd hc2 (by rw [htok c (hupfx.subset hcm)]; simp)

theorem C1_main
    (pre post : Str) (p0 : Str × Str) (ps : List (Str × Str))
    (as ds : List Str) (b : Str)
    (hok : ∀ q ∈ p0 :: ps, pairOk q = true)
    (hpre : hasSub pre evMarker = false)
    (hpost : hasSub post evMarker = false)
    (hjoin : (as ++ b :: ds).join = pre ++ (tokOf (p0 :: ps) ++ post))
    (hlt : as.join.length < pre.length + (tokOf (p0 :: ps)).length)
    (hle : pre.length + (tokOf (p0 :: ps)).length ≤ as.join.length + b.length)
    (hwin : hasSub (as.getLastD [] ++ b) evMarker = true) :
    (runDecoder (as ++ b :: ds)).map DecState.events =
      (runDecoder [pre ++ (tokOf (p0 :: ps) ++ post)]).map DecState.events := by
  have hpreclean : ¬ occursIn evMarker pre := not_occursIn_of_hasSub hpre
  have hpostclean : ¬ occursIn evMarker post := not_occursIn_of_hasSub hpost
  have htoknb : ∀ c ∈ tokOf (p0 :: ps), isLineBreak c = false := tok_no_break hok
  have hS : as.join ++ (b ++ ds.join) = pre ++ (tokOf (p0 :: ps) ++ post) := by
    rw [← hjoin]
    simp
  -- ===== phase 1: the chunks before the completing one =====
  have hclean1 : ∀ (fl2 rem2 : Str) (pref : List Str) (c : Str) (suff : List Str),
      as = pref ++ c :: suff →
      fl2 ++ rem2 = ([] : Str) ++ ([] : Str) ++ pref.join →
      (∃ e, fl2 = ([] : Str) ++ e) →
      (fl2 = ([] : Str) ∨ ∃ cc, fl2.getLast? = some cc ∧ isLineBreak cc = true) →
      findMatch (rem2 ++ c) = none := by
    intro fl2 rem2 pref c suff hsplit hsum _ hbrkc
    have hsum' : fl2 ++ rem2 = pref.join := by simpa using hsum
    have hPjoin : (fl2 ++ (rem2 ++ c)) ++ suff.join = as.join := by
      rw [hsplit]
      simp [← hsum']
    have hPlen : (fl2 ++ (rem2 ++ c)).length ≤ as.join.length := by
      have hl := congrArg List.length hPjoin
      simp only [List.length_append] at hl ⊢
      omega
    have hPs : fl2 ++ ((rem2 ++ c) ++ (suff.join ++ (b ++ ds.join))) =
        pre ++ (tokOf (p0 :: ps) ++ post) := by
      calc fl2 ++ ((rem2 ++ c) ++ (suff.join ++ (b ++ ds.join)))
          = ((fl2 ++ (rem2 ++ c)) ++ suff.join) ++ (b ++ ds.join) := by simp
        _ = as.join ++ (b ++ ds.join) := by rw [hPjoin]
        _ = _ := hS
    have hPs' : (fl2 ++ (rem2 ++ c)) ++ (suff.join ++ (b ++ ds.join)) =
        pre ++ (tokOf (p0 :: ps) ++ post) := by
      rw [List.append_assoc]
      exact hPs
    have hfl2le : fl2.length ≤ pre.length := by
      rcases hbrkc with h0 | hbrk
      · rw [h0]; simp
      · refine break_prefix_le ⟨(rem2 ++ c) ++ (suff.join ++ (b ++ ds.join)), hPs⟩ ?_ hbrk htoknb
        have h1 : fl2.length ≤ (fl2 ++ (rem2 ++ c)).length := by
          simp only [List.length_append]
          omega
        omega
    obtain ⟨X, hX⟩ : fl2 <+: pre :=
      List.prefix_of_prefix_length_le ⟨_, hPs⟩ ⟨tokOf (p0 :: ps) ++ post, rfl⟩ hfl2le
    by_cases hcase : (fl2 ++ (rem2 ++ c)).length ≤ pre.length
    · apply findMatch_none_of_clean
      intro hocc
      apply hpreclean
      obtain ⟨Y, hY⟩ : (fl2 ++ (rem2 ++ c)) <+: pre :=
        List.prefix_of_prefix_length_le ⟨_, hPs'⟩ ⟨tokOf (p0 :: ps) ++ post, rfl⟩ hcase
      exact occursIn_of_within ⟨fl2, Y, by simp [← hY]⟩ hocc
    · have hprelt : pre.length < (fl2 ++ (rem2 ++ c)).length := by omega
      obtain ⟨tkp, htkp⟩ : pre <+: (fl2 ++ (rem2 ++ c)) :=
        List.prefix_of_prefix_length_le ⟨tokOf (p0 :: ps) ++ post, rfl⟩ ⟨_, hPs'⟩ (by omega)
      have hdecomp : rem2 ++ c = X ++ tkp := by
        apply @List.append_cancel_left _ fl2 _ _
        rw [← htkp, ← hX]
        simp
      have htkplen : tkp.length < (tokOf (p0 :: ps)).length := by
        have h1 := congrArg List.length htkp
        have h2 := congrArg List.length hPjoin
        simp only [List.length_append] at h1 h2
        omega
      have htkptp : tkp ++ (suff.join ++ (b ++ ds.join)) = tokOf (p0 :: ps) ++ post := by
        apply @List.append_cancel_left _ pre _ _
        rw [← List.append_assoc, htkp]
        exact hPs'
      obtain ⟨z, hz⟩ : tkp <+: tokOf (p0 :: ps) :=
        List.prefix_of_prefix_length_le ⟨_, htkptp⟩ ⟨post, rfl⟩ (by omega)
      have hzne : z ≠ [] := by
        intro he
        rw [he, List.append_nil] at hz
        rw [← hz] at htkplen
        omega
      have hXclean : ¬ occursIn evMarker X := by
        intro hocc
        exact hpreclean (occursIn_of_within ⟨fl2, [], by rw [← hX]; simp⟩ hocc)
      rw [hdecomp]
      exact findMatch_incomplete hok (by simp) hXclean hz hzne
  obtain ⟨fl1, rem1, St1, hrun1, hsum1, _, hbrk1, hE1, hB1, hLC1, hbnd1⟩ :=
    runWrites_none as initState initState [] [] rfl (by rw [flushAdv_nil]) rfl
      (Or.inl rfl) hclean1
  have hsum1' : fl1 ++ rem1 = as.join := by simpa using hsum1
  -- ===== decomposition of the stream around the token =====
  have hfull : fl1 ++ (rem1 ++ (b ++ ds.join)) = pre ++ (tokOf (p0 :: ps) ++ post) := by
    rw [← List.append_assoc, hsum1']
    exact hS
  have hfl1le : fl1.length ≤ pre.length := by
    rcases hbrk1 with h0 | hbrk
    · rw [h0]; simp
    · refine break_prefix_le ⟨rem1 ++ (b ++ ds.join), hfull⟩ ?_ hbrk htoknb
      have h1 := congrArg List.length hsum1'
      simp only [List.length_append] at h1
      omega
  obtain ⟨preRem, hXpre⟩ : fl1 <+: pre :=
    List.prefix_of_prefix_length_le ⟨_, hfull⟩ ⟨tokOf (p0 :: ps) ++ post, rfl⟩ hfl1le
  have hfull2 : (as.join ++ b) ++ ds.join = (pre ++ tokOf (p0 :: ps)) ++ post := by
    calc (as.join ++ b) ++ ds.join = as.join ++ (b ++ ds.join) := by simp
      _ = pre ++ (tokOf (p0 :: ps) ++ post) := hS
      _ = (pre ++ tokOf (p0 :: ps)) ++ post := by simp
  obtain ⟨postPart, hpp⟩ : (pre ++ tokOf (p0 :: ps)) <+: (as.join ++ b) := by
    apply List.prefix_of_prefix_length_le ⟨post, hfull2.symm⟩ ⟨ds.join, rfl⟩
    simp only [List.length_append]
    omega
  have hpost_eq : post = postPart ++ ds.join := by
    have h1 : (pre ++ tokOf (p0 :: ps)) ++ (postPart ++ ds.join) =
        (pre ++ tokOf (p0 :: ps)) ++ post := by
      rw [← List.append_assoc, hpp]
      exact hfull2
    exact (List.append_cancel_left h1).symm
  have hdecomp1 : rem1 ++ b = preRem ++ (tokOf (p0 :: ps) ++ postPart) := by
    apply @List.append_cancel_left _ fl1 _ _
    calc fl1 ++ (rem1 ++ b) = (fl1 ++ rem1) ++ b := by simp
      _ = as.join ++ b := by rw [hsum1']
      _ = (pre ++ tokOf (p0 :: ps)) ++ postPart := hpp.symm
      _ = fl1 ++ (preRem ++ (tokOf (p0 :: ps) ++ postPart)) := by rw [← hXpre]; simp
  have hpreRclean : ¬ occursIn evMarker preRem := by
    intro h
    exact hpreclean (by rw [← hXpre]; exact occursIn_append_right fl1 h)
  have hpostPclean : ¬ occursIn evMarker postPart := by
    intro h
    exact hpostclean (by rw [hpost_eq]; exact occursIn_append_left ds.join h)
  have hheads1 : rem1 ≠ [] → preRem ≠ [] → rem1.head? = preRem.head? := by
    intro hr hp
    calc rem1.head? = (rem1 ++ b).head? := (head?_append_left b hr).symm
      _ = (preRem ++ (tokOf (p0 :: ps) ++ postPart)).head? := by rw [hdecomp1]
      _ = preRem.head? := head?_append_left _ hp
  have hwin1 : hasSub (St1.last_chunk ++ b) evMarker = true := by
    rw [hLC1]
    exact hwin
  have hwinc : hasSub (initState.last_chunk ++
      (pre ++ (tokOf (p0 :: ps) ++ post))) evMarker = true := by
    apply hasSub_iff.mpr
    exact ⟨pre, payloadOf (p0 :: ps) ++ (evMarker ++ post), by simp [initState, tokOf]⟩
  -- ===== the write that completes the token, in both runs =====
  by_cases hobj : ∃ d : Dict, (if truthy (decodePayload (payloadOf (p0 :: ps)))
      then decodePayload (payloadOf (p0 :: ps)) else JVal.obj []) = JVal.obj d
  · obtain ⟨d, hW⟩ := hobj
    obtain ⟨St2, hw2, hE2, hB2, hLC2⟩ :=
      OEFwrite_match_ok initState St1 fl1 rem1 b preRem postPart p0 ps d hok rfl hE1 hB1
        hwin1 hdecomp1 hpreRclean hpostPclean hbnd1 hheads1 hW
    obtain ⟨Stc, hwc, hEc, hBc, hLCc⟩ :=
      OEFwrite_match_ok initState initState [] [] (pre ++ (tokOf (p0 :: ps) ++ post))
        pre post p0 ps d hok rfl (by rw [flushAdv_nil]) rfl hwinc (by simp)
        hpreclean hpostclean (Or.inl rfl) (fun h => absurd rfl h) hW
    rw [hXpre] at hE2
    simp only [List.nil_append] at hEc
    have hE2c : eraseBL St2 = eraseBL Stc := hE2.trans hEc.symm
    have hcur2 : St2.current_event_data =
        (if truthyOpt (dget d "uuid") then some d else none) := by
      have h1 := congrArg DecState.current_event_data hE2
      simpa [eraseBL] using h1
    have hcurc : Stc.current_event_data =
        (if truthyOpt (dget d "uuid") then some d else none) := by
      have h1 := congrArg DecState.current_event_data hEc
      simpa [eraseBL] using h1
    have hrwD : runWrites initState (as ++ b :: ds) = runWrites St1 (b :: ds) := by
      rw [runWrites_append as (b :: ds) initState, hrun1]
    have hrw2 : runWrites St1 (b :: ds) = runWrites St2 ds := by
      show (match OEFwrite St1 b with
        | Except.error e => Except.error e
        | Except.ok st' => runWrites st' ds) = _
      rw [hw2]
    by_cases huu : truthyOpt (dget d "uuid") = true
    · -- pending event: the tail chunks only buffer
      have hcur2' : St2.current_event_data = some d := by rw [hcur2, if_pos huu]
      have hclean3 : ∀ (pref : List Str) (c : Str) (suff : List Str),
          ds = pref ++ c :: suff →
          findMatch (St2.buffer ++ (pref.join ++ c)) = none := by
        intro pref c suff hsplit
        apply findMatch_none_of_clean
        intro hocc
        apply hpostclean
        have hinfix : (St2.buffer ++ (pref.join ++ c)) <+: post := by
          rw [hB2, hpost_eq, hsplit]
          exact ⟨suff.join, by simp⟩
        exact occursIn_of_within hinfix.isInfix hocc
      have hpend := runWrites_pending ds St2 (by rw [hcur2']; rfl) hclean3
      have hclose := OEFclose_events_congr
        { St2 with buffer := St2.buffer ++ ds.join, last_chunk := ds.getLastD St2.last_chunk }
        Stc (by rw [eraseBL_setBL]; exact hE2c)
        (by show St2.buffer ++ ds.join = Stc.buffer; rw [hB2, hBc, hpost_eq])
      have hD1 : runDecoder (as ++ b :: ds) = OEFclose
          { St2 with
            buffer := St2.buffer ++ ds.join,
            last_chunk := ds.getLastD St2.last_chunk } := by
        unfold runDecoder
        rw [hrwD, hrw2, hpend]
      have hD2 : runDecoder [pre ++ (tokOf (p0 :: ps) ++ post)] = OEFclose Stc := by
        unfold runDecoder
        show (match (match OEFwrite initState (pre ++ (tokOf (p0 :: ps) ++ post)) with
          | Except.error e => Except.error e
          | Except.ok st' => runWrites st' []) with
          | Except.error e => Except.error e
          | Except.ok st => OEFclose st) = _
        rw [hwc]
        rfl
      rw [hD1, hD2]
      exact hclose
    · -- no pending event: the tail chunks flush as plain verbose text
      have hcur2' : St2.current_event_data = none := by rw [hcur2, if_neg huu]
      have hcurc' : Stc.current_event_data = none := by rw [hcurc, if_neg huu]
      have hclean3 : ∀ (fl2 rem2 : Str) (pref : List Str) (c : Str) (suff : List Str),
          ds = pref ++ c :: suff →
          fl2 ++ rem2 = ([] : Str) ++ postPart ++ pref.join →
          (∃ e, fl2 = ([] : Str) ++ e) →
          (fl2 = ([] : Str) ∨ ∃ cc, fl2.getLast? = some cc ∧ isLineBreak cc = true) →
          findMatch (rem2 ++ c) = none := by
        intro fl2 rem2 pref c suff hsplit hsum _ _
        apply findMatch_none_of_clean
        intro hocc
        apply hpostclean
        have hinfix : (rem2 ++ c) <:+: post := by
          refine ⟨fl2, suff.join, ?_⟩
          rw [hpost_eq, hsplit]
          calc fl2 ++ (rem2 ++ c) ++ suff.join
              = (fl2 ++ rem2) ++ (c ++ suff.join) := by simp
            _ = (([] : Str) ++ postPart ++ pref.join) ++ (c ++ suff.join) := by rw [hsum]
            _ = postPart ++ (pref ++ c :: suff).join := by simp
        exact occursIn_of_within hinfix hocc
      obtain ⟨fl3, rem3, St3, hrun3, hsum3, _, _, hE3, hB3, _, hbnd3⟩ :=
        runWrites_none ds St2 St2 [] postPart hcur2' (by rw [flushAdv_nil]) hB2
          (Or.inl rfl) hclean3
      have hsum3' : fl3 ++ rem3 = post := by
        rw [hpost_eq]
        simpa using hsum3
      have hcl1 := OEFclose_flush_events St2 St3 fl3 rem3 hcur2' hE3 hB3 hbnd3
      rw [hsum3'] at hcl1
      have hcl2 := OEFclose_flush_events Stc Stc [] post hcurc' (by rw [flushAdv_nil])
        hBc (Or.inl rfl)
      simp only [List.nil_append] at hcl2
      have hev : (flushAdv St2 post).events = (flushAdv Stc post).events := by
        have h1 := flushAdv_congrBL St2 Stc post hE2c
        rw [← eraseBL_events, h1, eraseBL_events]
      have hD1 : runDecoder (as ++ b :: ds) = OEFclose St3 := by
        unfold runDecoder
        rw [hrwD, hrw2, hrun3]
      have hD2 : runDecoder [pre ++ (tokOf (p0 :: ps) ++ post)] = OEFclose Stc := by
        unfold runDecoder
        show (match (match OEFwrite initState (pre ++ (tokOf (p0 :: ps) ++ post)) with
          | Except.error e => Except.error e
          | Except.ok st' => runWrites st' []) with
          | Except.error e => Except.error e
          | Except.ok st => OEFclose st) = _
        rw [hwc]
        rfl
      rw [hD1, hD2, hcl1, hcl2, hev]
  · -- the decoded payload is a truthy non-mapping: both runs raise
    have hWne : ∀ dd : Dict, (if truthy (decodePayload (payloadOf (p0 :: ps)))
        then decodePayload (payloadOf (p0 :: ps)) else JVal.obj []) ≠ JVal.obj dd :=
      fun dd h => hobj ⟨dd, h⟩
    have hw2 := OEFwrite_match_err initState St1 fl1 rem1 b preRem postPart p0 ps
      hok rfl hE1 hB1 hwin1 hdecomp1 hpreRclean hWne
    have hwc := OEFwrite_match_err initState initState [] []
      (pre ++ (tokOf (p0 :: ps) ++ post)) pre post p0 ps
      hok rfl (by rw [flushAdv_nil]) rfl hwinc (by simp) hpreclean hWne
    have hrwD : runWrites initState (as ++ b :: ds) = runWrites St1 (b :: ds) := by
      rw [runWrites_append as (b :: ds) initState, hrun1]
    have hD1 : runDecoder (as ++ b :: ds) = .error .attributeError := by
      unfold runDecoder
      rw [hrwD]
      show (match (match OEFwrite St1 b with
        | Except.error e => Except.error e
        | Except.ok st' => runWrites st' ds) with
        | Except.error e => Except.error e
        | Except.ok st => OEFclose st) = _
      rw [hw2]
    have hD2 : runDecoder [pre ++ (tokOf (p0 :: ps) ++ post)] = .error .attributeError := by
      unfold runDecoder
      show (match (match OEFwrite initState (pre ++ (tokOf (p0 :: ps) ++ post)) with
        | Except.error e => Except.error e
        | Except.ok st' => runWrites st' []) with
        | Except.error e => Except.error e
        | Except.ok st => OEFclose st) = _
      rw [hwc]
    rw [hD1, hD2]


/-- C1 (counterexample): the same stream, consisting of exactly one embedded
event token, yields different event sequences under two splittings: fed as a
single chunk the token is decoded and swallowed, but with the closing marker
spread over three chunks the two-chunk detection window of `write` never
sees a full marker, so the buffer is never searched and `close()` flushes
the raw token as a verbose event. -/
theorem C1_counterexample :
    "\x1b[KQQ==\x1b[1D\x1b".data ++ ("[".data ++ "K".data) =
        tokOf [("QQ==".data, "1".data)] ∧
    pairOk ("QQ==".data, "1".data) = true ∧
    (runDecoder ["\x1b[KQQ==\x1b[1D\x1b".data, "[".data, "K".data]).map
        DecState.events ≠
      (runDecoder [tokOf [("QQ==".data, "1".data)]]).map DecState.events := by
  decide

/-- C1 (amended): for an input stream `pre ++ token ++ post` containing one
embedded event token (control markers occur nowhere else), any two ways of
splitting the stream into successive `write` chunks to a fresh decoder,
followed by `close()`, deliver the same sequence of events — provided that
in each splitting the chunk that completes the token, taken together with
the chunk just before it, exhibits a control marker, i.e. the two-chunk
detection window of `write` fires when the token completes. -/
theorem C1_chunk_split_invariance_in_window
    (pre post : Str) (p0 : Str × Str) (ps : List (Str × Str))
    (as ds : List Str) (b : Str) (as2 ds2 : List Str) (b2 : Str)
    (hok : ∀ q ∈ p0 :: ps, pairOk q = true)
    (hpre : hasSub pre evMarker = false)
    (hpost : hasSub post evMarker = false)
    (hjoin : (as ++ b :: ds).join = pre ++ (tokOf (p0 :: ps) ++ post))
    (hlt : as.join.length < pre.length + (tokOf (p0 :: ps)).length)
    (hle : pre.length + (tokOf (p0 :: ps)).length ≤ as.join.length + b.length)
    (hwin : hasSub (as.getLastD [] ++ b) evMarker = true)
    (hjoin2 : (as2 ++ b2 :: ds2).join = pre ++ (tokOf (p0 :: ps) ++ post))
    (hlt2 : as2.join.length < pre.length + (tokOf (p0 :: ps)).length)
    (hle2 : pre.length + (tokOf (p0 :: ps)).length ≤ as2.join.length + b2.length)
    (hwin2 : hasSub (as2.getLastD [] ++ b2) evMarker = true) :
    (runDecoder (as ++ b :: ds)).map DecState.events =
      (runDecoder (as2 ++ b2 :: ds2)).map DecState.events :=
  (C1_main pre post p0 ps as ds b hok hpre hpost hjoin hlt hle hwin).trans
    (C1_main pre post p0 ps as2 ds2 b2 hok hpre hpost hjoin2 hlt2 hle2 hwin2).symm

/-- C1 witness: a concrete window-respecting two-chunk splitting of the bare
token delivers the same events as feeding it in one chunk. -/
theorem C1_witness :
    (runDecoder (["\x1b[KQQ".data] ++ "==\x1b[1D\x1b[K".data :: ([] : List Str))).map
        DecState.events =
      (runDecoder (([] : List Str) ++
          "\x1b[KQQ==\x1b[1D\x1b[K".data :: ([] : List Str))).map DecState.events :=
  C1_chunk_split_invariance_in_window [] [] ("QQ==".data, "1".data) []
    ["\x1b[KQQ".data] [] "==\x1b[1D\x1b[K".data [] [] "\x1b[KQQ==\x1b[1D\x1b[K".data
    (by decide) (by decide) (by decide) (by decide) (by decide) (by decide) (by decide)
    (by decide) (by decide) (by decide) (by decide)
